import Mathlib

/-!
# A shallow embedding of the nufs storage engine

The development follows the C sources `sizes.h`, `bitmap.c`, `inode.c`,
`directory.c` and `storage.c`.

Conventions of the embedding.

* C `int` values are `Int`; conversions that C performs implicitly
  (`to_int`, `to_size_t`) are written out.
* The mapped image is a byte memory `Int → Nat`, addressed relative to the
  base of the mapping: page `p` starts at address `p * page_size`.  Integers
  stored in pages (indirect pointers, the `inum` of a dirent) are four bytes,
  least significant byte first.
* The two bitmaps of page 0 and the inode table of pages 1..16 are kept as
  separate fields of the state (`pages.c` and `inode.h`, which fix their
  layout, are not part of the sources); a pointer to an inode is its index.
  The table holds the records 0..1637; `get_inode` accepts every index below
  `num_inodes`, and a record past the table overlaps a data page.  The
  separate fields follow the code as long as the inodes an operation touches
  are records of the table (`in_table`) and the pages it touches are pages of
  the data area; the general properties of operations that write are stated
  under these conditions.
* A null pointer is `none`; dereferencing it makes the operation return
  `none` (the process faults).
* Loops are structural recursions on their trip count.
-/

namespace Nufs

set_option maxRecDepth 1000000

/-! ## sizes.h -/

/-- Size of a page in bytes (`page_size`). -/
def page_size : Int := 4096

/-- Number of pages of the image (`num_pages`). -/
def num_pages : Int := (1024 * 1024 * 1024) / 4096

/-- Index of the root inode. -/
def root_inode : Int := 0

/-- First page of the inode table. -/
def inode_start_page : Int := 1

/-- Page after the inode table. -/
def inode_end_page : Int := 17

/-- Number of inodes (`num_pages-1`). -/
def num_inodes : Int := num_pages - 1

/-! ## errno values -/

def ENOENT : Int := 2
def EIO : Int := 5
def EEXIST : Int := 17
def EISDIR : Int := 21
def EINVAL : Int := 22
def EFBIG : Int := 27
def ENOSPC : Int := 28

/-! ## C arithmetic -/

/-- Conversion to a 32-bit `int` (two's complement wrap-around). -/
def to_int (x : Int) : Int := (x + 2147483648) % 4294967296 - 2147483648

/-- Conversion to a 64-bit `size_t`. -/
def to_size_t (x : Int) : Int := x % 18446744073709551616

/-- C division, truncating towards zero. -/
def cdiv (a b : Int) : Int := Int.tdiv a b

/-- C remainder, with the sign of the dividend. -/
def cmod (a b : Int) : Int := Int.tmod a b

/-- Modelled from the spec: `sizeof(inode)`; `inode.h` is not under src/, the
spec and the comment in `sizes.h` give 40 bytes. -/
def sizeof_inode : Int := 40

/-- Modelled from the spec: `DIR_NAME` of `directory.h` (not under src/), the
capacity of the name field of a dirent, 48 bytes. -/
def DIR_NAME : Int := 48

/-- Modelled from the spec: `sizeof(dirent)`; `directory.h` is not under src/,
a dirent is a name field of `DIR_NAME` bytes followed by a 4-byte inode
index. -/
def sizeof_dirent : Int := 52

/-- Modelled from the spec: `bytes_to_pages` of `util.h` (not under src/),
the number of pages needed for a byte count, `⌈bytes / P⌉`. -/
def bytes_to_pages (bytes : Int) : Int := (bytes + (page_size - 1)) / page_size

/-! ## bitmap.c -/

/-- Value of bit `ii` of a bitmap given as bytes:
`(bitmap[ii>>3] & (0x80 >> (ii & 7))) != 0`. -/
def bitmap_get (bm : Nat → Nat) (ii : Nat) : Int :=
  if (bm (ii >>> 3) &&& (0x80 >>> (ii &&& 7))) ≠ 0 then 1 else 0

/-- Sets bit `ii` of the bitmap to `vv != 0`; the result is stored into a
`char`, hence taken modulo 256. -/
def bitmap_put (bm : Nat → Nat) (ii : Nat) (vv : Int) : Nat → Nat :=
  fun k =>
    if k = ii >>> 3 then
      if vv ≠ 0 then (bm (ii >>> 3) ||| (0x80 >>> (ii &&& 7))) % 256
      else (bm (ii >>> 3) &&& (255 - (0x80 >>> (ii &&& 7)))) % 256
    else bm k

/-! ## The state: inode records and the image -/

/-- An inode record (`inode.h` is not under src/; the fields are those the
sources use). -/
structure inode where
  refs : Int
  mode : Int
  size : Int
  ptrs0 : Int
  ptrs1 : Int
  iptr : Int
  atime : Int
  mtime : Int
deriving DecidableEq

/-- The record `memset(node, 0, sizeof(inode))` leaves. -/
def inode_zero : inode := ⟨0, 0, 0, 0, 0, 0, 0, 0⟩

/-- `node->ptrs[index]` for the two direct pointers. -/
def inode.ptrs (nd : inode) (index : Int) : Int :=
  if index = 0 then nd.ptrs0 else nd.ptrs1

/-- State of the mounted volume.  The field `inodes` stands for the records
of the inode table, the pages `inode_start_page` to `inode_end_page - 1`:
record `i` is `first_inode + i`, and the 1638 records with `0 <= i < 1638`
lie in these pages.  `get_inode` also hands out records with a larger (or a
negative) index; their bytes are bytes of data pages (or of page 0), so that
in the code a store to such a record is a store to a page and the other way
round.  The separate fields do not show this: they describe the code for
inodes of the table and pages of the data area, and that is what the general
properties below assume (`in_table`, `page_ok`). -/
structure FS where
  /-- bytes of the page bitmap -/
  pages_bitmap : Nat → Nat
  /-- bytes of the inode bitmap -/
  inode_bitmap : Nat → Nat
  /-- the inode table, by inode index -/
  inodes : Int → inode
  /-- bytes of the image, by address relative to the mapping base -/
  mem : Int → Nat
  /-- the seconds `clock_gettime(CLOCK_REALTIME)` reports -/
  clock : Int

/-- Replaces the record of inode `i`. -/
def FS.set_inode (s : FS) (i : Int) (nd : inode) : FS :=
  { s with inodes := fun j => if j = i then nd else s.inodes j }

/-- Address of page `pnum` (`pages_get_page`, relative to the mapping base). -/
def pages_get_page (pnum : Int) : Int := pnum * page_size

/-- Effect of `memset(addr, v, n)` on the memory. -/
def memset (mem : Int → Nat) (addr : Int) (v : Nat) (n : Int) : Int → Nat :=
  fun a => if addr ≤ a ∧ a < addr + n then v else mem a

/-- Reads the `int` stored at `addr` (little endian). -/
def read_int (mem : Int → Nat) (addr : Int) : Int :=
  to_int (((mem addr % 256 : Nat) : Int) + 256 * ((mem (addr + 1) % 256 : Nat) : Int)
    + 65536 * ((mem (addr + 2) % 256 : Nat) : Int)
    + 16777216 * ((mem (addr + 3) % 256 : Nat) : Int))

/-- Stores the `int` `v` at `addr` (little endian). -/
def write_int (mem : Int → Nat) (addr : Int) (v : Int) : Int → Nat :=
  fun a =>
    if a = addr then (v % 256).toNat
    else if a = addr + 1 then (v / 256 % 256).toNat
    else if a = addr + 2 then (v / 65536 % 256).toNat
    else if a = addr + 3 then (v / 16777216 % 256).toNat
    else mem a

/-! ## Page allocation (pages.c, modelled from the spec) -/

/-- Scan of `alloc_page`: the first index `i ≥ M` from `i` on whose bit is
clear, among the next `fuel` indices. -/
def alloc_page_scan (bm : Nat → Nat) : Nat → Nat → Option Nat
  | 0, _ => none
  | fuel + 1, i =>
    if inode_end_page ≤ (i : Int) ∧ bitmap_get bm i = 0 then some i
    else alloc_page_scan bm fuel (i + 1)

/-- Modelled from the spec: `alloc_page` of `pages.c` (not under src/).  "Scan
the page bitmap from 0; return the first clear bit ≥ M, set it, and return
`i`", `NoSpace` when there is none.  The page is not zeroed. -/
def alloc_page (s : FS) : Int × FS :=
  match alloc_page_scan s.pages_bitmap num_pages.toNat 0 with
  | none => (-ENOSPC, s)
  | some i => ((i : Int), { s with pages_bitmap := bitmap_put s.pages_bitmap i 1 })

/-- Modelled from the spec: `free_page` of `pages.c` (not under src/).  "Clear
bit `i` in the page bitmap." -/
def free_page (s : FS) (pnum : Int) : FS :=
  { s with pages_bitmap := bitmap_put s.pages_bitmap pnum.toNat 0 }

/-! ## inode.c -/

/-- Pointer to inode `num`: `none` (null) when `num >= num_inodes`.  The
pointer `first_inode + num` is given as the index `num`; it points into the
inode table only for `0 <= num < 1638` (see `FS`). -/
def get_inode (num : Int) : Option Int :=
  if num ≥ num_inodes then none else some num

/-- Scan of `alloc_inode`: first index from `ii` on whose bit is clear. -/
def alloc_inode_scan (bm : Nat → Nat) : Nat → Nat → Option Nat
  | 0, _ => none
  | fuel + 1, ii =>
    if bitmap_get bm ii = 0 then some ii else alloc_inode_scan bm fuel (ii + 1)

/-- Allocates an inode from the bitmap: the record is zeroed and `mtime` is
stamped.  For an index outside the inode table the `memset` and the store of
the code also change the bytes of a data page, which the field `mem` does not
show (see `FS`). -/
def alloc_inode (s : FS) : Int × FS :=
  match alloc_inode_scan s.inode_bitmap num_inodes.toNat 0 with
  | none => (-ENOSPC, s)
  | some ii =>
    ((ii : Int),
     { s with
       inode_bitmap := bitmap_put s.inode_bitmap ii 1
       inodes := fun j => if j = (ii : Int) then { inode_zero with mtime := s.clock }
                          else s.inodes j })

/-- Frees every page of the array that is `>= 0`. -/
def free_all_pages (s : FS) : List Int → FS
  | [] => s
  | p :: rest => free_all_pages (if p ≥ 0 then free_page s p else s) rest

/-- First loop of `grow_inode`: index of the first zero slot of the indirect
page, looking at slots `ii`, `ii+1`, ... ; `0` when there is none. -/
def grow_first_free (mem : Int → Nat) (iptrs : Int) : Nat → Int → Int
  | 0, _ => 0
  | fuel + 1, ii =>
    if read_int mem (iptrs + 4 * ii) = 0 then ii
    else grow_first_free mem iptrs fuel (ii + 1)

/-- Second loop of `grow_inode`: allocates and zeroes `n` more pages, `acc`
being the pages obtained so far; on failure frees them and yields `none`. -/
def grow_alloc : Nat → FS → List Int → Option (List Int) × FS
  | 0, s, acc => (some acc, s)
  | n + 1, s, acc =>
    let r := alloc_page s
    if r.1 < 0 then (none, free_all_pages r.2 acc)
    else
      grow_alloc n
        { r.2 with mem := memset r.2.mem (pages_get_page r.1) 0 page_size }
        (acc ++ [r.1])

/-- Third loop of `grow_inode`: attaches the pages in the order `ptrs[0]`,
`ptrs[1]`, indirect slots.  Returns the code of an early return, if any. -/
def grow_assign (node : Int) (iptrs : Option Int) :
    List Int → FS → Int → Option Int × FS
  | [], s, _ => (none, s)
  | new_page :: rest, s, iptr_ind =>
    if new_page < 0 then (some (-ENOSPC), s)
    else if (s.inodes node).ptrs0 = 0 then
      grow_assign node iptrs rest
        (s.set_inode node { s.inodes node with ptrs0 := new_page }) iptr_ind
    else if (s.inodes node).ptrs1 = 0 then
      grow_assign node iptrs rest
        (s.set_inode node { s.inodes node with ptrs1 := new_page }) iptr_ind
    else
      match iptrs with
      | none => (some (-EFBIG), s)
      | some ip =>
        if to_size_t iptr_ind < 1024 ∧ read_int s.mem (ip + 4 * iptr_ind) = 0 then
          grow_assign node iptrs rest
            { s with mem := write_int s.mem (ip + 4 * iptr_ind) new_page }
            (iptr_ind + 1)
        else (some (-EFBIG), s)

/-- The last part of `grow_inode`: allocates `add_pages` pages, attaches them
starting at the indirect slot `iptr_ind` and sets the size. -/
def grow_inode_finish (s1 : FS) (node : Int) (size : Int) (add_pages : Int)
    (iptrs : Option Int) (iptr_ind : Int) : Int × FS :=
  match grow_alloc add_pages.toNat s1 [] with
  | (none, s2) => (-ENOSPC, s2)
  | (some new_pages, s2) =>
    match grow_assign node iptrs new_pages s2 iptr_ind with
    | (some rv, s3) => (rv, s3)
    | (none, s3) =>
      (0, s3.set_inode node
            { s3.inodes node with size := to_int ((s3.inodes node).size + size) })

/-- The part of `grow_inode` after the indirect page was obtained: finds the
first free indirect slot, then allocates and attaches the pages. -/
def grow_inode_attach (s1 : FS) (node : Int) (size : Int) (add_pages : Int) : Int × FS :=
  let iptrs : Option Int :=
    if (s1.inodes node).iptr ≠ 0 then some (pages_get_page (s1.inodes node).iptr)
    else none
  let iptr_ind : Int :=
    match iptrs with
    | none => 0
    | some ip => grow_first_free s1.mem ip 1024 0
  grow_inode_finish s1 node size add_pages iptrs iptr_ind

/-- Grows inode `node` by `size` bytes, allocating data pages as needed. -/
def grow_inode (s : FS) (node : Int) (size : Int) : Int × FS :=
  let old_pages_used := bytes_to_pages (s.inodes node).size
  let new_size := to_int ((s.inodes node).size + size)
  let new_pages_used := bytes_to_pages new_size
  if to_size_t new_pages_used > (8 + 4096) / 4 then (-EFBIG, s)
  else
    let add_pages := new_pages_used - old_pages_used
    -- the indirect page, when the inode starts to need one
    let r1 : Option FS :=
      if old_pages_used < 3 ∧ new_pages_used ≥ 3 then
        let r := alloc_page s
        if r.1 < 0 then none
        else
          some ({ r.2 with mem := memset r.2.mem (pages_get_page r.1) 0 page_size }.set_inode
            node { s.inodes node with iptr := r.1 })
      else some s
    match r1 with
    | none => (-ENOSPC, s)
    | some s1 => grow_inode_attach s1 node size add_pages

/-- First loop of `shrink_inode`: `iptrs_ind` after the search for the last
used slot (`1024` when no slot is zero). -/
def shrink_last_used (mem : Int → Nat) (iptrs : Int) : Nat → Int → Int
  | 0, iptrs_ind => iptrs_ind
  | fuel + 1, iptrs_ind =>
    if read_int mem (iptrs + 4 * iptrs_ind) = 0 then iptrs_ind - 1
    else shrink_last_used mem iptrs fuel (iptrs_ind + 1)

/-- Second loop of `shrink_inode`: frees `n` pages, indirect slots first,
then `ptrs[1]`, then `ptrs[0]`.  Returns the code of an early return, if
any. -/
def shrink_free (node : Int) (iptrs : Option Int) : Nat → FS → Int → Option Int × FS
  | 0, s, _ => (none, s)
  | n + 1, s, iptrs_ind =>
    let use_iptr : Option Int :=
      match iptrs with
      | none => none
      | some ip =>
        if to_size_t iptrs_ind < 1024 ∧ read_int s.mem (ip + 4 * iptrs_ind) ≠ 0
        then some ip else none
    match use_iptr with
    | some ip =>
      let temp := read_int s.mem (ip + 4 * iptrs_ind)
      let s1 := free_page { s with mem := write_int s.mem (ip + 4 * iptrs_ind) 0 } temp
      let s2 :=
        if iptrs_ind = 0 then
          (free_page s1 (s1.inodes node).iptr).set_inode node
            { s1.inodes node with iptr := 0 }
        else s1
      shrink_free node iptrs n s2 (iptrs_ind - 1)
    | none =>
      if (s.inodes node).ptrs1 ≠ 0 then
        shrink_free node iptrs n
          ((free_page s (s.inodes node).ptrs1).set_inode node
            { s.inodes node with ptrs1 := 0 }) iptrs_ind
      else if (s.inodes node).ptrs0 ≠ 0 then
        shrink_free node iptrs n
          ((free_page s (s.inodes node).ptrs0).set_inode node
            { s.inodes node with ptrs0 := 0 }) iptrs_ind
      else (some (- EIO), s)

/-- Shrinks inode `node` by `size` bytes, the reverse of `grow_inode`. -/
def shrink_inode (s : FS) (node : Int) (size : Int) : Int × FS :=
  if size > (s.inodes node).size then (-EINVAL, s)
  else
    let old_pages_used := bytes_to_pages (s.inodes node).size
    let new_size := to_int ((s.inodes node).size - size)
    let new_pages_used := bytes_to_pages new_size
    let free_pages := old_pages_used - new_pages_used
    let iptrs : Option Int :=
      if (s.inodes node).iptr ≠ 0 then some (pages_get_page (s.inodes node).iptr)
      else none
    let iptrs_ind : Int :=
      match iptrs with
      | none => 0
      | some ip => shrink_last_used s.mem ip 1024 0
    match shrink_free node iptrs free_pages.toNat s iptrs_ind with
    | (some rv, s1) => (rv, s1)
    | (none, s1) =>
      (0, s1.set_inode node
            { s1.inodes node with size := to_int ((s1.inodes node).size - size) })

/-- Drops one reference of inode `node`; at zero the pages are released and
the bit of the inode is cleared (never for the inode at the table start). -/
def free_inode (s : FS) (node : Int) : Int × FS :=
  let s1 := s.set_inode node { s.inodes node with refs := to_int ((s.inodes node).refs - 1) }
  if (s1.inodes node).refs > 0 then (0, s1)
  else
    let s2 := (shrink_inode s1 node (s1.inodes node).size).2
    if node > 0 then
      let inode_index := node
      if inode_index < 0 ∨ inode_index ≥ num_inodes then (-ENOENT, s2)
      else (0, { s2 with inode_bitmap := bitmap_put s2.inode_bitmap inode_index.toNat 0 })
    else (-ENOENT, s2)

/-- Address of the page at position `index` of the inode, `none` (null) when
the index is past `size / page_size` or an indirect page is needed and
absent.  Indices are never negative at the call sites. -/
def inode_get_page (s : FS) (node : Int) (index : Int) : Option Int :=
  if index > cdiv (s.inodes node).size page_size then none
  else if index < 2 then some (pages_get_page ((s.inodes node).ptrs index))
  else if (s.inodes node).iptr ≠ 0 then
    some (pages_get_page
      (read_int s.mem (pages_get_page (s.inodes node).iptr + 4 * (index - 2))))
  else none

/-! ## util.h and slist.c (modelled from the spec) -/

/-- Modelled from the spec: `streq` of `util.h` (not under src/), equality of
two NUL-terminated strings, here of the string at address `addr` of the
image with the string `name` (given without its terminator). -/
def streq_mem (mem : Int → Nat) (addr : Int) : List Nat → Bool
  | [] => mem addr == 0
  | c :: cs => mem addr == c && streq_mem mem (addr + 1) cs

/-- Modelled from the spec: `streq` of `util.h` on two strings of the caller. -/
def streq (a b : List Nat) : Bool := a == b

/-- Modelled from the spec: the pieces of a non-empty text between the
delimiters. -/
def split_pieces (delim : Nat) : List Nat → List (List Nat)
  | [] => [[]]
  | c :: cs =>
    if c = delim then [] :: split_pieces delim cs
    else
      match split_pieces delim cs with
      | [] => [[c]]
      | x :: xs => (c :: x) :: xs

/-- Modelled from the spec: `s_split` of `slist.c` (not under src/), the
components of a path after its leading `/`; the empty text has none
(`tree_lookup("/")` is the root). -/
def s_split (text : List Nat) (delim : Nat) : List (List Nat) :=
  if text = [] then [] else split_pieces delim text

/-- The part of a path after its last `/`. -/
def path_file (path : List Nat) : List Nat :=
  (path.reverse.takeWhile (fun c => c ≠ 47)).reverse

/-- Modelled from the spec: `path_file_index` of `util.h` (not under src/),
"the basename starts after the last `/`". -/
def path_file_index (path : List Nat) : Int :=
  (path.length : Int) - ((path_file path).length : Int)

/-- Effect of `strlcpy(dst, src, size)`: at most `size - 1` bytes of `src`
and a terminator. -/
def strlcpy (mem : Int → Nat) (dst : Int) (src : List Nat) (size : Int) : Int → Nat :=
  fun a =>
    if dst ≤ a ∧ a < dst + ((min src.length (size - 1).toNat : Nat) : Int) then
      src.getD (a - dst).toNat 0
    else if a = dst + ((min src.length (size - 1).toNat : Nat) : Int) then 0
    else mem a

/-- Effect of `memmove(dst, src, n)`. -/
def memmove (mem : Int → Nat) (dst src : Int) (n : Int) : Int → Nat :=
  fun a => if dst ≤ a ∧ a < dst + n then mem (src + (a - dst)) else mem a

/-! ## directory.c -/

/-- Number of dirents in a page, `page_size / sizeof(dirent)`. -/
def ents_per_page : Int := cdiv page_size sizeof_dirent

/-- Address of the dirent `ii` of the dirent array at `page`. -/
def dirent_addr (page : Int) (ii : Int) : Int := page + sizeof_dirent * ii

/-- The `inum` field of the dirent at `ent`. -/
def dirent_inum (mem : Int → Nat) (ent : Int) : Int := read_int mem (ent + DIR_NAME)

/-- Looks in `size` dirents from index `ii` on for `name`: the inum of the
first entry with that name, `-1` if there is none. -/
def page_find_name (mem : Int → Nat) (page : Int) (name : List Nat) : Nat → Int → Int
  | 0, _ => -1
  | fuel + 1, ii =>
    if streq_mem mem (dirent_addr page ii) name then dirent_inum mem (dirent_addr page ii)
    else page_find_name mem page name fuel (ii + 1)

/-- Looks in `size` dirents from index `ii` on for `name`: the index of the
first entry with that name, `-1` if there is none. -/
def page_find_name_index (mem : Int → Nat) (page : Int) (name : List Nat) : Nat → Int → Int
  | 0, _ => -1
  | fuel + 1, ii =>
    if streq_mem mem (dirent_addr page ii) name then ii
    else page_find_name_index mem page name fuel (ii + 1)

/-- Number of dirents in page `index` of directory `dd`. -/
def directory_page_length (s : FS) (dd : Int) (index : Int) : Int :=
  let num_ents := to_int (to_size_t (s.inodes dd).size / sizeof_dirent)
  let last_page := cdiv (s.inodes dd).size page_size
  if index < last_page then ents_per_page
  else num_ents - ents_per_page * last_page

/-- Number of pages that hold the dirents of directory `dd`. -/
def directory_num_pages (s : FS) (dd : Int) : Int :=
  let npages := cdiv (s.inodes dd).size page_size
  if (s.inodes dd).size > npages * page_size then npages + 1 else npages

/-- Loop of `directory_lookup` over the pages `ii`, `ii+1`, ... -/
def directory_lookup_loop (s : FS) (dd : Int) (name : List Nat) : Nat → Int → Int
  | 0, _ => -ENOENT
  | fuel + 1, ii =>
    match inode_get_page s dd ii with
    | none => - EIO
    | some curr_dir_page =>
      let arr_size := directory_page_length s dd ii
      let inode := page_find_name s.mem curr_dir_page name arr_size.toNat 0
      if inode > 0 then inode
      else directory_lookup_loop s dd name fuel (ii + 1)

/-- Looks for `name` in the directory inode `dd`: the inode index of the
name, or a negative error code. -/
def directory_lookup (s : FS) (dd : Int) (name : List Nat) : Int :=
  directory_lookup_loop s dd name (directory_num_pages s dd).toNat 0

/-- Loop of `tree_lookup` over the components still to resolve. -/
def tree_walk (s : FS) : List (List Nat) → Int → Option Int
  | [], iwalk => some iwalk
  | data :: next, iwalk =>
    match get_inode iwalk with
    | none => none
    | some node =>
      let iwalk1 := directory_lookup s node data
      if iwalk1 < 0 then some iwalk1 else tree_walk s next iwalk1

/-- Resolves `path` from the root: the inode index, or a negative error
code. -/
def tree_lookup (s : FS) (path : List Nat) : Option Int :=
  tree_walk s (s_split (path.drop 1) 47) root_inode

/-- Adds the name `name` for inode `inum` to the directory `dd`. -/
def directory_put (s : FS) (dd : Int) (name : List Nat) (inum : Int) : Option (Int × FS) :=
  let r := grow_inode s dd sizeof_dirent
  if r.1 ≠ 0 then some (r.1, r.2)
  else
    match get_inode inum with
    | none => some (-ENOENT, r.2)
    | some node =>
      let num_ents := to_int (to_size_t (r.2.inodes dd).size / sizeof_dirent)
      let new_ind := num_ents - 1
      let page_ind := cdiv new_ind ents_per_page
      match inode_get_page r.2 dd page_ind with
      | none => none
      | some dir_page =>
        let entry := dirent_addr dir_page (cmod new_ind ents_per_page)
        let mem1 := strlcpy r.2.mem entry name DIR_NAME
        let mem2 := write_int mem1 (entry + DIR_NAME) inum
        let s2 : FS := { r.2 with mem := mem2 }
        some (0, s2.set_inode node
          { s2.inodes node with refs := to_int ((s2.inodes node).refs + 1) })

/-- Search loop of `directory_delete`: the last page looked at and the index
found in it (`curr_page`, `find`), or the code of an early return. -/
def directory_delete_find (s : FS) (dd : Int) (name : List Nat) :
    Nat → Int → Option Int → Int → Except Int (Option Int × Int)
  | 0, _, curr_page, find => .ok (curr_page, find)
  | fuel + 1, ii, _, _ =>
    match inode_get_page s dd ii with
    | none => .error (- EIO)
    | some curr_page =>
      let arr_size := directory_page_length s dd ii
      let find := page_find_name_index s.mem curr_page name arr_size.toNat 0
      if find ≥ 0 then .ok (some curr_page, find)
      else directory_delete_find s dd name fuel (ii + 1) (some curr_page) find

/-- Deletes the first entry called `name` from the directory `dd`: drops a
reference of its inode, moves the last entry into its place and shrinks the
directory. -/
def directory_delete (s : FS) (dd : Int) (name : List Nat) : Option (Int × FS) :=
  let num_ents := to_int (to_size_t (s.inodes dd).size / sizeof_dirent)
  let dir_pages := directory_num_pages s dd
  if num_ents = 0 then some (-ENOENT, s)
  else
    match directory_delete_find s dd name dir_pages.toNat 0 none 0 with
    | .error rv => some (rv, s)
    | .ok (curr_page, find) =>
      if find < 0 then some (-ENOENT, s)
      else
        let last_page_index := directory_page_length s dd (dir_pages - 1) - 1
        match inode_get_page s dd (dir_pages - 1), curr_page with
        | some last_page, some cp =>
          let last := dirent_addr last_page last_page_index
          let remove := dirent_addr cp find
          match get_inode (dirent_inum s.mem remove) with
          | none => none
          | some node =>
            let r := free_inode s node
            if r.1 ≠ 0 then some (r.1, r.2)
            else
              let mem1 := memmove r.2.mem remove last sizeof_dirent
              let mem2 := memset mem1 last 0 sizeof_dirent
              some (shrink_inode { r.2 with mem := mem2 } dd sizeof_dirent)
        | _, _ => none

/-- Marks a fresh volume: zeroes the metadata page (both bitmaps), takes
`inode_end_page - inode_start_page` pages and creates the root inode.  Does
nothing when a bit below `inode_end_page` is set in the inode bitmap. -/
def directory_init (s : FS) : FS :=
  if (List.range inode_end_page.toNat).any (fun ii => bitmap_get s.inode_bitmap ii ≠ 0) then s
  else
    let s0 : FS :=
      { s with
        pages_bitmap := fun _ => 0
        inode_bitmap := fun _ => 0
        mem := memset s.mem (pages_get_page 0) 0 page_size }
    let s1 := (List.range (inode_end_page - inode_start_page).toNat).foldl
      (fun t _ => (alloc_page t).2) s0
    let s2 := (alloc_inode s1).2
    s2.set_inode 0 { s2.inodes 0 with mode := 0o040755, size := 0, refs := 1 }

/-! ## storage.c -/

/-- `S_ISDIR(mode)`, that is `(mode & S_IFMT) == S_IFDIR` on the bits of the
`int` (two's complement, so a negative mode keeps its low bits). -/
def S_ISDIR (mode : Int) : Bool := ((mode % 4294967296).toNat &&& 0o170000) == 0o040000

/-- The mode of a symbolic link, `S_IFLNK | 0777`. -/
def S_IFLNK_0777 : Int := 0o120777

/-- Resolves `path`: the return value and, on success, the inode index
(which also stands for the inode pointer). -/
def path_get_inode (s : FS) (path : List Nat) : Option (Int × Int) :=
  match tree_lookup s path with
  | none => none
  | some inode_index =>
    if inode_index < 0 then some (inode_index, 0)
    else
      match get_inode inode_index with
      | none => some (- EIO, 0)
      | some node => some (0, node)

/-- The fields of `struct stat` that `storage_stat` fills. -/
structure stat where
  st_ino : Int
  st_mode : Int
  st_nlink : Int
  st_size : Int
  st_atime : Int
  st_mtime : Int
deriving DecidableEq

/-- Status information of the object at `path`. -/
def storage_stat (s : FS) (path : List Nat) : Option (Int × stat) :=
  match path_get_inode s path with
  | none => none
  | some (rv, node) =>
    if rv ≠ 0 then some (rv, ⟨0, 0, 0, 0, 0, 0⟩)
    else
      some (0, ⟨node, (s.inodes node).mode, (s.inodes node).refs, (s.inodes node).size,
        (s.inodes node).atime, (s.inodes node).mtime⟩)

/-- The bytes `read_page` copies: from `page[ind]` on, while
`read_bytes < length` and `ind < page_size`. -/
def read_page (mem : Int → Nat) (page : Int) (length : Int) : Nat → Int → Int → List Nat
  | 0, _, _ => []
  | fuel + 1, ind, read_bytes =>
    if read_bytes < length ∧ ind < page_size then
      mem (page + ind) :: read_page mem page length fuel (ind + 1) (read_bytes + 1)
    else []

/-- Loop of `storage_read`: the bytes copied into the buffer.  Every round
copies at least one byte, so `bytes_left` rounds suffice. -/
def storage_read_loop (s : FS) (node : Int) : Nat → Int → Int → Int → List Nat
  | 0, _, _, _ => []
  | fuel + 1, page_index, page_offset, bytes_left =>
    if bytes_left > 0 then
      match inode_get_page s node page_index with
      | none => []
      | some page =>
        let got := read_page s.mem page bytes_left bytes_left.toNat page_offset 0
        got ++ storage_read_loop s node fuel (page_index + 1) 0 (bytes_left - (got.length : Int))
    else []

/-- Reads up to `size` bytes at `offset` of the file at `path`: the return
value, the bytes placed at the start of the buffer, and the state. -/
def storage_read (s : FS) (path : List Nat) (size : Int) (offset : Int) :
    Option (Int × List Nat × FS) :=
  match path_get_inode s path with
  | none => none
  | some (rv, node) =>
    if rv ≠ 0 then some (rv, [], s)
    else if S_ISDIR (s.inodes node).mode then some (-EISDIR, [], s)
    else if offset ≥ (s.inodes node).size then some (0, [], s)
    else
      let s1 := s.set_inode node { s.inodes node with atime := s.clock }
      let page_index := to_int (cdiv offset page_size)
      let bytes_left :=
        if to_size_t size > to_size_t ((s1.inodes node).size - offset)
        then to_int ((s1.inodes node).size - offset) else to_int size
      let page_offset := to_int (cmod offset page_size)
      let got := storage_read_loop s1 node bytes_left.toNat page_index page_offset bytes_left
      some ((got.length : Int), got, s1)

/-- The memory after `write_page`, and the number of bytes written: bytes
`buf[write_bytes..]` go to `page[ind..]` while `write_bytes < length` and
`ind < page_size`. -/
def write_page (page : Int) (buf : List Nat) (length : Int) :
    Nat → (Int → Nat) → Int → Int → (Int → Nat) × Int
  | 0, mem, _, write_bytes => (mem, write_bytes)
  | fuel + 1, mem, ind, write_bytes =>
    if write_bytes < length ∧ ind < page_size then
      write_page page buf length fuel
        (fun a => if a = page + ind then buf.getD write_bytes.toNat 0 else mem a)
        (ind + 1) (write_bytes + 1)
    else (mem, write_bytes)

/-- Loop of `storage_write`: `none` when a page is missing (the function
then returns 0), else the number of bytes written. -/
def storage_write_loop (node : Int) (buf : List Nat) :
    Nat → FS → Int → Int → Int → Int → Option Int × FS
  | 0, s, _, _, _, write_bytes => (some write_bytes, s)
  | fuel + 1, s, page_index, page_offset, bytes_left, write_bytes =>
    if bytes_left > 0 then
      match inode_get_page s node page_index with
      | none => (none, s)
      | some page =>
        let r := write_page page (buf.drop write_bytes.toNat) bytes_left bytes_left.toNat
          s.mem page_offset 0
        storage_write_loop node buf fuel { s with mem := r.1 } (page_index + 1) 0
          (bytes_left - r.2) (write_bytes + r.2)
    else (some write_bytes, s)

/-- Sets the size of the file at `path` to `size`. -/
def storage_truncate (s : FS) (path : List Nat) (size : Int) : Option (Int × FS) :=
  match path_get_inode s path with
  | none => none
  | some (rv, node) =>
    if rv ≠ 0 then some (rv, s)
    else if size > (s.inodes node).size then
      some (grow_inode s node (to_int (size - (s.inodes node).size)))
    else if size < (s.inodes node).size then
      some (shrink_inode s node (to_int ((s.inodes node).size - size)))
    else some (0, s)

/-- Writes the `size` bytes of `buf` at `offset` of the file at `path`. -/
def storage_write (s : FS) (path : List Nat) (buf : List Nat) (size : Int) (offset : Int) :
    Option (Int × FS) :=
  match path_get_inode s path with
  | none => none
  | some (rv, node) =>
    if rv ≠ 0 then some (rv, s)
    else if S_ISDIR (s.inodes node).mode then some (-EISDIR, s)
    else
      -- the offset may lie past the end
      let r1 : Option (Int × FS) :=
        if offset > (s.inodes node).size then storage_truncate s path offset
        else some (0, s)
      match r1 with
      | none => none
      | some (rv1, s1) =>
        if rv1 ≠ 0 then some (rv1, s1)
        else
          let r2 : Int × FS :=
            if to_size_t (offset + size) > to_size_t (s1.inodes node).size then
              grow_inode s1 node (to_int (to_size_t (offset + size - (s1.inodes node).size)))
            else (0, s1)
          if r2.1 ≠ 0 then some (r2.1, r2.2)
          else
            let s3 := r2.2.set_inode node { r2.2.inodes node with mtime := r2.2.clock }
            let page_index := to_int (cdiv offset page_size)
            let bytes_left := to_int size
            let page_offset := to_int (cmod offset page_size)
            match storage_write_loop node buf bytes_left.toNat s3 page_index page_offset
                bytes_left 0 with
            | (none, s4) => some (0, s4)
            | (some write_bytes, s4) => some (write_bytes, s4)

/-- The parent directory of `path`: its first `path_file_index(path) - 1`
bytes. -/
def get_parent_dir (path : List Nat) : List Nat :=
  path.take (path_file_index path - 1).toNat

/-- Creates an object with mode `mode` at `path`. -/
def storage_mknod (s : FS) (path : List Nat) (mode : Int) : Option (Int × FS) :=
  if streq path [47] then some (0, s)
  else
    let dir := get_parent_dir path
    match path_get_inode s dir with
    | none => none
    | some (rv, dir_node) =>
      if rv ≠ 0 then some (rv, s)
      else
        let r := alloc_inode s
        let new_inode := r.1
        if new_inode < 0 then some (new_inode, r.2)
        else
          match get_inode new_inode with
          | none => none
          | some new_node =>
            if new_inode = 0 then some (- EIO, r.2)
            else
              let s1 := r.2.set_inode new_node { r.2.inodes new_node with mode := mode }
              let name := path.drop (path_file_index path).toNat
              if directory_lookup s1 dir_node name ≥ 0 then some (-EEXIST, s1)
              else directory_put s1 dir_node name new_inode

/-- Removes the name `path`, and the object with its last name. -/
def storage_unlink (s : FS) (path : List Nat) : Option (Int × FS) :=
  match path_get_inode s path with
  | none => none
  | some (rv, _) =>
    if rv ≠ 0 then some (rv, s)
    else
      match path_get_inode s (get_parent_dir path) with
      | none => none
      | some (rv1, dir_node) =>
        if rv1 ≠ 0 then some (rv1, s)
        else directory_delete s dir_node (path.drop (path_file_index path).toNat)

/-- Creates the name `to_path` for the object at `from_path`. -/
def storage_link (s : FS) (from_path to_path : List Nat) : Option (Int × FS) :=
  match path_get_inode s from_path with
  | none => none
  | some (rv, from_inode) =>
    if rv ≠ 0 then some (rv, s)
    else
      match path_get_inode s (get_parent_dir to_path) with
      | none => none
      | some (rv1, to_dir) =>
        if rv1 ≠ 0 then some (rv1, s)
        else directory_put s to_dir (to_path.drop (path_file_index to_path).toNat) from_inode

/-- Renames `from_path` to `to_path`. -/
def storage_rename (s : FS) (from_path to_path : List Nat) : Option (Int × FS) :=
  let from_dir := get_parent_dir from_path
  let to_dir := get_parent_dir to_path
  let from_file := from_path.drop (path_file_index from_path).toNat
  let to_file := to_path.drop (path_file_index to_path).toNat
  match path_get_inode s from_dir with
  | none => none
  | some (rv, from_dir_node) =>
    if rv ≠ 0 then some (rv, s)
    else
      match path_get_inode s to_dir with
      | none => none
      | some (rv1, to_dir_node) =>
        if rv1 ≠ 0 then some (rv1, s)
        else
          match path_get_inode s from_path with
          | none => none
          | some (rv2, move_inode) =>
            if rv2 ≠ 0 then some (rv2, s)
            else
              -- if the target already exists, delete it
              match directory_delete s to_dir_node to_file with
              | none => none
              | some (_, s1) =>
                match directory_put s1 to_dir_node to_file move_inode with
                | none => none
                | some (rv3, s2) =>
                  if rv3 ≠ 0 then some (rv3, s2)
                  else directory_delete s2 from_dir_node from_file

/-- Sets the modification time from `ts0` and the access time from `ts1`. -/
def storage_set_time (s : FS) (path : List Nat) (ts0 ts1 : Int) : Option (Int × FS) :=
  match path_get_inode s path with
  | none => none
  | some (rv, node) =>
    if rv ≠ 0 then some (rv, s)
    else some (0, s.set_inode node { s.inodes node with mtime := ts0, atime := ts1 })

/-- Creates the symbolic link `from_path` whose content is the string `to_path` and its
terminator. -/
def storage_symlink (s : FS) (to_path from_path : List Nat) : Option (Int × FS) :=
  match storage_mknod s from_path S_IFLNK_0777 with
  | none => none
  | some (rv, s1) =>
    if rv ≠ 0 then some (rv, s1)
    else
      match storage_write s1 from_path (to_path ++ [0]) ((to_path.length : Int) + 1) 0 with
      | none => none
      | some (w, s2) =>
        if to_size_t w ≥ (to_path.length : Int) then some (0, s2) else some (- EIO, s2)

/-- Overwrites the mode of the object at `path`. -/
def storage_chmod (s : FS) (path : List Nat) (mode : Int) : Option (Int × FS) :=
  match path_get_inode s path with
  | none => none
  | some (rv, node) =>
    if rv ≠ 0 then some (rv, s)
    else some (0, s.set_inode node { s.inodes node with mode := mode })

/-! ## Concrete volumes and paths used by the examples -/

/-- The state after an operation (the blank state when the operation
faults). -/
def state_after (r : Option (Int × FS)) : FS :=
  match r with
  | some (_, t) => t
  | none => ⟨fun _ => 0, fun _ => 0, fun _ => inode_zero, fun _ => 0, 0⟩

/-- The return value of an operation (`none` when the operation faults). -/
def code_of {α : Type} (r : Option (Int × α)) : Option Int := r.map Prod.fst

/-- The `struct stat` an operation filled. -/
def stat_of (r : Option (Int × stat)) : stat :=
  match r with
  | some (_, t) => t
  | none => ⟨0, 0, 0, 0, 0, 0⟩

/-- The bytes a read placed in the buffer. -/
def bytes_of (r : Option (Int × List Nat × FS)) : List Nat :=
  match r with
  | some (_, b, _) => b
  | none => []

/-- An image of zero bytes, as `pages_init` maps it from a new file. -/
def blank : FS := ⟨fun _ => 0, fun _ => 0, fun _ => inode_zero, fun _ => 0, 1000⟩

/-- The volume after `storage_init` on a new image. -/
def fresh : FS := directory_init blank

/-- The path `/a`. -/
def path_a : List Nat := [47, 97]

/-- The path `/b`. -/
def path_b : List Nat := [47, 98]

/-- The path `/f`. -/
def path_f : List Nat := [47, 102]

/-- The path `/f/x`. -/
def path_f_x : List Nat := [47, 102, 47, 120]

/-- The path `/` followed by 48 letters `b`: a basename one byte longer than
a dirent name can hold. -/
def path_long : List Nat := 47 :: List.replicate 48 98

/-- The bytes of `hello`. -/
def hello : List Nat := [104, 101, 108, 108, 111]

/-- The mode of a regular file, `S_IFREG | 0644`. -/
def mode_file : Int := 0o100644

/-- The fresh volume with the regular file `/a`. -/
def vol_a : FS := state_after (storage_mknod fresh path_a mode_file)

/-- The fresh volume with the regular files `/a` and `/b`. -/
def vol_ab : FS := state_after (storage_mknod vol_a path_b mode_file)

/-- The fresh volume with the regular file `/f`. -/
def vol_f : FS := state_after (storage_mknod fresh path_f mode_file)

/-- The volume `vol_f` after `hello` was written to `/f`. -/
def vol_f_hello : FS := state_after (storage_write vol_f path_f hello 5 0)

/-- The volume `vol_f_hello` after `/f` was truncated to 2 bytes. -/
def vol_f_cut : FS := state_after (storage_truncate vol_f_hello path_f 2)

/-- The volume `vol_f_cut` after `/f` was truncated back to 5 bytes. -/
def vol_f_regrown : FS := state_after (storage_truncate vol_f_cut path_f 5)

/-- A volume whose only free page is page 17, with all inode records zero. -/
def vol_one_free : FS :=
  ⟨fun k => if k = 2 then 0xBF else 0xFF, fun _ => 0, fun _ => inode_zero, fun _ => 0, 1000⟩

/-- A volume whose file `/f` (inode 1) has the maximal size of 1026 pages:
the root directory (inode 0) has its one dirent in page 33, the file has
the indirect page 34, the direct pages 35 and 36, and all 1024 slots of the
indirect page in use, slot `k` holding page `37 + k`.  Pages 17..1060 and
inodes 0 and 1 are marked allocated.  This is the layout that `mknod /f` and
one write of `1026 * 4096` zero bytes leave on the fresh volume. -/
def vol_full : FS :=
  { pages_bitmap := fun k =>
      if k = 2 then 0x7F else if 3 ≤ k ∧ k ≤ 131 then 0xFF else if k = 132 then 0xF8 else 0
    inode_bitmap := fun k => if k = 0 then 0xC0 else 0
    inodes := fun i =>
      if i = 0 then ⟨1, 0o040755, 52, 33, 0, 0, 0, 1000⟩
      else if i = 1 then ⟨1, 0o100644, 1026 * 4096, 35, 36, 34, 0, 1000⟩
      else inode_zero
    mem := fun a =>
      if a = 33 * 4096 then 102
      else if a = 33 * 4096 + 48 then 1
      else if 34 * 4096 ≤ a ∧ a < 35 * 4096 then
        (if (a - 34 * 4096) % 4 = 0 then ((37 + (a - 34 * 4096) / 4) % 256).toNat
         else if (a - 34 * 4096) % 4 = 1 then ((37 + (a - 34 * 4096) / 4) / 256).toNat
         else 0)
      else 0
    clock := 1000 }

/-- The 52 bytes of a dirent with the name `x` and the inum 1. -/
def dirent_x_1 : List Nat := 120 :: (List.replicate 47 0 ++ [1, 0, 0, 0])

/-- The volume `vol_f` after the 52 bytes `dirent_x_1` were written to the
regular file `/f`. -/
def vol_f_dirent : FS := state_after (storage_write vol_f path_f dirent_x_1 52 0)

/-- The path `/s`. -/
def path_s : List Nat := [47, 115]

/-- The volume `vol_a` on a full disk: every bit of the page bitmap is set. -/
def vol_a_full : FS := { vol_a with pages_bitmap := fun _ => 0xFF }

/-- The volume `vol_a_full` after `mknod("/s", S_IFLNK | 0777)`. -/
def vol_a_full_s : FS := state_after (storage_mknod vol_a_full path_s S_IFLNK_0777)

/-- The path `/zz`. -/
def path_zz : List Nat := [47, 122, 122]

/-- A volume whose root directory holds 156 dirents, in the pages 33 and 34
(78 dirents each): dirent `j` has the two-letter name with the letters
`a + j / 26` and `a + j % 26` and the inum `j + 1`; the inodes 1..156 are
empty regular files with one reference.  Pages 17..34 and inodes 0..156 are
marked allocated.  This is the layout that 156 calls of `mknod` with these
names leave on the fresh volume. -/
def vol_dir156 : FS :=
  { pages_bitmap := fun k => if k = 2 then 0x7F else if k = 3 then 0xFF
      else if k = 4 then 0xE0 else 0
    inode_bitmap := fun k => if k < 19 then 0xFF else if k = 19 then 0xF8 else 0
    inodes := fun i =>
      if i = 0 then ⟨1, 0o040755, 156 * 52, 33, 34, 0, 0, 1000⟩
      else if 1 ≤ i ∧ i ≤ 156 then ⟨1, 0o100644, 0, 0, 0, 0, 0, 1000⟩
      else inode_zero
    mem := fun a =>
      if 33 * 4096 ≤ a ∧ a < 35 * 4096 then
        (if (a - 33 * 4096) % 4096 / 52 < 78 then
          (if (a - 33 * 4096) % 4096 % 52 = 0 then
            (97 + (78 * ((a - 33 * 4096) / 4096) + (a - 33 * 4096) % 4096 / 52) / 26).toNat
          else if (a - 33 * 4096) % 4096 % 52 = 1 then
            (97 + (78 * ((a - 33 * 4096) / 4096) + (a - 33 * 4096) % 4096 / 52) % 26).toNat
          else if (a - 33 * 4096) % 4096 % 52 = 48 then
            (78 * ((a - 33 * 4096) / 4096) + (a - 33 * 4096) % 4096 / 52 + 1).toNat
          else 0)
        else 0)
      else 0
    clock := 1000 }

/-- The volume `vol_f_hello` after `link("/f", "/b")`: the file with the
content `hello` has the two names `/f` and `/b`. -/
def vol_f_link : FS := state_after (storage_link vol_f_hello path_f path_b)

/-- The path `/q`. -/
def path_q : List Nat := [47, 113]

/-- The volume after `mknod("/a")`, `link("/a", "/b")`, `mknod("/q")` and
`link("/q", "/b")`: the root directory holds the dirents `a` (inode 1), `b`
(inode 1), `q` (inode 2) and once more `b` (inode 2). -/
def vol_dup : FS :=
  state_after (storage_link
    (state_after (storage_mknod (state_after (storage_link vol_a path_a path_b)) path_q
      mode_file))
    path_q path_b)

/-! ## Notions used to state the properties -/

/-- Bit `i` of a bitmap, most significant bit of each byte first. -/
def bit_of (bm : Nat → Nat) (i : Nat) : Bool := (bm (i / 8)).testBit (7 - i % 8)

/-- At least `k` pages at or above `inode_end_page` are free. -/
def free_avail (s : FS) (k : Nat) : Prop :=
  ∃ l : List Nat, l.Nodup ∧ k ≤ l.length ∧
    ∀ p ∈ l, inode_end_page ≤ (p : Int) ∧ (p : Int) < num_pages ∧ bitmap_get s.pages_bitmap p = 0

/-- The absolute path with the given components, each preceded by `/`. -/
def path_of : List (List Nat) → List Nat
  | [] => []
  | c :: cs => 47 :: (c ++ path_of cs)

/-- A path component as a C string: not empty, made of bytes 1..255 other
than `/`. -/
def valid_name (c : List Nat) : Prop := c ≠ [] ∧ ∀ x ∈ c, x ≠ 47 ∧ x ≠ 0 ∧ x < 256

instance (c : List Nat) : Decidable (valid_name c) := by
  unfold valid_name; infer_instance

/-- The page number in slot `i` of an inode whose indirect pointers are read
at address `ip`: the two direct pointers, then the indirect slots. -/
def slot_page (s : FS) (node : Int) (ip : Int) (i : Int) : Int :=
  if i = 0 then (s.inodes node).ptrs0
  else if i = 1 then (s.inodes node).ptrs1
  else read_int s.mem (ip + 4 * (i - 2))

/-- The page number at position `i` of inode `node`. -/
def page_at (s : FS) (node : Int) (i : Int) : Int :=
  slot_page s node (pages_get_page (s.inodes node).iptr) i

/-- A page of the data area that is marked allocated. -/
def page_ok (s : FS) (p : Int) : Prop :=
  inode_end_page ≤ p ∧ p < num_pages ∧ bitmap_get s.pages_bitmap p.toNat = 1

instance (s : FS) (p : Int) : Decidable (page_ok s p) := by
  unfold page_ok; infer_instance

/-- The invariants of section 3.4 for one inode: the size is within the
addressable capacity, exactly the first `⌈size / P⌉` positions hold a page,
these pages are allocated data pages, pairwise distinct and distinct from the
indirect page, which exists when more than two pages are used, is an
allocated data page, and has zero in its unused slots. -/
def inode_wf (s : FS) (node : Int) : Prop :=
  0 ≤ (s.inodes node).size ∧ (s.inodes node).size ≤ 1026 * 4096
  ∧ ((s.inodes node).ptrs0 = 0 ↔ bytes_to_pages (s.inodes node).size < 1)
  ∧ ((s.inodes node).ptrs1 = 0 ↔ bytes_to_pages (s.inodes node).size < 2)
  ∧ (3 ≤ bytes_to_pages (s.inodes node).size → (s.inodes node).iptr ≠ 0)
  ∧ ((s.inodes node).iptr ≠ 0 → page_ok s (s.inodes node).iptr)
  ∧ ((s.inodes node).iptr ≠ 0 → ∀ k : Nat, k < 1024 →
      bytes_to_pages (s.inodes node).size - 2 ≤ (k : Int) →
      read_int s.mem (pages_get_page (s.inodes node).iptr + 4 * (k : Int)) = 0)
  ∧ (∀ i : Nat, i < (bytes_to_pages (s.inodes node).size).toNat →
      page_ok s (page_at s node i) ∧ page_at s node i ≠ (s.inodes node).iptr)
  ∧ (∀ i : Nat, i < (bytes_to_pages (s.inodes node).size).toNat →
      ∀ j : Nat, j < i → page_at s node i ≠ page_at s node j)

instance (s : FS) (node : Int) : Decidable (inode_wf s node) := by
  unfold inode_wf; infer_instance

/-- Number of pages `grow_inode` has to obtain to go from `old` to `new`
pages: the data pages and, when the third page is reached, the indirect
page. -/
def grow_need (old new : Int) : Nat :=
  (new - old).toNat + (if old < 3 ∧ new ≥ 3 then 1 else 0)

/-- Address `a` lies in page `p`. -/
def in_page (p a : Int) : Prop := pages_get_page p ≤ a ∧ a < pages_get_page p + page_size

instance (p a : Int) : Decidable (in_page p a) := by
  unfold in_page; infer_instance

/-- What a run of `alloc_page`/`memset` pairs that obtained the pages `l`
did to the state: the pages were free pages of the data area, they are now
marked and zeroed, and nothing else changed. -/
def alloc_rel (s : FS) (l : List Int) (t : FS) : Prop :=
  t.inodes = s.inodes ∧ t.inode_bitmap = s.inode_bitmap ∧ t.clock = s.clock
  ∧ l.Nodup
  ∧ (∀ p ∈ l, inode_end_page ≤ p ∧ p < num_pages ∧ bitmap_get s.pages_bitmap p.toNat = 0)
  ∧ (∀ x : Nat, bitmap_get t.pages_bitmap x
      = if (x : Int) ∈ l then 1 else bitmap_get s.pages_bitmap x)
  ∧ (∀ a : Int, t.mem a = if ∃ p ∈ l, in_page p a then 0 else s.mem a)

/-- Two inode records that differ at most in their two direct pointers. -/
def same_but_ptrs (a b : inode) : Prop :=
  a.refs = b.refs ∧ a.mode = b.mode ∧ a.size = b.size ∧ a.iptr = b.iptr
  ∧ a.atime = b.atime ∧ a.mtime = b.mtime

/-- What a successful `grow_inode` of `node` leaves alone: the inode bitmap,
the clock, the other inodes, the other fields of the inode, the allocated
bits of the page bitmap, the bytes of every allocated page other than the
indirect page of the inode, and the pages already attached; the pages it
attaches were not allocated before. -/
def grow_frame (s : FS) (node : Int) (t : FS) : Prop :=
  t.inode_bitmap = s.inode_bitmap ∧ t.clock = s.clock
  ∧ (∀ j, j ≠ node → t.inodes j = s.inodes j)
  ∧ (t.inodes node).refs = (s.inodes node).refs
  ∧ (t.inodes node).mode = (s.inodes node).mode
  ∧ (t.inodes node).atime = (s.inodes node).atime
  ∧ (t.inodes node).mtime = (s.inodes node).mtime
  ∧ (∀ x : Nat, bitmap_get s.pages_bitmap x = 1 → bitmap_get t.pages_bitmap x = 1)
  ∧ (∀ x a : Int, in_page x a → page_ok s x → x ≠ (s.inodes node).iptr → t.mem a = s.mem a)
  ∧ (∀ i : Int, 0 ≤ i → i < bytes_to_pages (s.inodes node).size →
      page_at t node i = page_at s node i)
  ∧ (∀ i : Int, bytes_to_pages (s.inodes node).size ≤ i →
      i < bytes_to_pages (t.inodes node).size → ¬ page_ok s (page_at t node i))
  ∧ ((t.inodes node).iptr = (s.inodes node).iptr ∨ ¬ page_ok s (t.inodes node).iptr)

/-- Page `x` is allocated and is none of the pages of inode `node`. -/
def foreign (s : FS) (node : Int) (x : Int) : Prop :=
  page_ok s x ∧ x ≠ (s.inodes node).iptr
  ∧ ∀ i : Nat, i < (bytes_to_pages (s.inodes node).size).toNat → x ≠ page_at s node i

instance (s : FS) (node x : Int) : Decidable (foreign s node x) := by
  unfold foreign; infer_instance

/-- The inodes in which `tree_walk` looks a component up, in order. -/
def walk_dirs (s : FS) : List (List Nat) → Int → List Int
  | [], _ => []
  | c :: rest, i =>
    i :: (if directory_lookup s i c < 0 then [] else walk_dirs s rest (directory_lookup s i c))

/-- A well-formed directory inode: a well-formed inode whose size is a whole
number of dirents, at most 156 (the number of dirents `directory_put` can
place: the two pages reachable before the page index computed from the
dirent count runs past `size / page_size`). -/
def dir_wf (s : FS) (d : Int) : Prop :=
  inode_wf s d ∧ (s.inodes d).size % sizeof_dirent = 0 ∧ (s.inodes d).size ≤ 156 * sizeof_dirent

instance (s : FS) (d : Int) : Decidable (dir_wf s d) := by
  unfold dir_wf; infer_instance

/-- Number of dirents of directory `d`. -/
def dir_count (s : FS) (d : Int) : Int := (s.inodes d).size / sizeof_dirent

/-- Address of dirent `j` of directory `d`: slot `j % ents_per_page` of page
`j / ents_per_page`. -/
def ent_addr (s : FS) (d : Int) (j : Int) : Int :=
  dirent_addr (pages_get_page (page_at s d (j / ents_per_page))) (j % ents_per_page)

/-- Dirent `j` of directory `d` carries the name `name`. -/
def ent_named (s : FS) (d : Int) (j : Int) (name : List Nat) : Bool :=
  streq_mem s.mem (ent_addr s d j) name

/-- The inum of dirent `j` of directory `d`. -/
def ent_inum (s : FS) (d : Int) (j : Int) : Int := dirent_inum s.mem (ent_addr s d j)

/-- The first of the dirents `j`, `j + 1`, ... (`fuel` of them) of directory
`d` that carries the name `name`. -/
def dir_find (s : FS) (d : Int) (name : List Nat) : Nat → Int → Option Int
  | 0, _ => none
  | fuel + 1, j =>
    if ent_named s d j name then some j else dir_find s d name fuel (j + 1)

/-- A well-formed directory without indirect page all of whose dirents refer
to an inode other than the root. -/
def dir_ok (s : FS) (d : Int) : Prop :=
  dir_wf s d ∧ (s.inodes d).iptr = 0 ∧ ∀ j : Nat, j < (dir_count s d).toNat →
    0 < ent_inum s d j ∧ ent_inum s d j < num_inodes

instance (s : FS) (d : Int) : Decidable (dir_ok s d) := by
  unfold dir_ok; infer_instance

/-- The directory `d` is in `t` as it is in `s`: same size and pointers, its
pages still allocated and with the same bytes. -/
def dir_same (s t : FS) (d : Int) : Prop :=
  (t.inodes d).size = (s.inodes d).size ∧ (t.inodes d).ptrs0 = (s.inodes d).ptrs0
  ∧ (t.inodes d).ptrs1 = (s.inodes d).ptrs1 ∧ (t.inodes d).iptr = (s.inodes d).iptr
  ∧ ∀ i : Nat, i < (bytes_to_pages (s.inodes d).size).toNat →
      page_ok t (page_at s d i) ∧ ∀ a : Int, in_page (page_at s d i) a → t.mem a = s.mem a

/-- The directories of `D` are in order and share no page: each is `dir_ok`
and its pages are foreign to the other directories of `D`. -/
def dirs_ok (s : FS) (D : List Int) : Prop :=
  ∀ d ∈ D, dir_ok s d ∧ ∀ e ∈ D, e ≠ d →
    ∀ i : Nat, i < (bytes_to_pages (s.inodes d).size).toNat → foreign s e (page_at s d i)

instance (s : FS) (D : List Int) : Decidable (dirs_ok s D) := by
  unfold dirs_ok; infer_instance

/-- The state `directory_put` leaves once the directory `d` has grown (state
`t1`): dirent `n` holds `name` and `inum`, and the inode `inum` has one more
reference. -/
def put_entry (t1 : FS) (d n : Int) (name : List Nat) (inum : Int) : FS :=
  FS.set_inode
    { t1 with mem := (write_int (strlcpy t1.mem (ent_addr t1 d n) name DIR_NAME)
        (ent_addr t1 d n + DIR_NAME) inum) }
    inum
    { t1.inodes inum with refs := to_int ((t1.inodes inum).refs + 1) }

/-- Number of dirents of directory `d` whose inum is `i`. -/
def dirents_to (s : FS) (d : Int) (i : Int) : Nat :=
  ((List.range (dir_count s d).toNat).filter (fun j : Nat => ent_inum s d j = i)).length

/-- Byte `i` of the file `node`: byte `i % 4096` of the page at position
`i / 4096`. -/
def file_byte (s : FS) (node : Int) (i : Int) : Nat :=
  s.mem (pages_get_page (page_at s node (i / 4096)) + i % 4096)

/-! ## Notions used for the directory operations -/

/-- Page `x` is one of the pages inode `v` points to: its indirect page, a
direct pointer, or a slot of the indirect page. -/
def owns (s : FS) (v : Int) (x : Int) : Prop :=
  x = (s.inodes v).iptr ∨ x = (s.inodes v).ptrs0 ∨ x = (s.inodes v).ptrs1
  ∨ ((s.inodes v).iptr ≠ 0 ∧ ∃ k : Nat, k < 1024 ∧
      x = read_int s.mem (pages_get_page (s.inodes v).iptr + 4 * (k : Int)))

instance (s : FS) (v x : Int) : Decidable (owns s v x) := by
  unfold owns; infer_instance

/-- What the freeing loop of `shrink_inode` on inode `v` keeps of the state
`s0` it started from: the other inodes, the inode bitmap, the references and
mode of `v`, the bytes outside the indirect page of `v`, and the bits of the
pages `v` does not point to; pointers and slots are as before or zero, and
no bit of the page bitmap gets set. -/
def shrink_inv (s0 : FS) (v : Int) (u : FS) : Prop :=
  (∀ j, j ≠ v → u.inodes j = s0.inodes j)
  ∧ u.inode_bitmap = s0.inode_bitmap
  ∧ (u.inodes v).refs = (s0.inodes v).refs ∧ (u.inodes v).mode = (s0.inodes v).mode
  ∧ ((u.inodes v).ptrs0 = 0 ∨ (u.inodes v).ptrs0 = (s0.inodes v).ptrs0)
  ∧ ((u.inodes v).ptrs1 = 0 ∨ (u.inodes v).ptrs1 = (s0.inodes v).ptrs1)
  ∧ ((u.inodes v).iptr = 0 ∨ (u.inodes v).iptr = (s0.inodes v).iptr)
  ∧ (∀ a : Int, ¬ in_page (s0.inodes v).iptr a → u.mem a = s0.mem a)
  ∧ (∀ k : Nat, k < 1024 →
      read_int u.mem (pages_get_page (s0.inodes v).iptr + 4 * (k : Int)) = 0
      ∨ read_int u.mem (pages_get_page (s0.inodes v).iptr + 4 * (k : Int))
          = read_int s0.mem (pages_get_page (s0.inodes v).iptr + 4 * (k : Int)))
  ∧ (∀ x : Nat, bitmap_get u.pages_bitmap x = 1 → bitmap_get s0.pages_bitmap x = 1)
  ∧ (∀ x : Nat, inode_end_page ≤ (x : Int) → ¬ owns s0 v x →
      bitmap_get u.pages_bitmap x = bitmap_get s0.pages_bitmap x)

/-- What `free_inode` on inode `v` does to the state: one reference less;
when references remain nothing else changes; otherwise the bit of `v` may be
cleared, bytes change in the indirect page of `v` only, and only pages `v`
points to are freed. -/
def free_frame (s : FS) (v : Int) (t : FS) : Prop :=
  (∀ j, j ≠ v → t.inodes j = s.inodes j)
  ∧ (t.inodes v).refs = to_int ((s.inodes v).refs - 1)
  ∧ (t.inodes v).mode = (s.inodes v).mode
  ∧ (to_int ((s.inodes v).refs - 1) > 0 →
      t = s.set_inode v { s.inodes v with refs := to_int ((s.inodes v).refs - 1) })
  ∧ (∀ i : Nat, (i : Int) ≠ v → bitmap_get t.inode_bitmap i = bitmap_get s.inode_bitmap i)
  ∧ (∀ a : Int, ¬ in_page (s.inodes v).iptr a → t.mem a = s.mem a)
  ∧ (∀ x : Nat, bitmap_get t.pages_bitmap x = 1 → bitmap_get s.pages_bitmap x = 1)
  ∧ (∀ x : Nat, inode_end_page ≤ (x : Int) → ¬ owns s v x →
      bitmap_get t.pages_bitmap x = bitmap_get s.pages_bitmap x)

/-- The image after `directory_delete` moved the last dirent (at `last`) over
the dirent to remove (at `remove`) and zeroed the last one. -/
def delete_entry (u : FS) (remove last : Int) : FS :=
  { u with mem := memset (memmove u.mem remove last sizeof_dirent) last 0 sizeof_dirent }

/-- At most one dirent of directory `d` carries the name `c`. -/
def name_once (s : FS) (d : Int) (c : List Nat) : Prop :=
  ∀ i : Nat, i < (dir_count s d).toNat → ∀ k : Nat, k < (dir_count s d).toNat →
    ent_named s d i c = true → ent_named s d k c = true → i = k

instance (s : FS) (d : Int) (c : List Nat) : Decidable (name_once s d c) := by
  unfold name_once; infer_instance

/-- The lookups of `tree_walk`, in order: the inode in which a component is
looked up, and the component. -/
def walk_steps (s : FS) : List (List Nat) → Int → List (Int × List Nat)
  | [], _ => []
  | c :: rest, i =>
    (i, c) :: (if directory_lookup s i c < 0 then []
      else walk_steps s rest (directory_lookup s i c))

/-! ## Further notions and volumes -/

/-- Address of the record `first_inode + num` that `get_inode` returns for an
index it accepts, relative to the mapping base: the record takes the
`sizeof(inode)` bytes from there. -/
def inode_addr (num : Int) : Int := pages_get_page inode_start_page + sizeof_inode * num

/-- Number of records the inode table holds: the pages `inode_start_page` to
`inode_end_page - 1` divided into records of `sizeof(inode)` bytes. -/
def table_capacity : Int := (inode_end_page - inode_start_page) * page_size / sizeof_inode

/-- The record of inode `i` is one of the records of the inode table, so that
it overlaps no data page. -/
def in_table (i : Int) : Prop := 0 ≤ i ∧ i < table_capacity

instance (i : Int) : Decidable (in_table i) := by
  unfold in_table; infer_instance

/-- The path `/r`. -/
def path_r : List Nat := [47, 114]

/-- The fresh volume after `link("/", "/r")`: the root directory holds one
dirent, called `r`, whose inum is 0. -/
def vol_root_link : FS := state_after (storage_link fresh [47] path_r)

/-- The path `/d`. -/
def path_d : List Nat := [47, 100]

/-- The path `/d/s`. -/
def path_d_s : List Nat := [47, 100, 47, 115]

/-- The fresh volume after `mkdir("/d")`, which is `mknod` with the mode
`S_IFDIR | 0755`. -/
def vol_d : FS := state_after (storage_mknod fresh path_d 0o040755)

/-- The volume `vol_d` after `link("/d", "/d/s")`: the directory `/d` (inode
1) holds a dirent `s` for itself. -/
def vol_d_s : FS := state_after (storage_link vol_d path_d path_d_s)

/-- The volume `vol_d_s` after `rmdir("/d")`, which is `storage_unlink`: the
directory inode 1 has left the root directory and holds the last link to
itself. -/
def vol_d_orphan : FS := state_after (storage_unlink vol_d_s path_d)

/-! ## C arithmetic -/

theorem to_int_of_range {x : Int} (h1 : -2147483648 ≤ x) (h2 : x < 2147483648) :
    to_int x = x := by
  unfold to_int; omega

theorem to_size_t_of_range {x : Int} (h1 : 0 ≤ x) (h2 : x < 18446744073709551616) :
    to_size_t x = x := by
  unfold to_size_t; omega

theorem cdiv_of_nonneg {a b : Int} (ha : 0 ≤ a) (hb : 0 ≤ b) : cdiv a b = a / b :=
  Int.tdiv_eq_ediv ha hb

theorem cmod_of_nonneg {a b : Int} (ha : 0 ≤ a) (hb : 0 ≤ b) : cmod a b = a % b :=
  Int.tmod_eq_emod ha hb

/-! ## Bitmaps -/

theorem mask_and_ne_zero (b k : Nat) (hk : k < 8) :
    (b &&& (0x80 >>> k)) ≠ 0 ↔ b.testBit (7 - k) = true := by
  have h : (0x80 >>> k) = 2 ^ (7 - k) := by interval_cases k <;> rfl
  rw [h, Nat.and_two_pow]
  cases hb : b.testBit (7 - k) <;> simp

theorem shift3 (i : Nat) : i >>> 3 = i / 8 := by
  simp [Nat.shiftRight_eq_div_pow]

theorem and7 (i : Nat) : i &&& 7 = i % 8 := by
  have h := Nat.and_pow_two_sub_one_eq_mod i 3
  simpa using h

theorem bitmap_get_eq (bm : Nat → Nat) (i : Nat) :
    bitmap_get bm i = if bit_of bm i then 1 else 0 := by
  unfold bitmap_get bit_of
  rw [shift3, and7]
  have hk : i % 8 < 8 := Nat.mod_lt _ (by decide)
  by_cases h : (bm (i / 8)).testBit (7 - i % 8) = true
  · have h1 := (mask_and_ne_zero (bm (i / 8)) (i % 8) hk).2 h
    rw [if_pos h1, if_pos h]
  · have h1 : ¬ ((bm (i / 8) &&& (0x80 >>> (i % 8))) ≠ 0) := fun hc =>
      h ((mask_and_ne_zero (bm (i / 8)) (i % 8) hk).1 hc)
    rw [if_neg h1, if_neg h]

theorem bitmap_get_eq_one (bm : Nat → Nat) (i : Nat) :
    bitmap_get bm i = 1 ↔ bit_of bm i = true := by
  rw [bitmap_get_eq]; cases bit_of bm i <;> simp

theorem bitmap_get_eq_zero (bm : Nat → Nat) (i : Nat) :
    bitmap_get bm i = 0 ↔ bit_of bm i = false := by
  rw [bitmap_get_eq]; cases bit_of bm i <;> simp

theorem testBit_clear_mask (n m : Nat) (hn : n < 8) (hm : m < 8) :
    (255 - 2 ^ n).testBit m = decide (m ≠ n) := by
  interval_cases n <;> interval_cases m <;> decide

theorem bit_of_put_same (bm : Nat → Nat) (i : Nat) (v : Int) :
    bit_of (bitmap_put bm i v) i = decide (v ≠ 0) := by
  unfold bit_of bitmap_put
  rw [shift3, and7]
  have hk : i % 8 < 8 := Nat.mod_lt _ (by decide)
  have h2 : (0x80 >>> (i % 8)) = 2 ^ (7 - i % 8) := by
    generalize i % 8 = k at hk
    interval_cases k <;> rfl
  have h8 : 7 - i % 8 < 8 := by omega
  simp only [if_true]
  by_cases hv : v ≠ 0
  · rw [if_pos hv, h2]
    have : (256 : Nat) = 2 ^ 8 := by norm_num
    rw [this, Nat.testBit_mod_two_pow, Nat.testBit_or, Nat.testBit_two_pow_self]
    simp [h8, hv]
  · rw [if_neg hv, h2]
    have : (256 : Nat) = 2 ^ 8 := by norm_num
    rw [this, Nat.testBit_mod_two_pow, Nat.testBit_and, testBit_clear_mask _ _ h8 h8]
    simp [hv]

theorem bit_of_put_other (bm : Nat → Nat) (i j : Nat) (v : Int) (hij : i ≠ j) :
    bit_of (bitmap_put bm i v) j = bit_of bm j := by
  unfold bit_of bitmap_put
  rw [shift3, and7]
  by_cases hb : j / 8 = i / 8
  · have hne : 7 - i % 8 ≠ 7 - j % 8 := by omega
    have hk : i % 8 < 8 := Nat.mod_lt _ (by decide)
    have h2 : (0x80 >>> (i % 8)) = 2 ^ (7 - i % 8) := by
      generalize i % 8 = k at hk
      interval_cases k <;> rfl
    have h8 : 7 - i % 8 < 8 := by omega
    have h8j : 7 - j % 8 < 8 := by omega
    have h256 : (256 : Nat) = 2 ^ 8 := by norm_num
    rw [if_pos hb, h2, hb]
    by_cases hv : v ≠ 0
    · rw [if_pos hv, h256, Nat.testBit_mod_two_pow, Nat.testBit_or, Nat.testBit_two_pow]
      simp [h8j, hne]
    · rw [if_neg hv, h256, Nat.testBit_mod_two_pow, Nat.testBit_and,
        testBit_clear_mask _ _ h8 h8j]
      have : 7 - j % 8 ≠ 7 - i % 8 := fun h => hne h.symm
      simp [h8j, this]
  · rw [if_neg hb]

theorem bitmap_get_put_same (bm : Nat → Nat) (i : Nat) (v : Int) :
    bitmap_get (bitmap_put bm i v) i = if v ≠ 0 then 1 else 0 := by
  rw [bitmap_get_eq, bit_of_put_same]
  by_cases hv : v ≠ 0 <;> simp [hv]

theorem bitmap_get_put_other (bm : Nat → Nat) (i j : Nat) (v : Int) (hij : i ≠ j) :
    bitmap_get (bitmap_put bm i v) j = bitmap_get bm j := by
  rw [bitmap_get_eq, bitmap_get_eq, bit_of_put_other bm i j v hij]

theorem read_int_congr {m1 m2 : Int → Nat} {a : Int}
    (h : ∀ k : Int, 0 ≤ k → k < 4 → m1 (a + k) = m2 (a + k)) :
    read_int m1 a = read_int m2 a := by
  unfold read_int
  have h0 := h 0 (by omega) (by omega)
  have h1 := h 1 (by omega) (by omega)
  have h2 := h 2 (by omega) (by omega)
  have h3 := h 3 (by omega) (by omega)
  simp only [add_zero] at h0
  rw [h0, h1, h2, h3]

theorem write_int_other (mem : Int → Nat) (a v x : Int) (h : x < a ∨ a + 3 < x) :
    write_int mem a v x = mem x := by
  unfold write_int
  have h0 : x ≠ a := by omega
  have h1 : x ≠ a + 1 := by omega
  have h2 : x ≠ a + 2 := by omega
  have h3 : x ≠ a + 3 := by omega
  simp [h0, h1, h2, h3]

theorem read_int_write_int_other (mem : Int → Nat) (a v b : Int) (h : b + 3 < a ∨ a + 3 < b) :
    read_int (write_int mem a v) b = read_int mem b := by
  apply read_int_congr
  intro k hk0 hk4
  apply write_int_other
  omega

theorem read_int_write_int_same (mem : Int → Nat) (a v : Int)
    (h1 : -2147483648 ≤ v) (h2 : v < 2147483648) :
    read_int (write_int mem a v) a = v := by
  unfold read_int write_int
  have e1 : a + 1 ≠ a := by omega
  have e2 : a + 2 ≠ a := by omega
  have e3 : a + 3 ≠ a := by omega
  have e4 : a + 2 ≠ a + 1 := by omega
  have e5 : a + 3 ≠ a + 1 := by omega
  have e6 : a + 3 ≠ a + 2 := by omega
  simp only [if_true, e1, e2, e3, e4, e5, e6, if_false]
  unfold to_int
  omega

theorem read_int_memset_zero (mem : Int → Nat) (base n a : Int)
    (h1 : base ≤ a) (h2 : a + 4 ≤ base + n) :
    read_int (memset mem base 0 n) a = 0 := by
  unfold read_int memset
  have c0 : base ≤ a ∧ a < base + n := by omega
  have c1 : base ≤ a + 1 ∧ a + 1 < base + n := by omega
  have c2 : base ≤ a + 2 ∧ a + 2 < base + n := by omega
  have c3 : base ≤ a + 3 ∧ a + 3 < base + n := by omega
  rw [if_pos c0, if_pos c1, if_pos c2, if_pos c3]
  decide

theorem memset_other (mem : Int → Nat) (base : Int) (v : Nat) (n x : Int)
    (h : x < base ∨ base + n ≤ x) : memset mem base v n x = mem x := by
  unfold memset
  have : ¬ (base ≤ x ∧ x < base + n) := by omega
  rw [if_neg this]

/-! ## Page allocation -/

theorem alloc_page_scan_none (bm : Nat → Nat) (fuel start : Nat)
    (h : ∀ i, start ≤ i → i < start + fuel → inode_end_page ≤ (i : Int) → bitmap_get bm i ≠ 0) :
    alloc_page_scan bm fuel start = none := by
  induction fuel generalizing start with
  | zero => rfl
  | succ n ih =>
    unfold alloc_page_scan
    have h0 : ¬ (inode_end_page ≤ (start : Int) ∧ bitmap_get bm start = 0) := by
      intro hc
      exact h start (le_refl _) (by omega) hc.1 hc.2
    rw [if_neg h0]
    apply ih
    intro i h1 h2 h3
    exact h i (by omega) (by omega) h3

theorem alloc_page_scan_some (bm : Nat → Nat) (fuel start i : Nat)
    (h : alloc_page_scan bm fuel start = some i) :
    start ≤ i ∧ i < start + fuel ∧ inode_end_page ≤ (i : Int) ∧ bitmap_get bm i = 0 := by
  induction fuel generalizing start with
  | zero => simp [alloc_page_scan] at h
  | succ n ih =>
    unfold alloc_page_scan at h
    by_cases h0 : inode_end_page ≤ (start : Int) ∧ bitmap_get bm start = 0
    · rw [if_pos h0] at h
      cases h
      exact ⟨le_refl _, by omega, h0.1, h0.2⟩
    · rw [if_neg h0] at h
      have := ih (start + 1) h
      exact ⟨by omega, by omega, this.2.2.1, this.2.2.2⟩

theorem alloc_page_scan_exists (bm : Nat → Nat) (fuel start p : Nat)
    (h1 : start ≤ p) (h2 : p < start + fuel) (h3 : inode_end_page ≤ (p : Int))
    (h4 : bitmap_get bm p = 0) :
    ∃ i, alloc_page_scan bm fuel start = some i := by
  cases hs : alloc_page_scan bm fuel start with
  | some i => exact ⟨i, rfl⟩
  | none =>
    exfalso
    induction fuel generalizing start with
    | zero => omega
    | succ n ih =>
      unfold alloc_page_scan at hs
      by_cases h0 : inode_end_page ≤ (start : Int) ∧ bitmap_get bm start = 0
      · rw [if_pos h0] at hs; cases hs
      · rw [if_neg h0] at hs
        by_cases hp : p = start
        · subst hp; exact h0 ⟨h3, h4⟩
        · exact ih (start + 1) (by omega) (by omega) hs

/-- A successful `alloc_page`: the page returned was free, lies in the data
area, and is the only bit that changes. -/
theorem alloc_page_ok (s : FS) (k : Nat) (h : free_avail s (k + 1)) :
    ∃ i : Nat, alloc_page s = ((i : Int), { s with pages_bitmap := bitmap_put s.pages_bitmap i 1 })
      ∧ inode_end_page ≤ (i : Int) ∧ (i : Int) < num_pages
      ∧ bitmap_get s.pages_bitmap i = 0
      ∧ free_avail { s with pages_bitmap := bitmap_put s.pages_bitmap i 1 } k := by
  obtain ⟨l, hnd, hlen, hl⟩ := h
  cases l with
  | nil => simp at hlen
  | cons p rest =>
    have hp := hl p (List.mem_cons_self _ _)
    have hN : num_pages.toNat = 262144 := by decide
    have hpN : p < 0 + num_pages.toNat := by
      have := hp.2.1
      have hn : num_pages = 262144 := by decide
      rw [hN]; omega
    obtain ⟨i, hi⟩ := alloc_page_scan_exists s.pages_bitmap num_pages.toNat 0 p
      (Nat.zero_le _) hpN hp.1 hp.2.2
    have hsp := alloc_page_scan_some _ _ _ _ hi
    refine ⟨i, ?_, hsp.2.2.1, ?_, hsp.2.2.2, ?_⟩
    · unfold alloc_page; rw [hi]
    · have hn : num_pages = 262144 := by decide
      rw [hN] at hsp; omega
    · refine ⟨(p :: rest).erase i, hnd.erase i, ?_, ?_⟩
      · have := List.length_erase_of_mem (a := i) (l := p :: rest)
        by_cases hmem : i ∈ p :: rest
        · rw [List.length_erase_of_mem hmem]
          simp only [List.length_cons] at hlen ⊢
          omega
        · rw [List.erase_of_not_mem hmem]; omega
      · intro q hq
        have hq1 : q ∈ p :: rest := List.mem_of_mem_erase hq
        have hq2 : q ≠ i := fun hc => by
          subst hc
          exact (List.Nodup.not_mem_erase hnd) hq
        have := hl q hq1
        refine ⟨this.1, this.2.1, ?_⟩
        show bitmap_get (bitmap_put s.pages_bitmap i 1) q = 0
        rw [bitmap_get_put_other _ _ _ _ (Ne.symm hq2)]
        exact this.2.2

theorem free_avail_mono (s : FS) (k j : Nat) (hjk : j ≤ k) (h : free_avail s k) :
    free_avail s j := by
  obtain ⟨l, h1, h2, h3⟩ := h
  exact ⟨l, h1, le_trans hjk h2, h3⟩

/-! ## The volume with one free page -/

theorem vol_one_free_alloc :
    alloc_page vol_one_free
      = (17, { vol_one_free with pages_bitmap := bitmap_put vol_one_free.pages_bitmap 17 1 }) := by
  have h : alloc_page_scan vol_one_free.pages_bitmap num_pages.toNat 0 = some 17 := by decide
  unfold alloc_page
  rw [h]
  rfl

theorem vol_one_free_byte (i : Nat) :
    bitmap_put vol_one_free.pages_bitmap 17 1 (i / 8) = 255 := by
  have h17 : (17 >>> 3 : Nat) = 2 := by decide
  have hm : (0x80 >>> (17 &&& 7) : Nat) = 64 := by decide
  unfold bitmap_put
  rw [h17, hm]
  show (if i / 8 = 2 then _ else _) = 255
  by_cases h2 : i / 8 = 2
  · rw [if_pos h2]; rfl
  · rw [if_neg h2]
    show (if i / 8 = 2 then 0xBF else 0xFF) = 255
    rw [if_neg h2]

theorem vol_one_free_scan_full :
    alloc_page_scan (bitmap_put vol_one_free.pages_bitmap 17 1) num_pages.toNat 0 = none := by
  apply alloc_page_scan_none
  intro i _ _ _
  rw [bitmap_get_eq]
  have hb : bit_of (bitmap_put vol_one_free.pages_bitmap 17 1) i = true := by
    unfold bit_of
    rw [vol_one_free_byte]
    have : 7 - i % 8 < 8 := by omega
    generalize 7 - i % 8 = k at this
    interval_cases k <;> decide
  rw [hb]; decide

/-- Once page 17 is taken, `alloc_page` fails on the volume with one free
page. -/
theorem vol_one_free_full (s : FS)
    (h : s.pages_bitmap = bitmap_put vol_one_free.pages_bitmap 17 1) :
    alloc_page s = (-ENOSPC, s) := by
  unfold alloc_page
  rw [h, vol_one_free_scan_full]

/-- The path of `grow_inode` on which the indirect page is obtained and the
first data page is not: the state returned with `-ENOSPC` is the one in
which the indirect page is allocated and attached. -/
theorem grow_inode_nospace_after_indirect (s s1 s2 : FS) (node size i r : Int) (n : Nat)
    (hold : bytes_to_pages (s.inodes node).size < 3)
    (hnew : bytes_to_pages (to_int ((s.inodes node).size + size)) ≥ 3)
    (hfit : ¬ to_size_t (bytes_to_pages (to_int ((s.inodes node).size + size))) > (8 + 4096) / 4)
    (hadd : (bytes_to_pages (to_int ((s.inodes node).size + size))
              - bytes_to_pages (s.inodes node).size).toNat = n + 1)
    (ha1 : alloc_page s = (i, s1)) (hi : ¬ i < 0)
    (ha2 : alloc_page (({ s1 with mem := memset s1.mem (pages_get_page i) 0 page_size } : FS).set_inode
            node { s.inodes node with iptr := i }) = (r, s2)) (hr : r < 0) :
    grow_inode s node size = (-ENOSPC, s2) := by
  unfold grow_inode grow_inode_attach grow_inode_finish
  simp only [hfit, if_false, hold, hnew, and_self, if_true, ha1, hi, hadd]
  unfold grow_alloc
  simp only [ha2, hr, if_true, free_all_pages]

/-! ## Paths and their components -/

theorem split_pieces_ne_nil (t : List Nat) : split_pieces 47 t ≠ [] := by
  cases t with
  | nil => simp [split_pieces]
  | cons c cs =>
    unfold split_pieces
    by_cases h : c = 47
    · simp [h]
    · rw [if_neg h]
      cases split_pieces 47 cs <;> simp

theorem split_pieces_name (c : List Nat) (hc : ∀ x ∈ c, x ≠ 47) :
    split_pieces 47 c = [c] := by
  induction c with
  | nil => rfl
  | cons x xs ih =>
    have hx : x ≠ 47 := hc x (List.mem_cons_self _ _)
    have hxs : ∀ y ∈ xs, y ≠ 47 := fun y hy => hc y (List.mem_cons_of_mem _ hy)
    unfold split_pieces
    rw [if_neg hx, ih hxs]

theorem split_pieces_append (c rest : List Nat) (hc : ∀ x ∈ c, x ≠ 47) :
    split_pieces 47 (c ++ 47 :: rest) = c :: split_pieces 47 rest := by
  induction c with
  | nil => simp [split_pieces]
  | cons x xs ih =>
    have hx : x ≠ 47 := hc x (List.mem_cons_self _ _)
    have hxs : ∀ y ∈ xs, y ≠ 47 := fun y hy => hc y (List.mem_cons_of_mem _ hy)
    have e : split_pieces 47 (x :: (xs ++ 47 :: rest))
        = (match split_pieces 47 (xs ++ 47 :: rest) with
           | [] => [[x]]
           | y :: ys => (x :: y) :: ys) := by
      rw [split_pieces, if_neg hx] <;> rfl
    rw [List.cons_append, e, ih hxs]

theorem split_pieces_path_of (c : List Nat) (cs : List (List Nat))
    (hc : ∀ x ∈ c, x ≠ 47) (hcs : ∀ d ∈ cs, ∀ x ∈ d, x ≠ 47) :
    split_pieces 47 (c ++ path_of cs) = c :: cs := by
  induction cs generalizing c with
  | nil => simp [path_of, split_pieces_name c hc]
  | cons d ds ih =>
    unfold path_of
    rw [split_pieces_append c _ hc]
    rw [ih d (hcs d (List.mem_cons_self _ _))
      (fun e he => hcs e (List.mem_cons_of_mem _ he))]

/-- The components `s_split` finds in the path built from valid names are
these names. -/
theorem s_split_path_of (comps : List (List Nat)) (h : ∀ c ∈ comps, valid_name c) :
    s_split ((path_of comps).drop 1) 47 = comps := by
  cases comps with
  | nil => rfl
  | cons c cs =>
    have hc := h c (List.mem_cons_self _ _)
    have hne : c ++ path_of cs ≠ [] := by
      intro hcon
      exact hc.1 (List.append_eq_nil.1 hcon).1
    show s_split (c ++ path_of cs) 47 = c :: cs
    unfold s_split
    rw [if_neg hne]
    exact split_pieces_path_of c cs (fun x hx => (hc.2 x hx).1)
      (fun d hd x hx => ((h d (List.mem_cons_of_mem _ hd)).2 x hx).1)

theorem tree_lookup_path_of (s : FS) (comps : List (List Nat))
    (h : ∀ c ∈ comps, valid_name c) :
    tree_lookup s (path_of comps) = tree_walk s comps root_inode := by
  unfold tree_lookup
  rw [s_split_path_of comps h]

theorem path_of_append (cs : List (List Nat)) (c : List Nat) :
    path_of (cs ++ [c]) = path_of cs ++ 47 :: c := by
  induction cs with
  | nil => simp [path_of]
  | cons d ds ih =>
    show path_of (d :: (ds ++ [c])) = path_of (d :: ds) ++ 47 :: c
    simp only [path_of, ih, List.append_assoc, List.cons_append]

theorem path_file_append (p c : List Nat) (hc : ∀ x ∈ c, x ≠ 47) :
    path_file (p ++ 47 :: c) = c := by
  unfold path_file
  have h1 : (p ++ 47 :: c).reverse = c.reverse ++ 47 :: p.reverse := by
    simp [List.reverse_append]
  rw [h1]
  have h2 : List.takeWhile (fun x => decide (x ≠ 47)) (c.reverse ++ 47 :: p.reverse)
      = c.reverse := by
    rw [List.takeWhile_append_of_pos]
    · simp [List.takeWhile]
    · intro x hx
      have := hc x (List.mem_reverse.1 hx)
      simp [this]
  rw [h2, List.reverse_reverse]

theorem path_file_index_append (p c : List Nat) (hc : ∀ x ∈ c, x ≠ 47) :
    path_file_index (p ++ 47 :: c) = (p.length : Int) + 1 := by
  unfold path_file_index
  rw [path_file_append p c hc]
  simp only [List.length_append, List.length_cons]
  push_cast
  omega

/-- The parent of the path with components `cs ++ [c]` is the path with
components `cs`. -/
theorem get_parent_dir_path_of (cs : List (List Nat)) (c : List Nat) (hc : ∀ x ∈ c, x ≠ 47) :
    get_parent_dir (path_of (cs ++ [c])) = path_of cs := by
  unfold get_parent_dir
  rw [path_of_append, path_file_index_append _ _ hc]
  have : ((path_of cs).length + 1 - 1 : Int).toNat = (path_of cs).length := by omega
  rw [this, List.take_left']
  rfl

/-- The basename of the path with components `cs ++ [c]` is `c`. -/
theorem basename_path_of (cs : List (List Nat)) (c : List Nat) (hc : ∀ x ∈ c, x ≠ 47) :
    (path_of (cs ++ [c])).drop (path_file_index (path_of (cs ++ [c]))).toNat = c := by
  rw [path_of_append, path_file_index_append _ _ hc]
  have : ((path_of cs).length + 1 : Int).toNat = (path_of cs).length + 1 := by omega
  rw [this]
  have h2 : path_of cs ++ 47 :: c = (path_of cs ++ [47]) ++ c := by simp
  rw [h2, List.drop_left']
  simp

theorem tree_walk_append (s : FS) (xs ys : List (List Nat)) (i : Int) (hi : 0 ≤ i) :
    tree_walk s (xs ++ ys) i
      = match tree_walk s xs i with
        | none => none
        | some j => if j < 0 then some j else tree_walk s ys j := by
  induction xs generalizing i with
  | nil =>
    have : ¬ i < 0 := by omega
    simp only [List.nil_append, tree_walk, this, if_false]
  | cons x xs ih =>
    simp only [List.cons_append, tree_walk]
    cases get_inode i with
    | none => rfl
    | some node =>
      simp only
      by_cases hneg : directory_lookup s node x < 0
      · simp only [hneg, if_true]
      · simp only [hneg, if_false]
        exact ih (directory_lookup s node x) (by omega)

/-! ## Lookups that find nothing -/

theorem page_find_name_nonpos (mem : Int → Nat) (page : Int) (name : List Nat)
    (fuel : Nat) (ii : Int)
    (h : ∀ j : Int, ii ≤ j → j < ii + fuel →
      streq_mem mem (dirent_addr page j) name = true →
      dirent_inum mem (dirent_addr page j) ≤ 0) :
    page_find_name mem page name fuel ii ≤ 0 := by
  induction fuel generalizing ii with
  | zero => simp [page_find_name]
  | succ n ih =>
    rw [page_find_name]
    by_cases hs : streq_mem mem (dirent_addr page ii) name = true
    · rw [if_pos hs]
      exact h ii (le_refl _) (by push_cast; omega) hs
    · rw [if_neg hs]
      apply ih
      intro j h1 h2 h3
      exact h j (by omega) (by push_cast; omega) h3

theorem directory_lookup_loop_enoent (s : FS) (dd : Int) (name : List Nat)
    (fuel : Nat) (ii : Int)
    (h : ∀ k : Int, ii ≤ k → k < ii + fuel →
      ∃ page, inode_get_page s dd k = some page ∧
        ∀ j : Int, 0 ≤ j → j < directory_page_length s dd k →
          streq_mem s.mem (dirent_addr page j) name = true →
          dirent_inum s.mem (dirent_addr page j) ≤ 0) :
    directory_lookup_loop s dd name fuel ii = -ENOENT := by
  induction fuel generalizing ii with
  | zero => rfl
  | succ n ih =>
    rw [directory_lookup_loop]
    obtain ⟨page, hp, hj⟩ := h ii (le_refl _) (by push_cast; omega)
    rw [hp]
    simp only
    have hle : page_find_name s.mem page name (directory_page_length s dd ii).toNat 0 ≤ 0 := by
      apply page_find_name_nonpos
      intro j h1 h2 h3
      apply hj j h1 _ h3
      have := Int.toNat_of_nonneg (a := directory_page_length s dd ii)
      omega
    have hn : ¬ page_find_name s.mem page name (directory_page_length s dd ii).toNat 0 > 0 := by
      omega
    rw [if_neg hn]
    apply ih
    intro k h1 h2
    exact h k (by omega) (by push_cast; omega)

/-- A lookup in an inode none of whose records carries the name with a
positive inum answers `-ENOENT`. -/
theorem directory_lookup_enoent (s : FS) (dd : Int) (name : List Nat)
    (h : ∀ k : Int, 0 ≤ k → k < directory_num_pages s dd →
      ∃ page, inode_get_page s dd k = some page ∧
        ∀ j : Int, 0 ≤ j → j < directory_page_length s dd k →
          streq_mem s.mem (dirent_addr page j) name = true →
          dirent_inum s.mem (dirent_addr page j) ≤ 0) :
    directory_lookup s dd name = -ENOENT := by
  unfold directory_lookup
  apply directory_lookup_loop_enoent
  intro k h1 h2
  apply h k h1
  have := Int.toNat_of_nonneg (a := directory_num_pages s dd)
  omega

/-! ## grow_inode on a well-formed inode -/

theorem bytes_to_pages_nonneg {b : Int} (h : 0 ≤ b) : 0 ≤ bytes_to_pages b := by
  unfold bytes_to_pages page_size; omega

theorem bytes_to_pages_mono {a b : Int} (h : a ≤ b) : bytes_to_pages a ≤ bytes_to_pages b := by
  unfold bytes_to_pages page_size; omega

theorem bytes_to_pages_le_max {b : Int} (h : b ≤ 1026 * 4096) : bytes_to_pages b ≤ 1026 := by
  unfold bytes_to_pages page_size; omega

theorem alloc_rel_nil (s : FS) : alloc_rel s [] s := by
  refine ⟨rfl, rfl, rfl, List.nodup_nil, ?_, ?_, ?_⟩
  · intro p hp; simp at hp
  · intro x; simp
  · intro a; simp

theorem in_page_disjoint {p q a : Int} (hp : in_page p a) (hq : in_page q a) : p = q := by
  unfold in_page pages_get_page page_size at *
  omega

/-- One more allocation after a run of allocations. -/
theorem alloc_rel_snoc (s t : FS) (l : List Int) (i : Nat)
    (h : alloc_rel s l t)
    (hi1 : inode_end_page ≤ (i : Int)) (hi2 : (i : Int) < num_pages)
    (hi3 : bitmap_get t.pages_bitmap i = 0) :
    alloc_rel s (l ++ [(i : Int)])
      { t with pages_bitmap := bitmap_put t.pages_bitmap i 1,
               mem := memset t.mem (pages_get_page i) 0 page_size } := by
  obtain ⟨h1, h2, h3, h4, h5, h6, h7⟩ := h
  have hnotin : (i : Int) ∉ l := by
    intro hc
    have := h6 i
    rw [if_pos hc, hi3] at this
    exact absurd this (by decide)
  have hfree : bitmap_get s.pages_bitmap i = 0 := by
    have := h6 i
    rw [if_neg hnotin] at this
    rw [← this]; exact hi3
  refine ⟨h1, h2, h3, ?_, ?_, ?_, ?_⟩
  · rw [List.nodup_append]
    refine ⟨h4, List.nodup_singleton _, ?_⟩
    intro a ha hb
    simp only [List.mem_singleton] at hb
    subst hb
    exact hnotin ha
  · intro p hp
    rw [List.mem_append] at hp
    cases hp with
    | inl hp => exact h5 p hp
    | inr hp =>
      simp only [List.mem_singleton] at hp
      subst hp
      exact ⟨hi1, hi2, by simpa using hfree⟩
  · intro x
    show bitmap_get (bitmap_put t.pages_bitmap i 1) x = _
    by_cases hx : x = i
    · subst hx
      rw [bitmap_get_put_same]
      simp
    · rw [bitmap_get_put_other _ _ _ _ (Ne.symm hx), h6 x]
      have hxi : (x : Int) ≠ (i : Int) := by omega
      simp only [List.mem_append, List.mem_singleton, hxi, or_false]
  · intro a
    show memset t.mem (pages_get_page i) 0 page_size a = _
    unfold memset
    by_cases ha : pages_get_page ↑i ≤ a ∧ a < pages_get_page ↑i + page_size
    · rw [if_pos ha]
      have : ∃ p ∈ l ++ [(i : Int)], in_page p a := ⟨i, by simp, ha⟩
      rw [if_pos this]
    · rw [if_neg ha, h7 a]
      by_cases hl : ∃ p ∈ l, in_page p a
      · rw [if_pos hl]
        obtain ⟨p, hp, hpa⟩ := hl
        have : ∃ p ∈ l ++ [(i : Int)], in_page p a := ⟨p, by simp [hp], hpa⟩
        rw [if_pos this]
      · rw [if_neg hl]
        have : ¬ ∃ p ∈ l ++ [(i : Int)], in_page p a := by
          rintro ⟨p, hp, hpa⟩
          rw [List.mem_append] at hp
          cases hp with
          | inl hp => exact hl ⟨p, hp, hpa⟩
          | inr hp =>
            simp only [List.mem_singleton] at hp
            subst hp
            exact ha hpa
        rw [if_neg this]

/-- The allocation loop of `grow_inode` succeeds when enough pages are
free. -/
theorem grow_alloc_ok (n k : Nat) (s0 s : FS) (acc : List Int)
    (hrel : alloc_rel s0 acc s) (hfree : free_avail s (n + k)) :
    ∃ l t, grow_alloc n s acc = (some (acc ++ l), t) ∧ l.length = n
      ∧ alloc_rel s0 (acc ++ l) t ∧ free_avail t k := by
  induction n generalizing s acc with
  | zero =>
    refine ⟨[], s, ?_, rfl, ?_, ?_⟩
    · simp [grow_alloc]
    · simpa using hrel
    · simpa using hfree
  | succ m ih =>
    have hfree1 : free_avail s ((m + k) + 1) := by
      have : m + 1 + k = m + k + 1 := by omega
      rw [this] at hfree; exact hfree
    obtain ⟨i, hi, hi1, hi2, hi3, hi4⟩ := alloc_page_ok s (m + k) hfree1
    rw [grow_alloc]
    simp only [hi]
    have hneg : ¬ ((i : Int) < 0) := by omega
    rw [if_neg hneg]
    have hrel1 := alloc_rel_snoc s0 s acc i hrel hi1 hi2 hi3
    have hfree2 : free_avail
        { s with pages_bitmap := bitmap_put s.pages_bitmap i 1,
                 mem := memset s.mem (pages_get_page i) 0 page_size } (m + k) := by
      obtain ⟨l, a, b, c⟩ := hi4
      exact ⟨l, a, b, c⟩
    obtain ⟨l, t, e1, e2, e3, e4⟩ := ih _ _ hrel1 hfree2
    refine ⟨(i : Int) :: l, t, ?_, ?_, ?_, e4⟩
    · rw [e1]; simp
    · simp [e2]
    · simpa using e3

theorem grow_first_free_spec (mem : Int → Nat) (ip : Int) (fuel : Nat) (ii z : Int)
    (h1 : ii ≤ z) (h2 : z < ii + fuel)
    (hnz : ∀ k : Int, ii ≤ k → k < z → read_int mem (ip + 4 * k) ≠ 0)
    (hz : read_int mem (ip + 4 * z) = 0) :
    grow_first_free mem ip fuel ii = z := by
  induction fuel generalizing ii with
  | zero => exfalso; simp at h2; omega
  | succ n ih =>
    rw [grow_first_free]
    by_cases he : ii = z
    · subst he; rw [if_pos hz]
    · have hlt : ii < z := by omega
      rw [if_neg (hnz ii (le_refl _) hlt)]
      apply ih
      · omega
      · push_cast at h2; omega
      · intro k hk1 hk2; exact hnz k (by omega) hk2

theorem slot_page_set_ptrs0 (s : FS) (node ip v i : Int) (hi : i ≠ 0) :
    slot_page (s.set_inode node { s.inodes node with ptrs0 := v }) node ip i
      = slot_page s node ip i := by
  unfold slot_page FS.set_inode
  simp [hi]

theorem slot_page_set_ptrs1 (s : FS) (node ip v i : Int) (hi : i ≠ 1) :
    slot_page (s.set_inode node { s.inodes node with ptrs1 := v }) node ip i
      = slot_page s node ip i := by
  unfold slot_page FS.set_inode
  by_cases h0 : i = 0
  · simp [h0]
  · simp [h0, hi]

theorem slot_page_write_other (s : FS) (node ip v k i : Int) (hi : i ≠ k + 2) :
    slot_page { s with mem := write_int s.mem (ip + 4 * k) v } node ip i
      = slot_page s node ip i := by
  unfold slot_page
  by_cases h0 : i = 0
  · simp [h0]
  · by_cases h1 : i = 1
    · simp [h1]
    · simp only [h0, h1, if_false]
      apply read_int_write_int_other
      omega

theorem slot_page_write_same (s : FS) (node ip v k : Int) (hk : 0 ≤ k)
    (h1 : -2147483648 ≤ v) (h2 : v < 2147483648) :
    slot_page { s with mem := write_int s.mem (ip + 4 * k) v } node ip (k + 2) = v := by
  unfold slot_page
  have h0 : k + 2 ≠ 0 := by omega
  have h1' : k + 2 ≠ 1 := by omega
  simp only [h0, h1', if_false]
  have : k + 2 - 2 = k := by omega
  rw [this]
  exact read_int_write_int_same _ _ _ h1 h2

/-- The attach loop of `grow_inode`: starting with `c` pages attached, the
pages of `l` go to the positions `c`, `c + 1`, ... -/
theorem grow_assign_ok (node ip : Int) (iptrs : Option Int) (l : List Int) (s : FS)
    (c iptr_ind : Int)
    (hc0 : 0 ≤ c) (hcl : c + l.length ≤ 1026)
    (hip : c + l.length ≥ 3 → iptrs = some ip)
    (hl : ∀ p ∈ l, 0 < p ∧ p < 2147483648)
    (hinv : ∀ i : Int, 0 ≤ i → i < c + l.length → (slot_page s node ip i = 0 ↔ c ≤ i))
    (hind : l ≠ [] → 2 ≤ c → iptr_ind = c - 2) (hind2 : l ≠ [] → c < 2 → iptr_ind = 0) :
    ∃ t, grow_assign node iptrs l s iptr_ind = (none, t)
      ∧ t.pages_bitmap = s.pages_bitmap ∧ t.inode_bitmap = s.inode_bitmap ∧ t.clock = s.clock
      ∧ (∀ j, j ≠ node → t.inodes j = s.inodes j)
      ∧ same_but_ptrs (t.inodes node) (s.inodes node)
      ∧ (∀ i : Int, 0 ≤ i →
          slot_page t node ip i
            = if c ≤ i ∧ i < c + l.length then l.getD (i - c).toNat 0
              else slot_page s node ip i)
      ∧ (∀ a : Int, (a < ip ∨ ip + 4 * (c + l.length - 2) ≤ a) → t.mem a = s.mem a) := by
  induction l generalizing s c iptr_ind with
  | nil =>
    refine ⟨s, rfl, rfl, rfl, rfl, fun _ _ => rfl, ⟨rfl, rfl, rfl, rfl, rfl, rfl⟩, ?_, fun _ _ => rfl⟩
    intro i h0
    simp only [List.length_nil, Nat.cast_zero, add_zero]
    have : ¬ (c ≤ i ∧ i < c) := by omega
    rw [if_neg this]
  | cons p rest ih =>
    have hp := hl p (List.mem_cons_self _ _)
    have hrest : ∀ q ∈ rest, 0 < q ∧ q < 2147483648 :=
      fun q hq => hl q (List.mem_cons_of_mem _ hq)
    have hlen : ((p :: rest).length : Int) = (rest.length : Int) + 1 := by
      simp [List.length_cons]
    have hne : p :: rest ≠ [] := List.cons_ne_nil _ _
    rw [hlen] at hcl hip hinv
    rw [hlen]
    unfold grow_assign
    have hpn : ¬ p < 0 := by omega
    rw [if_neg hpn]
    by_cases hc : c = 0
    · -- the page goes to ptrs[0]
      subst hc
      have h00 : (s.inodes node).ptrs0 = 0 := by
        have := (hinv 0 (le_refl _) (by omega)).2 (le_refl _)
        simpa [slot_page] using this
      rw [if_pos h00]
      have hinv1 : ∀ i : Int, 0 ≤ i → i < (0 + 1) + rest.length →
          (slot_page (s.set_inode node { s.inodes node with ptrs0 := p }) node ip i = 0
            ↔ 0 + 1 ≤ i) := by
        intro i hi0 hi1
        by_cases hi : i = 0
        · subst hi
          have : slot_page (s.set_inode node { s.inodes node with ptrs0 := p }) node ip 0 = p := by
            simp [slot_page, FS.set_inode]
          rw [this]
          constructor
          · intro h; omega
          · intro h; omega
        · rw [slot_page_set_ptrs0 s node ip p i hi]
          have := hinv i hi0 (by omega)
          constructor
          · intro h; omega
          · intro h; exact this.2 (by omega)
      obtain ⟨t, e1, e2, e3, e4, e5, e6, e7, e8⟩ :=
        ih (s.set_inode node { s.inodes node with ptrs0 := p }) (0 + 1) iptr_ind
          (by omega) (by omega) (fun h => hip (by omega)) hrest hinv1
          (fun _ h => by omega) (fun _ _ => hind2 hne (by omega))
      refine ⟨t, e1, e2, e3, e4, ?_, ?_, ?_, ?_⟩
      · intro j hj
        rw [e5 j hj]
        simp [FS.set_inode, hj]
      · obtain ⟨a1, a2, a3, a4, a5, a6⟩ := e6
        simp only [FS.set_inode, if_true] at a1 a2 a3 a4 a5 a6
        exact ⟨a1, a2, a3, a4, a5, a6⟩
      · intro i hi0
        rw [e7 i hi0]
        by_cases hi : i = 0
        · subst hi
          simp [slot_page, FS.set_inode]
        · by_cases hi2 : i < 0 + 1 + rest.length
          · have h1 : (0 : Int) + 1 ≤ i ∧ i < 0 + 1 + rest.length := ⟨by omega, hi2⟩
            have h2 : (0 : Int) ≤ i ∧ i < 0 + (rest.length + 1) := ⟨by omega, by omega⟩
            rw [if_pos h1, if_pos h2]
            have : (i - 0).toNat = (i - (0 + 1)).toNat + 1 := by omega
            rw [this, List.getD_cons_succ]
          · have h1 : ¬ ((0 : Int) + 1 ≤ i ∧ i < 0 + 1 + rest.length) := by omega
            have h2 : ¬ ((0 : Int) ≤ i ∧ i < 0 + (rest.length + 1)) := by omega
            rw [if_neg h1, if_neg h2]
            exact slot_page_set_ptrs0 s node ip p i hi
      · intro a ha
        rw [e8 a (by omega)]
        rfl
    · have h0n : (s.inodes node).ptrs0 ≠ 0 := by
        intro h
        have := (hinv 0 (le_refl _) (by omega)).1 (by simpa [slot_page] using h)
        omega
      rw [if_neg h0n]
      by_cases hc1 : c = 1
      · -- the page goes to ptrs[1]
        subst hc1
        have h10 : (s.inodes node).ptrs1 = 0 := by
          have := (hinv 1 (by omega) (by omega)).2 (le_refl _)
          simpa [slot_page] using this
        rw [if_pos h10]
        have hinv1 : ∀ i : Int, 0 ≤ i → i < (1 + 1) + rest.length →
            (slot_page (s.set_inode node { s.inodes node with ptrs1 := p }) node ip i = 0
              ↔ 1 + 1 ≤ i) := by
          intro i hi0 hi1
          by_cases hi : i = 1
          · subst hi
            have : slot_page (s.set_inode node { s.inodes node with ptrs1 := p }) node ip 1
                = p := by
              simp [slot_page, FS.set_inode]
            rw [this]
            constructor
            · intro h; omega
            · intro h; omega
          · rw [slot_page_set_ptrs1 s node ip p i hi]
            have := hinv i hi0 (by omega)
            constructor
            · intro h; have := this.1 h; omega
            · intro h; exact this.2 (by omega)
        obtain ⟨t, e1, e2, e3, e4, e5, e6, e7, e8⟩ :=
          ih (s.set_inode node { s.inodes node with ptrs1 := p }) (1 + 1) iptr_ind
            (by omega) (by omega) (fun h => hip (by omega)) hrest hinv1
            (fun _ _ => by have := hind2 hne (by omega); omega) (fun _ h => by omega)
        refine ⟨t, e1, e2, e3, e4, ?_, ?_, ?_, ?_⟩
        · intro j hj
          rw [e5 j hj]
          simp [FS.set_inode, hj]
        · obtain ⟨a1, a2, a3, a4, a5, a6⟩ := e6
          simp only [FS.set_inode, if_true] at a1 a2 a3 a4 a5 a6
          exact ⟨a1, a2, a3, a4, a5, a6⟩
        · intro i hi0
          rw [e7 i hi0]
          by_cases hi : i = 1
          · subst hi
            simp [slot_page, FS.set_inode]
          · by_cases hi2 : (1 : Int) + 1 ≤ i ∧ i < 1 + 1 + rest.length
            · have h2 : (1 : Int) ≤ i ∧ i < 1 + (rest.length + 1) := ⟨by omega, by omega⟩
              rw [if_pos hi2, if_pos h2]
              have : (i - 1).toNat = (i - (1 + 1)).toNat + 1 := by omega
              rw [this, List.getD_cons_succ]
            · have h2 : ¬ ((1 : Int) ≤ i ∧ i < 1 + (rest.length + 1)) := by omega
              rw [if_neg hi2, if_neg h2]
              exact slot_page_set_ptrs1 s node ip p i hi
        · intro a ha
          rw [e8 a (by omega)]
          rfl
      · -- the page goes to the indirect slot c - 2
        have hc2 : 2 ≤ c := by omega
        have h1n : (s.inodes node).ptrs1 ≠ 0 := by
          intro h
          have := (hinv 1 (by omega) (by omega)).1 (by simpa [slot_page] using h)
          omega
        rw [if_neg h1n]
        have hiptrs := hip (by omega)
        subst hiptrs
        simp only
        have hindv := hind hne hc2
        subst hindv
        have hslot : read_int s.mem (ip + 4 * (c - 2)) = 0 := by
          have := (hinv c (by omega) (by omega)).2 (le_refl _)
          unfold slot_page at this
          have h0 : c ≠ 0 := by omega
          have h1 : c ≠ 1 := by omega
          simpa [h0, h1] using this
        have hcond : to_size_t (c - 2) < 1024 ∧ read_int s.mem (ip + 4 * (c - 2)) = 0 := by
          refine ⟨?_, hslot⟩
          rw [to_size_t_of_range (by omega) (by omega)]
          omega
        rw [if_pos hcond]
        have hinv1 : ∀ i : Int, 0 ≤ i → i < (c + 1) + rest.length →
            (slot_page { s with mem := write_int s.mem (ip + 4 * (c - 2)) p } node ip i = 0
              ↔ c + 1 ≤ i) := by
          intro i hi0 hi1
          by_cases hi : i = c
          · subst hi
            have := slot_page_write_same s node ip p (i - 2) (by omega) (by omega) (by omega)
            have e : i - 2 + 2 = i := by omega
            rw [e] at this
            rw [this]
            constructor
            · intro h; omega
            · intro h; omega
          · rw [slot_page_write_other s node ip p (c - 2) i (by omega)]
            have := hinv i hi0 (by omega)
            constructor
            · intro h; have := this.1 h; omega
            · intro h; exact this.2 (by omega)
        obtain ⟨t, e1, e2, e3, e4, e5, e6, e7, e8⟩ :=
          ih { s with mem := write_int s.mem (ip + 4 * (c - 2)) p } (c + 1) (c - 2 + 1)
            (by omega) (by omega) (fun h => hip (by omega)) hrest hinv1
            (fun _ _ => by omega) (fun _ h => by omega)
        refine ⟨t, e1, e2, e3, e4, e5, e6, ?_, ?_⟩
        · intro i hi0
          rw [e7 i hi0]
          by_cases hi : i = c
          · subst hi
            have h1 : ¬ (i + 1 ≤ i ∧ i < i + 1 + rest.length) := by omega
            have h2 : i ≤ i ∧ i < i + (rest.length + 1) := ⟨le_refl _, by omega⟩
            rw [if_neg h1, if_pos h2]
            have := slot_page_write_same s node ip p (i - 2) (by omega) (by omega) (by omega)
            have e : i - 2 + 2 = i := by omega
            rw [e] at this
            rw [this]
            simp
          · by_cases hi2 : c + 1 ≤ i ∧ i < c + 1 + rest.length
            · have h2 : c ≤ i ∧ i < c + (rest.length + 1) := ⟨by omega, by omega⟩
              rw [if_pos hi2, if_pos h2]
              have : (i - c).toNat = (i - (c + 1)).toNat + 1 := by omega
              rw [this, List.getD_cons_succ]
            · have h2 : ¬ (c ≤ i ∧ i < c + (rest.length + 1)) := by omega
              rw [if_neg hi2, if_neg h2]
              exact slot_page_write_other s node ip p (c - 2) i (by omega)
        · intro a ha
          rw [e8 a (by omega)]
          show write_int s.mem (ip + 4 * (c - 2)) p a = s.mem a
          apply write_int_other
          omega

/-! ### Consequences of the invariants and of an allocation run -/

theorem wf_pages {s : FS} {node : Int} (h : inode_wf s node) (i : Int)
    (h0 : 0 ≤ i) (h1 : i < bytes_to_pages (s.inodes node).size) :
    page_ok s (page_at s node i) ∧ page_at s node i ≠ (s.inodes node).iptr := by
  have := h.2.2.2.2.2.2.2.1 i.toNat (by omega)
  rwa [Int.toNat_of_nonneg h0] at this

theorem wf_inj {s : FS} {node : Int} (h : inode_wf s node) (i j : Int)
    (h0 : 0 ≤ j) (h1 : j < i) (h2 : i < bytes_to_pages (s.inodes node).size) :
    page_at s node i ≠ page_at s node j := by
  have := h.2.2.2.2.2.2.2.2 i.toNat (by omega) j.toNat (by omega)
  rwa [Int.toNat_of_nonneg h0, Int.toNat_of_nonneg (by omega : 0 ≤ i)] at this

theorem wf_slot_zero {s : FS} {node : Int} (h : inode_wf s node) (k : Int)
    (hI : (s.inodes node).iptr ≠ 0)
    (h0 : 0 ≤ k) (h1 : k < 1024) (h2 : bytes_to_pages (s.inodes node).size - 2 ≤ k) :
    read_int s.mem (pages_get_page (s.inodes node).iptr + 4 * k) = 0 := by
  have := h.2.2.2.2.2.2.1 hI k.toNat (by omega) (by omega)
  rwa [Int.toNat_of_nonneg h0] at this

theorem alloc_rel_mem_ok {s t : FS} {l : List Int} (h : alloc_rel s l t) (x a : Int)
    (hin : in_page x a) (hok : page_ok s x) : t.mem a = s.mem a := by
  obtain ⟨_, _, _, _, h5, _, h7⟩ := h
  rw [h7 a]
  have : ¬ ∃ p ∈ l, in_page p a := by
    rintro ⟨p, hp, hpa⟩
    have e := in_page_disjoint hpa hin
    subst e
    have := (h5 p hp).2.2
    rw [hok.2.2] at this
    exact absurd this (by decide)
  rw [if_neg this]

theorem alloc_rel_bit_mono {s t : FS} {l : List Int} (h : alloc_rel s l t) (x : Nat)
    (hx : bitmap_get s.pages_bitmap x = 1) : bitmap_get t.pages_bitmap x = 1 := by
  obtain ⟨_, _, _, _, _, h6, _⟩ := h
  rw [h6 x]
  by_cases hm : (x : Int) ∈ l
  · rw [if_pos hm]
  · rw [if_neg hm]; exact hx

theorem alloc_rel_page_ok {s t : FS} {l : List Int} (h : alloc_rel s l t) (x : Int)
    (hx : page_ok s x) : page_ok t x :=
  ⟨hx.1, hx.2.1, alloc_rel_bit_mono h _ hx.2.2⟩

theorem alloc_rel_new_ok {s t : FS} {l : List Int} (h : alloc_rel s l t) (p : Int)
    (hp : p ∈ l) : page_ok t p := by
  obtain ⟨_, _, _, _, h5, h6, _⟩ := h
  have hp5 := h5 p hp
  refine ⟨hp5.1, hp5.2.1, ?_⟩
  rw [h6 p.toNat]
  have h17 : inode_end_page = 17 := rfl
  have : ((p.toNat : Nat) : Int) = p := Int.toNat_of_nonneg (by omega)
  rw [this, if_pos hp]

theorem alloc_rel_new_ne {s t : FS} {l : List Int} (h : alloc_rel s l t) (p x : Int)
    (hp : p ∈ l) (hx : page_ok s x) : p ≠ x := by
  intro e
  subst e
  have := (h.2.2.2.2.1 p hp).2.2
  rw [hx.2.2] at this
  exact absurd this (by decide)

theorem free_avail_congr {s t : FS} (k : Nat) (h : t.pages_bitmap = s.pages_bitmap)
    (hf : free_avail s k) : free_avail t k := by
  obtain ⟨l, a, b, c⟩ := hf
  exact ⟨l, a, b, by rw [h]; exact c⟩

theorem slot_page_lt2 (s : FS) (node ip ip2 i : Int) (hi : i < 2) (h0 : 0 ≤ i) :
    slot_page s node ip i = slot_page s node ip2 i := by
  unfold slot_page
  by_cases h : i = 0
  · simp [h]
  · have : i = 1 := by omega
    simp [this]

theorem slot_page_congr (s t : FS) (node ip i : Int)
    (hnode : t.inodes node = s.inodes node)
    (hmem : i ≠ 0 → i ≠ 1 → ∀ j : Int, 0 ≤ j → j < 4 →
      t.mem (ip + 4 * (i - 2) + j) = s.mem (ip + 4 * (i - 2) + j)) :
    slot_page t node ip i = slot_page s node ip i := by
  unfold slot_page
  rw [hnode]
  by_cases h0 : i = 0
  · simp [h0]
  · by_cases h1 : i = 1
    · simp [h1]
    · simp only [h0, h1, if_false]
      exact read_int_congr (hmem h0 h1)

/-! ### The allocation and attachment part of grow_inode -/

theorem in_page_slot (I k j : Int) (hk0 : 0 ≤ k) (hk : k < 1024) (hj0 : 0 ≤ j) (hj : j < 4) :
    in_page I (pages_get_page I + 4 * k + j) := by
  unfold in_page pages_get_page page_size
  omega

theorem page_ok_ne_zero {s : FS} {p : Int} (h : page_ok s p) : p ≠ 0 := by
  have := h.1
  have h17 : inode_end_page = 17 := rfl
  omega

theorem page_ok_range {s : FS} {p : Int} (h : page_ok s p) : 0 < p ∧ p < 2147483648 := by
  have h1 := h.1
  have h2 := h.2.1
  have h17 : inode_end_page = 17 := rfl
  have hN : num_pages = 262144 := by decide
  omega

theorem getD_mem_of_lt (l : List Int) (n : Nat) (h : n < l.length) : l.getD n 0 ∈ l := by
  rw [List.getD_eq_getElem l 0 h]
  exact List.getElem_mem h

theorem nodup_getD_ne (l : List Int) (hnd : l.Nodup) (a b : Nat)
    (ha : a < l.length) (hb : b < l.length) (hab : a ≠ b) : l.getD a 0 ≠ l.getD b 0 := by
  rw [List.getD_eq_getElem l 0 ha, List.getD_eq_getElem l 0 hb]
  intro h
  exact hab ((List.Nodup.getElem_inj_iff hnd).1 h)

/-- The second half of `grow_inode` on a well-formed inode: with enough free
pages it succeeds, and the inode is well formed at its new size. -/
theorem grow_finish_ok (s1 : FS) (node delta ip iptr_ind : Int) (iptrs : Option Int) (k : Nat)
    (hwf : inode_wf s1 node) (hd : 0 ≤ delta)
    (hmax : (s1.inodes node).size + delta ≤ 1026 * 4096)
    (hfree : free_avail s1
      ((bytes_to_pages ((s1.inodes node).size + delta)
        - bytes_to_pages (s1.inodes node).size).toNat + k))
    (hip : 3 ≤ bytes_to_pages ((s1.inodes node).size + delta) →
      iptrs = some ip ∧ ip = pages_get_page (s1.inodes node).iptr ∧ (s1.inodes node).iptr ≠ 0)
    (hind : bytes_to_pages (s1.inodes node).size
        < bytes_to_pages ((s1.inodes node).size + delta) →
      2 ≤ bytes_to_pages (s1.inodes node).size →
      iptr_ind = bytes_to_pages (s1.inodes node).size - 2)
    (hind2 : bytes_to_pages (s1.inodes node).size
        < bytes_to_pages ((s1.inodes node).size + delta) →
      bytes_to_pages (s1.inodes node).size < 2 → iptr_ind = 0) :
    ∃ t, grow_inode_finish s1 node delta
          (bytes_to_pages ((s1.inodes node).size + delta)
            - bytes_to_pages (s1.inodes node).size) iptrs iptr_ind = (0, t)
      ∧ inode_wf t node ∧ (t.inodes node).size = (s1.inodes node).size + delta
      ∧ (t.inodes node).iptr = (s1.inodes node).iptr
      ∧ free_avail t k ∧ grow_frame s1 node t := by
  have hwf' := hwf
  obtain ⟨w1, w2, w3, w4, w5, w6, w7, w8, w9⟩ := hwf
  generalize hsz : (s1.inodes node).size = sz at *
  generalize hp : bytes_to_pages sz = p at *
  generalize hq : bytes_to_pages (sz + delta) = q at *
  generalize hI : (s1.inodes node).iptr = I at *
  have hp0 : 0 ≤ p := by rw [← hp]; exact bytes_to_pages_nonneg w1
  have hpq : p ≤ q := by rw [← hp, ← hq]; exact bytes_to_pages_mono (by omega)
  have hq1026 : q ≤ 1026 := by rw [← hq]; exact bytes_to_pages_le_max hmax
  have hpgs : ∀ i : Int, 0 ≤ i → i < p →
      page_ok s1 (page_at s1 node i) ∧ page_at s1 node i ≠ I := by
    intro i h0 h1
    have := wf_pages hwf' i h0 (by rw [hsz, hp]; exact h1)
    rwa [hI] at this
  -- the allocation loop
  obtain ⟨l, s2, e1, e2, e3, e4⟩ :=
    grow_alloc_ok (q - p).toNat k s1 s1 [] (alloc_rel_nil s1) hfree
  simp only [List.nil_append] at e1 e3
  have hlen : (l.length : Int) = q - p := by rw [e2]; omega
  have hs2i : s2.inodes = s1.inodes := e3.1
  unfold grow_inode_finish
  rw [e1]
  simp only
  -- the attach loop
  have hlok : ∀ x ∈ l, 0 < x ∧ x < 2147483648 := fun x hx =>
    page_ok_range (alloc_rel_new_ok e3 x hx)
  have hslot_s2 : ∀ i : Int, 0 ≤ i → i < 1026 → (2 ≤ i → 3 ≤ q) →
      slot_page s2 node ip i = slot_page s1 node ip i := by
    intro i h0 h1 h2
    apply slot_page_congr
    · rw [hs2i]
    · intro n0 n1 j hj0 hj1
      have h3q := h2 (by omega)
      obtain ⟨_, hipe, hIne⟩ := hip h3q
      subst hipe
      exact alloc_rel_mem_ok e3 I _ (in_page_slot I (i - 2) j (by omega) (by omega) hj0 hj1)
        (w6 hIne)
  have hslot_s1 : ∀ i : Int, 0 ≤ i → i < 1026 → (2 ≤ i → 3 ≤ q) →
      (slot_page s1 node ip i = 0 ↔ p ≤ i) := by
    intro i h0 h1 h2
    by_cases hi0 : i = 0
    · subst hi0
      have : slot_page s1 node ip 0 = (s1.inodes node).ptrs0 := by simp [slot_page]
      rw [this]
      constructor
      · intro h; have := w3.1 h; omega
      · intro h; exact w3.2 (by omega)
    · by_cases hi1 : i = 1
      · subst hi1
        have : slot_page s1 node ip 1 = (s1.inodes node).ptrs1 := by simp [slot_page]
        rw [this]
        constructor
        · intro h; have := w4.1 h; omega
        · intro h; exact w4.2 (by omega)
      · have h3q := h2 (by omega)
        obtain ⟨_, hipe, hIne⟩ := hip h3q
        constructor
        · intro h
          by_contra hc
          have hlt : i < p := by omega
          have hpo := (hpgs i h0 hlt).1
          have : page_at s1 node i = slot_page s1 node ip i := by
            unfold page_at; rw [hI, hipe]
          rw [this, h] at hpo
          exact page_ok_ne_zero hpo rfl
        · intro h
          have := wf_slot_zero hwf' (i - 2) (by rw [hI]; exact hIne) (by omega) (by omega)
            (by rw [hsz, hp]; omega)
          rw [hI] at this
          unfold slot_page
          simp only [hi0, hi1, if_false]
          rw [hipe]; exact this
  have hinv : ∀ i : Int, 0 ≤ i → i < p + l.length →
      (slot_page s2 node ip i = 0 ↔ p ≤ i) := by
    intro i h0 h1
    rw [hslot_s2 i h0 (by omega) (by omega)]
    exact hslot_s1 i h0 (by omega) (by omega)
  obtain ⟨t3, f1, f2, f3, f4, f5, f6, f7, f8⟩ :=
    grow_assign_ok node ip iptrs l s2 p iptr_ind hp0 (by omega)
      (fun h => (hip (by omega)).1) hlok hinv
      (fun hne h2 => hind (by
        have : l.length ≠ 0 := fun hc => hne (List.length_eq_zero.1 hc)
        omega) h2)
      (fun hne h2 => hind2 (by
        have : l.length ≠ 0 := fun hc => hne (List.length_eq_zero.1 hc)
        omega) h2)
  rw [f1]
  simp only
  obtain ⟨g1, g2, g3, g4, g5, g6⟩ := f6
  rw [hs2i] at g1 g2 g3 g4 g5 g6 f5
  rw [hsz] at g3
  rw [hI] at g4
  have hto : to_int (sz + delta) = sz + delta := to_int_of_range (by omega) (by omega)
  rw [g3, hto]
  -- the final state
  have hQ : ∀ i : Int, 0 ≤ i → i < 1026 → (2 ≤ i → 3 ≤ q) →
      slot_page t3 node ip i
        = if p ≤ i ∧ i < q then l.getD (i - p).toNat 0 else slot_page s1 node ip i := by
    intro i h0 h1 h2
    rw [f7 i h0, hslot_s2 i h0 h1 h2]
    have : (p ≤ i ∧ i < p + l.length) ↔ (p ≤ i ∧ i < q) := by
      constructor
      · intro h; exact ⟨h.1, by omega⟩
      · intro h; exact ⟨h.1, by omega⟩
    simp only [this]
  have hmem_t3 : ∀ x a : Int, in_page x a → page_ok s1 x → x ≠ I → t3.mem a = s1.mem a := by
    intro x a hin hok hne
    have h1 : t3.mem a = s2.mem a := by
      apply f8
      by_cases h3q : 3 ≤ q
      · obtain ⟨_, hipe, _⟩ := hip h3q
        subst hipe
        unfold in_page pages_get_page page_size at hin
        unfold pages_get_page page_size
        omega
      · omega
    rw [h1]
    exact alloc_rel_mem_ok e3 x a hin hok
  have hmem_slots : ∀ k : Int, 0 ≤ k → k < 1024 → q - 2 ≤ k → I ≠ 0 →
      read_int t3.mem (pages_get_page I + 4 * k) = 0 := by
    intro k hk0 hk1 hk2 hIne
    have : read_int t3.mem (pages_get_page I + 4 * k)
        = read_int s1.mem (pages_get_page I + 4 * k) := by
      apply read_int_congr
      intro j hj0 hj1
      have h1 : t3.mem (pages_get_page I + 4 * k + j) = s2.mem (pages_get_page I + 4 * k + j) := by
        apply f8
        by_cases h3q : 3 ≤ q
        · obtain ⟨_, hipe, _⟩ := hip h3q
          subst hipe
          omega
        · omega
      rw [h1]
      exact alloc_rel_mem_ok e3 I _ (in_page_slot I k j hk0 hk1 hj0 hj1) (w6 hIne)
    rw [this]
    have := wf_slot_zero hwf' k (by rw [hI]; exact hIne) hk0 hk1 (by rw [hsz, hp]; omega)
    rwa [hI] at this
  -- abbreviations for the final inode
  have hfin_node : ∀ (u : FS) (nd : inode), (u.set_inode node nd).inodes node = nd := by
    intro u nd; simp [FS.set_inode]
  have hpage_at_fin : ∀ i : Int, 0 ≤ i → i < 1026 → (2 ≤ i → 3 ≤ q) →
      page_at (t3.set_inode node { t3.inodes node with size := sz + delta }) node i
        = if p ≤ i ∧ i < q then l.getD (i - p).toNat 0 else page_at s1 node i := by
    intro i h0 h1 h2
    have e : page_at (t3.set_inode node { t3.inodes node with size := sz + delta }) node i
        = slot_page t3 node ip i := by
      unfold page_at
      rw [hfin_node]
      simp only [g4]
      by_cases hi2 : i < 2
      · rw [slot_page_lt2 _ node _ ip i hi2 h0]
        unfold slot_page FS.set_inode
        by_cases hi0 : i = 0
        · simp [hi0]
        · have : i = 1 := by omega
          simp [this]
      · obtain ⟨_, hipe, _⟩ := hip (h2 (by omega))
        rw [← hipe]
        unfold slot_page FS.set_inode
        have hi0 : i ≠ 0 := by omega
        have hi1 : i ≠ 1 := by omega
        simp [hi0, hi1]
    rw [e, hQ i h0 h1 h2]
    by_cases hc : p ≤ i ∧ i < q
    · rw [if_pos hc, if_pos hc]
    · rw [if_neg hc, if_neg hc]
      unfold page_at
      rw [hI]
      by_cases hi2 : i < 2
      · exact slot_page_lt2 _ node _ _ i hi2 h0
      · obtain ⟨_, hipe, _⟩ := hip (h2 (by omega))
        rw [hipe]
  have hbit : ∀ x : Nat, bitmap_get s1.pages_bitmap x = 1 → bitmap_get t3.pages_bitmap x = 1 := by
    intro x hx
    rw [f2]
    exact alloc_rel_bit_mono e3 x hx
  have hok_fin : ∀ x : Int, page_ok s2 x →
      page_ok (t3.set_inode node { t3.inodes node with size := sz + delta }) x := by
    intro x hx
    refine ⟨hx.1, hx.2.1, ?_⟩
    show bitmap_get t3.pages_bitmap x.toNat = 1
    rw [f2]; exact hx.2.2
  refine ⟨_, rfl, ?_, ?_, ?_, ?_, ?_⟩
  · -- the invariants at the new size
    unfold inode_wf
    rw [hfin_node]
    simp only
    rw [hq]
    have hptr0 : (t3.inodes node).ptrs0 = slot_page t3 node ip 0 := by simp [slot_page]
    have hptr1 : (t3.inodes node).ptrs1 = slot_page t3 node ip 1 := by simp [slot_page]
    have hs1p0 : slot_page s1 node ip 0 = (s1.inodes node).ptrs0 := by simp [slot_page]
    have hs1p1 : slot_page s1 node ip 1 = (s1.inodes node).ptrs1 := by simp [slot_page]
    refine ⟨by omega, hmax, ?_, ?_, ?_, ?_, ?_, ?_, ?_⟩
    · rw [hptr0, hQ 0 (le_refl _) (by omega) (fun h => by omega)]
      by_cases hc : p ≤ 0 ∧ (0 : Int) < q
      · rw [if_pos hc]
        have hm := getD_mem_of_lt l ((0 : Int) - p).toNat (by omega)
        have := (hlok _ hm).1
        constructor
        · intro h; omega
        · intro h; omega
      · rw [if_neg hc, hs1p0]
        constructor
        · intro h; have := w3.1 h; omega
        · intro h; exact w3.2 (by omega)
    · rw [hptr1, hQ 1 (by omega) (by omega) (fun h => by omega)]
      by_cases hc : p ≤ 1 ∧ (1 : Int) < q
      · rw [if_pos hc]
        have hm := getD_mem_of_lt l ((1 : Int) - p).toNat (by omega)
        have := (hlok _ hm).1
        constructor
        · intro h; omega
        · intro h; omega
      · rw [if_neg hc, hs1p1]
        constructor
        · intro h; have := w4.1 h; omega
        · intro h; exact w4.2 (by omega)
    · intro h3
      rw [g4]
      exact (hip h3).2.2
    · intro hIne
      rw [g4] at hIne ⊢
      exact hok_fin I (alloc_rel_page_ok e3 I (w6 hIne))
    · intro hIne kk hk1 hk2
      rw [g4] at hIne ⊢
      exact hmem_slots kk (by omega) (by omega) hk2 hIne
    · intro i hi
      have hi0 : (0 : Int) ≤ i := by omega
      have hiq : (i : Int) < q := by omega
      rw [hpage_at_fin i hi0 (by omega) (fun h => by omega), g4]
      by_cases hc : p ≤ (i : Int) ∧ (i : Int) < q
      · rw [if_pos hc]
        have hm := getD_mem_of_lt l ((i : Int) - p).toNat (by omega)
        refine ⟨hok_fin _ (alloc_rel_new_ok e3 _ hm), ?_⟩
        intro heq
        have hIne : I ≠ 0 := by
          rw [← heq]; have := (hlok _ hm).1; omega
        exact alloc_rel_new_ne e3 _ I hm (w6 hIne) heq
      · rw [if_neg hc]
        have := hpgs i hi0 (by omega)
        exact ⟨hok_fin _ (alloc_rel_page_ok e3 _ this.1), this.2⟩
    · intro i hi j hj
      have hi0 : (0 : Int) ≤ i := by omega
      have hj0 : (0 : Int) ≤ j := by omega
      have hiq : (i : Int) < q := by omega
      rw [hpage_at_fin i hi0 (by omega) (fun h => by omega),
        hpage_at_fin j hj0 (by omega) (fun h => by omega)]
      by_cases hci : p ≤ (i : Int) ∧ (i : Int) < q
      · rw [if_pos hci]
        have hmi := getD_mem_of_lt l ((i : Int) - p).toNat (by omega)
        by_cases hcj : p ≤ (j : Int) ∧ (j : Int) < q
        · rw [if_pos hcj]
          exact nodup_getD_ne l e3.2.2.2.1 _ _ (by omega) (by omega) (by omega)
        · rw [if_neg hcj]
          have := hpgs j hj0 (by omega)
          exact alloc_rel_new_ne e3 _ _ hmi this.1
      · rw [if_neg hci]
        have hcj : ¬ (p ≤ (j : Int) ∧ (j : Int) < q) := by omega
        rw [if_neg hcj]
        have := wf_inj hwf' i j hj0 (by omega) (by rw [hsz, hp]; omega)
        exact this
  · rw [hfin_node]
  · rw [hfin_node]; exact g4
  · apply free_avail_congr k _ e4
    show t3.pages_bitmap = s2.pages_bitmap
    exact f2
  · unfold grow_frame
    rw [hfin_node, hsz, hp, hI]
    simp only
    rw [hq]
    refine ⟨?_, ?_, ?_, g1, g2, g5, g6, hbit, hmem_t3, ?_, ?_, Or.inl g4⟩
    · show t3.inode_bitmap = s1.inode_bitmap
      rw [f3]; exact e3.2.1
    · show t3.clock = s1.clock
      rw [f4]; exact e3.2.2.1
    · intro j hj
      show (if j = node then _ else t3.inodes j) = s1.inodes j
      rw [if_neg hj, f5 j hj]
    · intro i h0 h1
      rw [hpage_at_fin i h0 (by omega) (fun h => by omega)]
      have : ¬ (p ≤ i ∧ i < q) := by omega
      rw [if_neg this]
    · intro i h0 h1
      rw [hpage_at_fin i (by omega) (by omega) (fun h => by omega)]
      have hc : p ≤ i ∧ i < q := ⟨h0, h1⟩
      rw [if_pos hc]
      have hm := getD_mem_of_lt l (i - p).toNat (by omega)
      intro hok
      exact alloc_rel_new_ne e3 _ _ hm hok rfl

/-! ### grow_inode as a whole -/

/-- The first free indirect slot of a well-formed inode that is not full. -/
theorem first_free_of_wf (s : FS) (node : Int) (hwf : inode_wf s node)
    (hI : (s.inodes node).iptr ≠ 0) (hlt : bytes_to_pages (s.inodes node).size < 1026) :
    (2 ≤ bytes_to_pages (s.inodes node).size →
      grow_first_free s.mem (pages_get_page (s.inodes node).iptr) 1024 0
        = bytes_to_pages (s.inodes node).size - 2)
    ∧ (bytes_to_pages (s.inodes node).size < 2 →
      grow_first_free s.mem (pages_get_page (s.inodes node).iptr) 1024 0 = 0) := by
  constructor
  · intro h2
    apply grow_first_free_spec
    · omega
    · simp only [Nat.cast_ofNat]; omega
    · intro k hk0 hk1
      have := (wf_pages hwf (k + 2) (by omega) (by omega)).1
      have hne := page_ok_ne_zero this
      unfold page_at slot_page at hne
      have h0 : k + 2 ≠ 0 := by omega
      have h1 : k + 2 ≠ 1 := by omega
      simp only [h0, h1, if_false] at hne
      have e : k + 2 - 2 = k := by omega
      rwa [e] at hne
    · exact wf_slot_zero hwf _ hI (by omega) (by omega) (le_refl _)
  · intro h2
    apply grow_first_free_spec
    · exact le_refl _
    · simp
    · intro k hk0 hk1; omega
    · exact wf_slot_zero hwf 0 hI (le_refl _) (by omega) (by omega)

/-- `grow_inode` on a well-formed inode, within the capacity and with enough
free pages, returns 0 and leaves the inode well formed at the new size. -/
theorem grow_inode_ok (s : FS) (node delta : Int) (k : Nat)
    (hwf : inode_wf s node) (hd : 0 ≤ delta)
    (hmax : (s.inodes node).size + delta ≤ 1026 * 4096)
    (hfree : free_avail s
      (grow_need (bytes_to_pages (s.inodes node).size)
        (bytes_to_pages ((s.inodes node).size + delta)) + k)) :
    ∃ t, grow_inode s node delta = (0, t)
      ∧ inode_wf t node ∧ (t.inodes node).size = (s.inodes node).size + delta
      ∧ free_avail t k ∧ grow_frame s node t
      ∧ (bytes_to_pages ((s.inodes node).size + delta) < 3 →
          (t.inodes node).iptr = (s.inodes node).iptr) := by
  have hwf' := hwf
  obtain ⟨w1, w2, w3, w4, w5, w6, w7, w8, w9⟩ := hwf
  have hto : to_int ((s.inodes node).size + delta) = (s.inodes node).size + delta :=
    to_int_of_range (by omega) (by omega)
  have hp0 : 0 ≤ bytes_to_pages (s.inodes node).size := bytes_to_pages_nonneg w1
  have hpq : bytes_to_pages (s.inodes node).size
      ≤ bytes_to_pages ((s.inodes node).size + delta) := bytes_to_pages_mono (by omega)
  have hq1026 : bytes_to_pages ((s.inodes node).size + delta) ≤ 1026 :=
    bytes_to_pages_le_max hmax
  unfold grow_inode
  simp only [hto]
  have hfit : ¬ to_size_t (bytes_to_pages ((s.inodes node).size + delta)) > (8 + 4096) / 4 := by
    rw [to_size_t_of_range (by omega) (by omega)]
    have : ((8 : Int) + 4096) / 4 = 1026 := by decide
    rw [this]; omega
  rw [if_neg hfit]
  by_cases hA : bytes_to_pages (s.inodes node).size < 3
      ∧ bytes_to_pages ((s.inodes node).size + delta) ≥ 3
  · -- the indirect page is allocated first
    rw [if_pos hA]
    have hneed : grow_need (bytes_to_pages (s.inodes node).size)
        (bytes_to_pages ((s.inodes node).size + delta)) + k
        = ((bytes_to_pages ((s.inodes node).size + delta)
            - bytes_to_pages (s.inodes node).size).toNat + k) + 1 := by
      unfold grow_need; rw [if_pos hA]; omega
    rw [hneed] at hfree
    obtain ⟨I, hI, hI1, hI2, hI3, hI4⟩ := alloc_page_ok s _ hfree
    simp only [hI]
    have hIneg : ¬ ((I : Int) < 0) := by omega
    rw [if_neg hIneg]
    simp only
    have h17 : inode_end_page = 17 := rfl
    have hIne : (I : Int) ≠ 0 := by omega
    -- the state after the indirect page was attached
    generalize hs1 : FS.set_inode _ node _ = s1
    have hs1node : s1.inodes node = { s.inodes node with iptr := I } := by
      rw [← hs1]; simp [FS.set_inode]
    have hs1other : ∀ j, j ≠ node → s1.inodes j = s.inodes j := by
      intro j hj; rw [← hs1]; simp [FS.set_inode, hj]
    have hs1mem : s1.mem = memset s.mem (pages_get_page I) 0 page_size := by
      rw [← hs1]; rfl
    have hs1bm : s1.pages_bitmap = bitmap_put s.pages_bitmap I 1 := by
      rw [← hs1]; rfl
    have hs1ib : s1.inode_bitmap = s.inode_bitmap := by rw [← hs1]; rfl
    have hs1ck : s1.clock = s.clock := by rw [← hs1]; rfl
    have hsize : (s1.inodes node).size = (s.inodes node).size := by rw [hs1node]
    have hiptr : (s1.inodes node).iptr = I := by rw [hs1node]
    have hbit1 : ∀ x : Nat, bitmap_get s.pages_bitmap x = 1 →
        bitmap_get s1.pages_bitmap x = 1 := by
      intro x hx
      rw [hs1bm]
      by_cases hxI : x = I
      · subst hxI; rw [bitmap_get_put_same]; simp
      · rw [bitmap_get_put_other _ _ _ _ (Ne.symm hxI)]; exact hx
    have hok1 : ∀ x : Int, page_ok s x → page_ok s1 x ∧ x ≠ I := by
      intro x hx
      refine ⟨⟨hx.1, hx.2.1, hbit1 _ hx.2.2⟩, ?_⟩
      intro e
      subst e
      have := hx.2.2
      simp only [Int.toNat_ofNat] at this
      rw [hI3] at this
      exact absurd this (by decide)
    have hmem1 : ∀ x a : Int, in_page x a → page_ok s x → s1.mem a = s.mem a := by
      intro x a hin hok
      rw [hs1mem]
      apply memset_other
      have hne := (hok1 x hok).2
      unfold in_page pages_get_page page_size at hin
      unfold pages_get_page page_size
      omega
    have hpage1 : ∀ i : Int, 0 ≤ i → i < 2 → page_at s1 node i = page_at s node i := by
      intro i h0 h1
      unfold page_at
      rw [slot_page_lt2 s1 node _ 0 i h1 h0, slot_page_lt2 s node _ 0 i h1 h0]
      unfold slot_page
      rw [hs1node]
      by_cases hi0 : i = 0
      · simp [hi0]
      · have : i = 1 := by omega
        simp [this]
    have hwf1 : inode_wf s1 node := by
      unfold inode_wf
      rw [hsize, hiptr]
      refine ⟨w1, w2, ?_, ?_, ?_, ?_, ?_, ?_, ?_⟩
      · rw [hs1node]; exact w3
      · rw [hs1node]; exact w4
      · intro h3; omega
      · intro _
        refine ⟨hI1, hI2, ?_⟩
        rw [hs1bm]
        simp only [Int.toNat_ofNat]
        rw [bitmap_get_put_same]; simp
      · intro _ kk hk1 hk2
        rw [hs1mem]
        apply read_int_memset_zero
        · omega
        · unfold page_size; omega
      · intro i hi
        have hi0 : (0 : Int) ≤ i := by omega
        have hi2 : (i : Int) < 2 := by omega
        rw [hpage1 i hi0 hi2]
        have := wf_pages hwf' i hi0 (by omega)
        exact hok1 _ this.1
      · intro i hi j hj
        have hi0 : (0 : Int) ≤ i := by omega
        have hi2 : (i : Int) < 2 := by omega
        rw [hpage1 i hi0 hi2, hpage1 j (by omega) (by omega)]
        exact wf_inj hwf' i j (by omega) (by omega) (by omega)
    have hfree1 : free_avail s1
        ((bytes_to_pages ((s1.inodes node).size + delta)
          - bytes_to_pages (s1.inodes node).size).toNat + k) := by
      rw [hsize]
      exact free_avail_congr _ hs1bm hI4
    have hs1Ine : (s1.inodes node).iptr ≠ 0 := by rw [hiptr]; exact hIne
    have hff := first_free_of_wf s1 node hwf1 hs1Ine (by rw [hsize]; omega)
    unfold grow_inode_attach
    simp only [hs1Ine, ne_eq, not_false_eq_true, if_true]
    obtain ⟨t, e1, e2, e3, e4, e5, e6⟩ :=
      grow_finish_ok s1 node delta (pages_get_page (s1.inodes node).iptr)
        (grow_first_free s1.mem (pages_get_page (s1.inodes node).iptr) 1024 0)
        (some (pages_get_page (s1.inodes node).iptr)) k hwf1 hd (by rw [hsize]; exact hmax)
        hfree1 (fun _ => ⟨rfl, rfl, hs1Ine⟩) (fun _ h2 => hff.1 h2) (fun _ h2 => hff.2 h2)
    rw [hsize] at e1 e3
    refine ⟨t, e1, e2, e3, e5, ?_, fun h => absurd hA.2 (by omega)⟩
    obtain ⟨f1, f2, f3, f4, f5, f6, f7, f8, f9, f10, f11, f12⟩ := e6
    rw [hs1node] at f4 f5 f6 f7
    refine ⟨by rw [f1, hs1ib], by rw [f2, hs1ck], ?_, f4, f5, f6, f7, ?_, ?_, ?_, ?_, ?_⟩
    · intro j hj; rw [f3 j hj, hs1other j hj]
    · intro x hx; exact f8 x (hbit1 x hx)
    · intro x a hin hok _
      have h1 := hok1 x hok
      rw [f9 x a hin h1.1 (by rw [hiptr]; exact h1.2)]
      exact hmem1 x a hin hok
    · intro i h0 h1
      rw [f10 i h0 (by rw [hsize]; exact h1)]
      exact hpage1 i h0 (by omega)
    · intro i h0 h1 hok
      exact f11 i (by rw [hsize]; exact h0) h1 (hok1 _ hok).1
    · right
      rw [e4, hiptr]
      intro hok
      exact (hok1 _ hok).2 rfl
  · -- no indirect page has to be allocated
    rw [if_neg hA]
    simp only
    have hneed : grow_need (bytes_to_pages (s.inodes node).size)
        (bytes_to_pages ((s.inodes node).size + delta)) + k
        = (bytes_to_pages ((s.inodes node).size + delta)
            - bytes_to_pages (s.inodes node).size).toNat + k := by
      unfold grow_need; rw [if_neg hA]; omega
    rw [hneed] at hfree
    unfold grow_inode_attach
    by_cases hI : (s.inodes node).iptr = 0
    · have h3 : ¬ 3 ≤ bytes_to_pages (s.inodes node).size := fun h => w5 h hI
      have hq3 : ¬ 3 ≤ bytes_to_pages ((s.inodes node).size + delta) := by omega
      simp only [hI, ne_eq, not_true_eq_false, if_false]
      obtain ⟨t, e1, e2, e3, e4, e5, e6⟩ :=
        grow_finish_ok s node delta 0 0 none k hwf' hd hmax hfree
          (fun h => absurd h hq3) (fun _ h2 => by omega) (fun _ _ => rfl)
      exact ⟨t, e1, e2, e3, e5, e6, fun _ => by rw [e4, hI]⟩
    · simp only [hI, ne_eq, not_false_eq_true, if_true]
      by_cases hfull : bytes_to_pages (s.inodes node).size < 1026
      · have hff := first_free_of_wf s node hwf' hI hfull
        obtain ⟨t, e1, e2, e3, e4, e5, e6⟩ :=
          grow_finish_ok s node delta (pages_get_page (s.inodes node).iptr)
            (grow_first_free s.mem (pages_get_page (s.inodes node).iptr) 1024 0)
            (some (pages_get_page (s.inodes node).iptr)) k hwf' hd hmax hfree
            (fun _ => ⟨rfl, rfl, hI⟩) (fun _ h2 => hff.1 h2) (fun _ h2 => hff.2 h2)
        exact ⟨t, e1, e2, e3, e5, e6, fun _ => e4⟩
      · obtain ⟨t, e1, e2, e3, e4, e5, e6⟩ :=
          grow_finish_ok s node delta (pages_get_page (s.inodes node).iptr)
            (grow_first_free s.mem (pages_get_page (s.inodes node).iptr) 1024 0)
            (some (pages_get_page (s.inodes node).iptr)) k hwf' hd hmax hfree
            (fun _ => ⟨rfl, rfl, hI⟩) (fun h _ => by omega) (fun h _ => by omega)
        exact ⟨t, e1, e2, e3, e5, e6, fun _ => e4⟩

/-! ## Pages of a well-formed inode -/

theorem grow_foreign {s t : FS} {node : Int} (h : grow_frame s node t) (x : Int)
    (hx : foreign s node x) : foreign t node x := by
  obtain ⟨_, _, _, _, _, _, _, f8, _, f10, f11, f12⟩ := h
  obtain ⟨x1, x2, x3⟩ := hx
  refine ⟨⟨x1.1, x1.2.1, f8 _ x1.2.2⟩, ?_, ?_⟩
  · rcases f12 with h | h
    · rw [h]; exact x2
    · intro e; rw [← e] at h; exact h x1
  · intro i hi
    by_cases hlt : (i : Int) < bytes_to_pages (s.inodes node).size
    · rw [f10 i (by omega) hlt]
      exact x3 i (by omega)
    · intro e
      have := f11 i (by omega) (by omega)
      rw [← e] at this
      exact this x1

/-- The page `inode_get_page` returns for a position below the page count of
a well-formed inode. -/
theorem inode_get_page_wf {s : FS} {node : Int} (h : inode_wf s node) (i : Int)
    (h0 : 0 ≤ i) (h1 : i < bytes_to_pages (s.inodes node).size) :
    inode_get_page s node i = some (pages_get_page (page_at s node i)) := by
  obtain ⟨w1, w2, w3, w4, w5, _⟩ := h
  unfold inode_get_page
  have hc : cdiv (s.inodes node).size page_size = (s.inodes node).size / 4096 := by
    rw [cdiv_of_nonneg w1 (by decide)]; rfl
  have hle : ¬ i > cdiv (s.inodes node).size page_size := by
    rw [hc]
    unfold bytes_to_pages page_size at h1
    omega
  rw [if_neg hle]
  by_cases h2 : i < 2
  · rw [if_pos h2]
    unfold page_at slot_page inode.ptrs
    by_cases hi0 : i = 0
    · simp [hi0]
    · have : i = 1 := by omega
      simp [this]
  · rw [if_neg h2]
    have hI := w5 (by omega)
    rw [if_pos hI]
    unfold page_at slot_page
    have hi0 : i ≠ 0 := by omega
    have hi1 : i ≠ 1 := by omega
    simp [hi0, hi1]

/-- `read_page` returns the bytes of the page from `ind` on, as many as the
fuel, the length and the end of the page allow. -/
theorem read_page_spec (mem : Int → Nat) (page length : Int) (fuel : Nat) (ind rb : Int) :
    read_page mem page length fuel ind rb
      = (List.range (max 0 (min (fuel : Int) (min (length - rb) (page_size - ind)))).toNat).map
          (fun j : Nat => mem (page + ind + (j : Int))) := by
  induction fuel generalizing ind rb with
  | zero =>
    unfold read_page
    have hm : (max 0 (min ((0 : Nat) : Int) (min (length - rb) (page_size - ind)))).toNat = 0 := by
      omega
    rw [hm]; rfl
  | succ n ih =>
    unfold read_page
    by_cases hc : rb < length ∧ ind < page_size
    · rw [if_pos hc, ih]
      have hm : (max 0 (min ((n + 1 : Nat) : Int) (min (length - rb) (page_size - ind)))).toNat
          = (max 0 (min (n : Int) (min (length - (rb + 1)) (page_size - (ind + 1))))).toNat + 1 := by
        push_cast; omega
      rw [hm, List.range_succ_eq_map, List.map_cons, List.map_map]
      congr 1
      · simp
      · apply List.map_congr_left
        intro j _
        simp only [Function.comp, Nat.succ_eq_add_one]
        congr 1
        push_cast
        omega
    · rw [if_neg hc]
      have hm : (max 0 (min ((n + 1 : Nat) : Int) (min (length - rb) (page_size - ind)))).toNat
          = 0 := by
        push_cast; omega
      rw [hm]; rfl

/-- The loop of `storage_read` over a file whose pages `pt i` are attached:
it returns the `bytes_left` bytes of the file from the position on. -/
theorem storage_read_loop_spec (node : Int) (pt : Int → Int)
    (fuel : Nat) (u : FS) (page_index page_offset bytes_left : Int)
    (hpi : 0 ≤ page_index) (hpo0 : 0 ≤ page_offset) (hpo : page_offset < 4096)
    (hbl0 : 0 ≤ bytes_left) (hfuel : bytes_left ≤ fuel)
    (hA : ∀ i : Int, page_index ≤ i →
      i * 4096 < page_index * 4096 + page_offset + bytes_left →
      inode_get_page u node i = some (pages_get_page (pt i))) :
    storage_read_loop u node fuel page_index page_offset bytes_left
      = (List.range bytes_left.toNat).map (fun j : Nat =>
          u.mem (pages_get_page (pt ((page_index * 4096 + page_offset + (j : Int)) / 4096))
            + (page_index * 4096 + page_offset + (j : Int)) % 4096)) := by
  induction fuel generalizing page_index page_offset bytes_left with
  | zero =>
    have : bytes_left = 0 := by simp at hfuel; omega
    subst this
    simp [storage_read_loop]
  | succ n ih =>
    unfold storage_read_loop
    by_cases hpos : bytes_left > 0
    · rw [if_pos hpos]
      rw [hA page_index (le_refl _) (by omega)]
      simp only
      rw [read_page_spec]
      have hps : page_size = 4096 := rfl
      have hm : (max 0 (min ((bytes_left.toNat : Nat) : Int)
          (min (bytes_left - 0) (page_size - page_offset)))).toNat
          = (min bytes_left (4096 - page_offset)).toNat := by
        rw [hps]; omega
      rw [hm]
      generalize hmdef : min bytes_left (4096 - page_offset) = m
      have hm1 : 1 ≤ m := by omega
      have hmle : m ≤ bytes_left := by omega
      have hmpo : m ≤ 4096 - page_offset := by omega
      have hmeq : m < bytes_left → m = 4096 - page_offset := by omega
      simp only [List.length_map, List.length_range]
      have hcast : ((m.toNat : Nat) : Int) = m := by omega
      rw [hcast]
      rw [ih (page_index + 1) 0 (bytes_left - m) (by omega) (le_refl _) (by omega) (by omega)
        (by push_cast at hfuel; omega)
        (fun i h1 h2 => hA i (by omega) (by omega))]
      have hsplit : bytes_left.toNat = m.toNat + (bytes_left - m).toNat := by omega
      rw [hsplit, List.range_add, List.map_append, List.map_map]
      congr 1
      · apply List.map_congr_left
        intro j hj
        rw [List.mem_range] at hj
        have hd : (page_index * 4096 + page_offset + (j : Int)) / 4096 = page_index := by omega
        have hr : (page_index * 4096 + page_offset + (j : Int)) % 4096
            = page_offset + (j : Int) := by omega
        rw [hd, hr]
        congr 1
        omega
      · apply List.map_congr_left
        intro j hj
        rw [List.mem_range] at hj
        simp only [Function.comp]
        have hmv := hmeq (by omega)
        have ha : (page_index + 1) * 4096 + 0 + (j : Int)
            = page_index * 4096 + page_offset + ((m.toNat + j : Nat) : Int) := by
          push_cast; omega
        rw [ha]
    · rw [if_neg hpos]
      have : bytes_left = 0 := by omega
      subst this
      simp

/-! ## Lookups depend on the directory's record and pages only -/

theorem streq_mem_congr (m1 m2 : Int → Nat) (a : Int) (name : List Nat)
    (h : ∀ k : Int, 0 ≤ k → k ≤ name.length → m1 (a + k) = m2 (a + k)) :
    streq_mem m1 a name = streq_mem m2 a name := by
  induction name generalizing a with
  | nil =>
    unfold streq_mem
    have := h 0 (le_refl _) (by simp)
    simp only [add_zero] at this
    rw [this]
  | cons c cs ih =>
    unfold streq_mem
    have h0 := h 0 (le_refl _) (by simp only [List.length_cons]; push_cast; omega)
    simp only [add_zero] at h0
    rw [h0, ih (a + 1)]
    intro k hk0 hk1
    have := h (1 + k) (by omega) (by simp only [List.length_cons]; push_cast; omega)
    rw [← add_assoc] at this
    exact this

theorem page_find_name_congr (m1 m2 : Int → Nat) (page : Int) (name : List Nat)
    (hlen : (name.length : Int) < DIR_NAME) (fuel : Nat) (ii : Int)
    (h : ∀ j : Int, ii ≤ j → j < ii + fuel → ∀ k : Int, 0 ≤ k → k < sizeof_dirent →
      m1 (dirent_addr page j + k) = m2 (dirent_addr page j + k)) :
    page_find_name m1 page name fuel ii = page_find_name m2 page name fuel ii := by
  have hD : DIR_NAME = 48 := rfl
  have hS : sizeof_dirent = 52 := rfl
  induction fuel generalizing ii with
  | zero => rfl
  | succ n ih =>
    unfold page_find_name
    have hs : streq_mem m1 (dirent_addr page ii) name = streq_mem m2 (dirent_addr page ii) name := by
      apply streq_mem_congr
      intro k hk0 hk1
      exact h ii (le_refl _) (by push_cast; omega) k hk0 (by omega)
    have hi : dirent_inum m1 (dirent_addr page ii) = dirent_inum m2 (dirent_addr page ii) := by
      unfold dirent_inum
      apply read_int_congr
      intro k hk0 hk1
      have := h ii (le_refl _) (by push_cast; omega) (DIR_NAME + k) (by omega) (by omega)
      rw [← add_assoc] at this
      exact this
    rw [hs, hi, ih (ii + 1)]
    intro j hj0 hj1
    exact h j (by omega) (by push_cast; omega)

theorem page_find_name_index_congr (m1 m2 : Int → Nat) (page : Int) (name : List Nat)
    (hlen : (name.length : Int) < DIR_NAME) (fuel : Nat) (ii : Int)
    (h : ∀ j : Int, ii ≤ j → j < ii + fuel → ∀ k : Int, 0 ≤ k → k < sizeof_dirent →
      m1 (dirent_addr page j + k) = m2 (dirent_addr page j + k)) :
    page_find_name_index m1 page name fuel ii = page_find_name_index m2 page name fuel ii := by
  have hD : DIR_NAME = 48 := rfl
  have hS : sizeof_dirent = 52 := rfl
  induction fuel generalizing ii with
  | zero => rfl
  | succ n ih =>
    unfold page_find_name_index
    have hs : streq_mem m1 (dirent_addr page ii) name = streq_mem m2 (dirent_addr page ii) name := by
      apply streq_mem_congr
      intro k hk0 hk1
      exact h ii (le_refl _) (by push_cast; omega) k hk0 (by omega)
    rw [hs, ih (ii + 1)]
    intro j hj0 hj1
    exact h j (by omega) (by push_cast; omega)

theorem directory_lookup_loop_congr (s t : FS) (d : Int) (name : List Nat) (fuel : Nat) (ii : Int)
    (h : ∀ k : Int, ii ≤ k → k < ii + fuel →
      inode_get_page t d k = inode_get_page s d k
      ∧ directory_page_length t d k = directory_page_length s d k
      ∧ ∀ page, inode_get_page s d k = some page →
          page_find_name t.mem page name (directory_page_length s d k).toNat 0
            = page_find_name s.mem page name (directory_page_length s d k).toNat 0) :
    directory_lookup_loop t d name fuel ii = directory_lookup_loop s d name fuel ii := by
  induction fuel generalizing ii with
  | zero => rfl
  | succ n ih =>
    unfold directory_lookup_loop
    obtain ⟨h1, h2, h3⟩ := h ii (le_refl _) (by push_cast; omega)
    rw [h1, h2]
    cases hp : inode_get_page s d ii with
    | none => rfl
    | some page =>
      simp only
      rw [h3 page hp, ih (ii + 1)]
      intro k hk0 hk1
      exact h k (by omega) (by push_cast; omega)

/-- Sizes of a directory of at most 156 dirents: at most two pages, at most
78 dirents in each. -/
theorem dir_sizes (s : FS) (d : Int) (h0 : 0 ≤ (s.inodes d).size)
    (h1 : (s.inodes d).size % sizeof_dirent = 0) (h2 : (s.inodes d).size ≤ 156 * sizeof_dirent) :
    0 ≤ directory_num_pages s d ∧ directory_num_pages s d ≤ 2
    ∧ directory_num_pages s d = bytes_to_pages (s.inodes d).size
    ∧ ∀ k : Int, 0 ≤ k → k < directory_num_pages s d →
        0 ≤ directory_page_length s d k ∧ directory_page_length s d k ≤ 78
        ∧ k ≤ cdiv (s.inodes d).size page_size := by
  have hS : sizeof_dirent = 52 := rfl
  have hP : page_size = 4096 := rfl
  rw [hS] at h1 h2
  have hc : cdiv (s.inodes d).size page_size = (s.inodes d).size / 4096 := by
    rw [cdiv_of_nonneg h0 (by decide)]; rfl
  have hnp : directory_num_pages s d = ((s.inodes d).size + 4095) / 4096 := by
    unfold directory_num_pages
    simp only [hc]
    simp only [hP]
    split_ifs with hgt <;> omega
  refine ⟨by rw [hnp]; omega, by rw [hnp]; omega, ?_, ?_⟩
  · rw [hnp]; unfold bytes_to_pages; rw [hP]; omega
  · intro k hk0 hk1
    rw [hnp] at hk1
    have he : ents_per_page = 78 := by decide
    have hts : to_int (to_size_t (s.inodes d).size / sizeof_dirent) = (s.inodes d).size / 52 := by
      rw [to_size_t_of_range h0 (by omega), hS]
      exact to_int_of_range (by omega) (by omega)
    unfold directory_page_length
    simp only [hc, hts, he]
    have hcase : (s.inodes d).size / 4096 = 0 ∨ (s.inodes d).size / 4096 = 1 := by omega
    refine ⟨?_, ?_, by omega⟩
    · split_ifs with hlt
      · omega
      · rcases hcase with h | h <;> omega
    · split_ifs with hlt
      · omega
      · rcases hcase with h | h <;> omega

/-- A lookup gives the same answer in two states in which the directory has
the same record and the same bytes in its pages. -/
theorem directory_lookup_congr (s t : FS) (d : Int) (name : List Nat)
    (hlen : (name.length : Int) < DIR_NAME)
    (h0 : 0 ≤ (s.inodes d).size)
    (h1 : (s.inodes d).size % sizeof_dirent = 0) (h2 : (s.inodes d).size ≤ 156 * sizeof_dirent)
    (hsz : (t.inodes d).size = (s.inodes d).size)
    (hp0 : (t.inodes d).ptrs0 = (s.inodes d).ptrs0)
    (hp1 : (t.inodes d).ptrs1 = (s.inodes d).ptrs1)
    (hmem : ∀ i : Int, 0 ≤ i → i < bytes_to_pages (s.inodes d).size →
      ∀ a : Int, in_page (page_at s d i) a → t.mem a = s.mem a) :
    directory_lookup t d name = directory_lookup s d name := by
  obtain ⟨d1, d2, d3, d4⟩ := dir_sizes s d h0 h1 h2
  have hnp : directory_num_pages t d = directory_num_pages s d := by
    unfold directory_num_pages; rw [hsz]
  unfold directory_lookup
  rw [hnp]
  apply directory_lookup_loop_congr
  intro k hk0 hk1
  have hk2 : k < directory_num_pages s d := by
    have := Int.toNat_of_nonneg d1
    omega
  obtain ⟨l0, l1, l2⟩ := d4 k hk0 hk2
  have hkk : k < 2 := by omega
  have hgp : ∀ u : FS, (u.inodes d).size = (s.inodes d).size →
      (u.inodes d).ptrs0 = (s.inodes d).ptrs0 → (u.inodes d).ptrs1 = (s.inodes d).ptrs1 →
      inode_get_page u d k = some (pages_get_page (page_at s d k)) := by
    intro u hu hu0 hu1
    unfold inode_get_page
    rw [hu]
    have : ¬ k > cdiv (s.inodes d).size page_size := by omega
    rw [if_neg this, if_pos hkk]
    unfold page_at slot_page inode.ptrs
    by_cases hk : k = 0
    · simp [hk, hu0]
    · have : k = 1 := by omega
      simp [this, hu1]
  refine ⟨by rw [hgp t hsz hp0 hp1, hgp s rfl rfl rfl],
    by unfold directory_page_length; rw [hsz], ?_⟩
  intro page hpage
  rw [hgp s rfl rfl rfl] at hpage
  cases hpage
  apply page_find_name_congr _ _ _ _ hlen
  intro j hj0 hj1 kk hkk0 hkk1
  apply hmem k hk0 (by rw [← d3]; exact hk2)
  have hS : sizeof_dirent = 52 := rfl
  have hP : page_size = 4096 := rfl
  unfold in_page dirent_addr
  rw [hS] at hkk1 ⊢
  rw [hP]
  have := Int.toNat_of_nonneg l0
  omega

theorem page_at_congr (s t : FS) (node i : Int)
    (h0 : (t.inodes node).ptrs0 = (s.inodes node).ptrs0)
    (h1 : (t.inodes node).ptrs1 = (s.inodes node).ptrs1)
    (h2 : (t.inodes node).iptr = (s.inodes node).iptr)
    (hmem : ∀ a : Int, in_page (s.inodes node).iptr a → t.mem a = s.mem a)
    (hi0 : 0 ≤ i) (hi : i < 1026) :
    page_at t node i = page_at s node i := by
  unfold page_at slot_page
  rw [h0, h1, h2]
  by_cases c0 : i = 0
  · simp [c0]
  · by_cases c1 : i = 1
    · simp [c1]
    · simp only [c0, c1, if_false]
      apply read_int_congr
      intro k hk0 hk1
      apply hmem
      exact in_page_slot _ (i - 2) k (by omega) (by omega) hk0 hk1

/-- The invariants of an inode carry over to a state with the same size and
pointers, the same page bitmap and the same bytes in the indirect page. -/
theorem inode_wf_congr (s t : FS) (node : Int) (h : inode_wf s node)
    (hs : (t.inodes node).size = (s.inodes node).size)
    (h0 : (t.inodes node).ptrs0 = (s.inodes node).ptrs0)
    (h1 : (t.inodes node).ptrs1 = (s.inodes node).ptrs1)
    (h2 : (t.inodes node).iptr = (s.inodes node).iptr)
    (hbm : t.pages_bitmap = s.pages_bitmap)
    (hmem : ∀ a : Int, in_page (s.inodes node).iptr a → t.mem a = s.mem a) :
    inode_wf t node := by
  have hpa : ∀ i : Nat, i < (bytes_to_pages (s.inodes node).size).toNat →
      page_at t node i = page_at s node i := by
    intro i hi
    have := bytes_to_pages_le_max h.2.1
    exact page_at_congr s t node i h0 h1 h2 hmem (by omega) (by omega)
  have hok : ∀ x, page_ok s x → page_ok t x := by
    intro x hx
    exact ⟨hx.1, hx.2.1, by rw [hbm]; exact hx.2.2⟩
  obtain ⟨w1, w2, w3, w4, w5, w6, w7, w8, w9⟩ := h
  unfold inode_wf
  rw [hs, h0, h1, h2]
  refine ⟨w1, w2, w3, w4, w5, fun hI => hok _ (w6 hI), ?_, ?_, ?_⟩
  · intro hI k hk1 hk2
    rw [← w7 hI k hk1 hk2]
    apply read_int_congr
    intro j hj0 hj1
    apply hmem
    exact in_page_slot _ k j (by omega) (by omega) hj0 hj1
  · intro i hi
    rw [hpa i hi]
    exact ⟨hok _ (w8 i hi).1, (w8 i hi).2⟩
  · intro i hi j hj
    rw [hpa i hi, hpa j (by omega)]
    exact w9 i hi j hj

theorem inode_get_page_congr2 (s t : FS) (node i : Int)
    (hs : (t.inodes node).size = (s.inodes node).size)
    (h0 : (t.inodes node).ptrs0 = (s.inodes node).ptrs0)
    (h1 : (t.inodes node).ptrs1 = (s.inodes node).ptrs1)
    (h2 : (t.inodes node).iptr = (s.inodes node).iptr)
    (hmem : ∀ a : Int, in_page (s.inodes node).iptr a → t.mem a = s.mem a)
    (hi0 : 0 ≤ i) (hi : i < 1026) :
    inode_get_page t node i = inode_get_page s node i := by
  unfold inode_get_page inode.ptrs
  rw [hs, h0, h1, h2]
  by_cases c2 : i < 2
  · simp only [c2, if_true]
  · simp only [c2, if_false]
    have : read_int t.mem (pages_get_page (s.inodes node).iptr + 4 * (i - 2))
        = read_int s.mem (pages_get_page (s.inodes node).iptr + 4 * (i - 2)) := by
      apply read_int_congr
      intro k hk0 hk1
      apply hmem
      exact in_page_slot _ (i - 2) k (by omega) (by omega) hk0 hk1
    rw [this]

theorem path_get_inode_of_lookup (s : FS) (path : List Nat) (node : Int)
    (h : tree_lookup s path = some node) (h0 : 0 ≤ node) (hN : node < num_inodes) :
    path_get_inode s path = some (0, node) := by
  unfold path_get_inode
  rw [h]
  simp only
  have : ¬ node < 0 := by omega
  rw [if_neg this]
  unfold get_inode
  have : ¬ node ≥ num_inodes := by omega
  rw [if_neg this]

theorem div_mod_4096 (off : Int) : off / 4096 * 4096 + off % 4096 = off := by omega

/-- `storage_read` of `len` bytes that lie inside a well-formed regular file
returns `len` and these bytes. -/
theorem storage_read_ok (s : FS) (path : List Nat) (node : Int) (len off : Int)
    (hpg : path_get_inode s path = some (0, node))
    (hreg : S_ISDIR (s.inodes node).mode = false)
    (hwf : inode_wf s node)
    (hoff : 0 ≤ off) (hlen : 0 ≤ len) (hend : off + len ≤ (s.inodes node).size) :
    ∃ t, storage_read s path len off
      = some (len, (List.range len.toNat).map (fun j : Nat =>
          s.mem (pages_get_page (page_at s node ((off + (j : Int)) / 4096))
            + (off + (j : Int)) % 4096)), t) := by
  have hsz0 := hwf.1
  have hszm := hwf.2.1
  unfold storage_read
  rw [hpg]
  simp only [ne_eq, not_true_eq_false, if_false, hreg, Bool.false_eq_true]
  by_cases hge : off ≥ (s.inodes node).size
  · rw [if_pos hge]
    have : len = 0 := by omega
    subst this
    exact ⟨s, by simp⟩
  · rw [if_neg hge]
    have hps : page_size = 4096 := rfl
    have hpi : to_int (cdiv off page_size) = off / 4096 := by
      rw [cdiv_of_nonneg hoff (by decide), hps]
      exact to_int_of_range (by omega) (by omega)
    have hpo : to_int (cmod off page_size) = off % 4096 := by
      rw [cmod_of_nonneg hoff (by decide), hps]
      exact to_int_of_range (by omega) (by omega)
    have hbl : to_int len = len := to_int_of_range (by omega) (by omega)
    have hsn : ∀ nd : inode, (s.set_inode node nd).inodes node = nd := by
      intro nd; simp [FS.set_inode]
    rw [hpi, hpo, hbl, hsn]
    simp only
    have hc : ¬ to_size_t len > to_size_t ((s.inodes node).size - off) := by
      rw [to_size_t_of_range hlen (by omega), to_size_t_of_range (by omega) (by omega)]
      omega
    rw [if_neg hc]
    generalize hs1 : s.set_inode node { s.inodes node with atime := s.clock } = s1
    have hs1node : s1.inodes node = { s.inodes node with atime := s.clock } := by
      rw [← hs1]; simp [FS.set_inode]
    have hs1mem : s1.mem = s.mem := by rw [← hs1]; rfl
    have hp1026 := bytes_to_pages_le_max hszm
    have hloop := storage_read_loop_spec node (page_at s node) len.toNat s1
      (off / 4096) (off % 4096) len (by omega) (by omega) (by omega) hlen (by omega)
      (by
        intro i h1 h2
        rw [div_mod_4096] at h2
        have hlt : i < bytes_to_pages (s.inodes node).size := by
          unfold bytes_to_pages page_size; omega
        rw [← inode_get_page_wf hwf i (by omega) hlt]
        exact inode_get_page_congr2 s s1 node i (by rw [hs1node]) (by rw [hs1node])
          (by rw [hs1node]) (by rw [hs1node]) (fun a _ => by rw [hs1mem]) (by omega) (by omega))
    rw [hloop]
    simp only [div_mod_4096, List.length_map, List.length_range, hs1mem]
    refine ⟨s1, ?_⟩
    have : ((len.toNat : Nat) : Int) = len := by omega
    rw [this]

/-! ## The return codes of grow_inode -/

theorem ents_per_page_eq : ents_per_page = 78 := by decide

theorem dir_find_some {s : FS} {d : Int} {name : List Nat} {fuel : Nat} {j0 j : Int}
    (h : dir_find s d name fuel j0 = some j) :
    j0 ≤ j ∧ j < j0 + fuel ∧ ent_named s d j name = true
    ∧ ∀ i : Int, j0 ≤ i → i < j → ent_named s d i name = false := by
  induction fuel generalizing j0 with
  | zero => simp [dir_find] at h
  | succ n ih =>
    unfold dir_find at h
    by_cases hm : ent_named s d j0 name = true
    · rw [if_pos hm] at h
      cases h
      exact ⟨le_refl _, by push_cast; omega, hm, fun i h1 h2 => by omega⟩
    · rw [if_neg hm] at h
      obtain ⟨a1, a2, a3, a4⟩ := ih h
      refine ⟨by omega, by push_cast; omega, a3, ?_⟩
      intro i h1 h2
      by_cases hi : i = j0
      · subst hi; simpa using hm
      · exact a4 i (by omega) h2

theorem dir_find_none {s : FS} {d : Int} {name : List Nat} {fuel : Nat} {j0 : Int}
    (h : dir_find s d name fuel j0 = none) :
    ∀ i : Int, j0 ≤ i → i < j0 + fuel → ent_named s d i name = false := by
  induction fuel generalizing j0 with
  | zero => intro i h1 h2; simp at h2; omega
  | succ n ih =>
    unfold dir_find at h
    by_cases hm : ent_named s d j0 name = true
    · rw [if_pos hm] at h; cases h
    · rw [if_neg hm] at h
      intro i h1 h2
      by_cases hi : i = j0
      · subst hi; simpa using hm
      · exact ih h i (by omega) (by push_cast at h2; omega)

theorem dir_find_append (s : FS) (d : Int) (name : List Nat) (a b : Nat) (j0 : Int) :
    dir_find s d name (a + b) j0
      = match dir_find s d name a j0 with
        | some x => some x
        | none => dir_find s d name b (j0 + a) := by
  induction a generalizing j0 with
  | zero => simp [dir_find]
  | succ n ih =>
    have : n + 1 + b = (n + b) + 1 := by omega
    rw [this]
    simp only [dir_find]
    by_cases hm : ent_named s d j0 name = true
    · simp [hm]
    · simp only [hm, Bool.false_eq_true, if_false]
      rw [ih (j0 + 1)]
      have : j0 + 1 + (n : Int) = j0 + ((n + 1 : Nat) : Int) := by push_cast; omega
      rw [this]

theorem dir_find_congr (s t : FS) (d : Int) (name : List Nat) (fuel : Nat) (j0 : Int)
    (h : ∀ i : Int, j0 ≤ i → i < j0 + fuel → ent_named t d i name = ent_named s d i name) :
    dir_find t d name fuel j0 = dir_find s d name fuel j0 := by
  induction fuel generalizing j0 with
  | zero => rfl
  | succ n ih =>
    simp only [dir_find]
    rw [h j0 (le_refl _) (by push_cast; omega), ih (j0 + 1)]
    intro i h1 h2
    exact h i (by omega) (by push_cast; omega)

theorem ent_addr_block (s : FS) (d k i : Int) (hi0 : 0 ≤ i) (hi : i < 78) :
    ent_addr s d (78 * k + i) = dirent_addr (pages_get_page (page_at s d k)) i := by
  unfold ent_addr
  rw [ents_per_page_eq]
  have h1 : (78 * k + i) / 78 = k := by omega
  have h2 : (78 * k + i) % 78 = i := by omega
  rw [h1, h2]

/-- A page scan of `page_find_name` is a search among the dirents of the
page's block. -/
theorem page_find_name_block (s : FS) (d : Int) (name : List Nat) (k : Int) (fuel : Nat)
    (i0 : Int) (hi0 : 0 ≤ i0) (hb : i0 + fuel ≤ 78) :
    page_find_name s.mem (pages_get_page (page_at s d k)) name fuel i0
      = match dir_find s d name fuel (78 * k + i0) with
        | none => -1
        | some j => ent_inum s d j := by
  induction fuel generalizing i0 with
  | zero => rfl
  | succ n ih =>
    simp only [page_find_name, dir_find]
    have ha := ent_addr_block s d k i0 hi0 (by push_cast at hb; omega)
    unfold ent_named ent_inum
    rw [ha]
    by_cases hm : streq_mem s.mem (dirent_addr (pages_get_page (page_at s d k)) i0) name = true
    · simp only [hm, if_true]
      rw [ha]
    · simp only [hm, Bool.false_eq_true, if_false]
      rw [ih (i0 + 1) (by omega) (by push_cast at hb ⊢; omega)]
      have : 78 * k + (i0 + 1) = 78 * k + i0 + 1 := by omega
      rw [this]
      rfl

theorem directory_page_length_eq (s : FS) (d : Int) (k : Int) (h0 : 0 ≤ (s.inodes d).size)
    (h2 : (s.inodes d).size ≤ 156 * 52) :
    directory_page_length s d k
      = if k < (s.inodes d).size / 4096 then 78
        else (s.inodes d).size / 52 - 78 * ((s.inodes d).size / 4096) := by
  have hc : cdiv (s.inodes d).size page_size = (s.inodes d).size / 4096 := by
    rw [cdiv_of_nonneg h0 (by decide)]; rfl
  have hts : to_int (to_size_t (s.inodes d).size / sizeof_dirent) = (s.inodes d).size / 52 := by
    rw [to_size_t_of_range h0 (by omega)]
    exact to_int_of_range (by show -2147483648 ≤ (s.inodes d).size / 52; omega)
      (by show (s.inodes d).size / 52 < 2147483648; omega)
  unfold directory_page_length
  simp only [hc, hts, ents_per_page_eq]

/-- In a directory whose dirents all refer to an inode other than the root,
`directory_lookup` returns the inum of the first dirent with the name. -/
theorem directory_lookup_find (s : FS) (d : Int) (name : List Nat) (h : dir_ok s d) :
    directory_lookup s d name
      = match dir_find s d name (dir_count s d).toNat 0 with
        | none => -ENOENT
        | some j => ent_inum s d j := by
  obtain ⟨⟨hwf, hm, hs⟩, _, hpos⟩ := h
  have h0 : 0 ≤ (s.inodes d).size := hwf.1
  have hS : sizeof_dirent = 52 := rfl
  rw [hS] at hm hs
  obtain ⟨d1, d2, d3, _⟩ := dir_sizes s d h0 hm hs
  have hbp : bytes_to_pages (s.inodes d).size = ((s.inodes d).size + 4095) / 4096 := by
    unfold bytes_to_pages; rfl
  have hcnt : dir_count s d = (s.inodes d).size / 52 := rfl
  have hfound : ∀ j : Int, dir_find s d name (dir_count s d).toNat 0 = some j →
      0 < ent_inum s d j := by
    intro j hj
    obtain ⟨a1, a2, _, _⟩ := dir_find_some hj
    have := hpos j.toNat (by omega)
    rw [Int.toNat_of_nonneg a1] at this
    exact this.1
  unfold directory_lookup
  rw [d3, hbp]
  have hcase : (s.inodes d).size = 0 ∨ (1 ≤ (s.inodes d).size / 52 ∧ (s.inodes d).size / 52 ≤ 78)
      ∨ (79 ≤ (s.inodes d).size / 52 ∧ (s.inodes d).size / 52 ≤ 156) := by omega
  rcases hcase with hz | ⟨hl, hu⟩ | ⟨hl, hu⟩
  · rw [hcnt, hz]
    rfl
  · have hp : ((s.inodes d).size + 4095) / 4096 = 1 := by omega
    rw [hp]
    show directory_lookup_loop s d name 1 0 = _
    simp only [directory_lookup_loop]
    rw [inode_get_page_wf hwf 0 (le_refl _) (by rw [hbp, hp]; decide)]
    simp only []
    rw [directory_page_length_eq s d 0 h0 hs]
    have hq : (s.inodes d).size / 4096 = 0 := by omega
    rw [hq]
    simp only [lt_irrefl, if_false, mul_zero, sub_zero]
    have hb := page_find_name_block s d name 0 ((s.inodes d).size / 52).toNat 0 (le_refl _)
      (by omega)
    simp only [mul_zero, add_zero] at hb
    rw [hb]
    rw [hcnt] at hfound ⊢
    cases hf : dir_find s d name ((s.inodes d).size / 52).toNat 0 with
    | none => simp
    | some j => simp [hfound j hf]
  · have hp : ((s.inodes d).size + 4095) / 4096 = 2 := by omega
    rw [hp]
    show directory_lookup_loop s d name 2 0 = _
    simp only [directory_lookup_loop]
    rw [inode_get_page_wf hwf 0 (le_refl _) (by rw [hbp, hp]; decide)]
    rw [inode_get_page_wf hwf (0 + 1) (by decide) (by rw [hbp, hp]; decide)]
    simp only []
    rw [directory_page_length_eq s d 0 h0 hs, directory_page_length_eq s d (0 + 1) h0 hs]
    have hq : (s.inodes d).size / 4096 = 1 := by omega
    rw [hq]
    have e1 : ((if (0:Int) < 1 then (78:Int) else (s.inodes d).size / 52 - 78 * 1)).toNat = 78 := by
      simp
    have e2 : ((if (0:Int) + 1 < 1 then (78:Int) else (s.inodes d).size / 52 - 78 * 1)).toNat
        = ((s.inodes d).size / 52).toNat - 78 := by
      simp only [zero_add, lt_irrefl, if_false]
      omega
    rw [e1, e2]
    have hb0 := page_find_name_block s d name 0 78 0 (le_refl _) (by decide)
    have hb1 := page_find_name_block s d name (0 + 1) (((s.inodes d).size / 52).toNat - 78) 0
      (le_refl _) (by omega)
    simp only [mul_zero, add_zero, zero_add, mul_one] at hb0 hb1
    simp only [zero_add]
    rw [hb0, hb1]
    have hsplit : ((s.inodes d).size / 52).toNat = 78 + (((s.inodes d).size / 52).toNat - 78) := by
      omega
    rw [hcnt] at hfound ⊢
    have hap := dir_find_append s d name 78 (((s.inodes d).size / 52).toNat - 78) 0
    rw [← hsplit] at hap
    simp only [zero_add, Nat.cast_ofNat] at hap
    cases hf0 : dir_find s d name 78 0 with
    | some j =>
      rw [hf0] at hap
      simp only [] at hap
      rw [hap]
      simp [hfound j hap]
    | none =>
      rw [hf0] at hap
      simp only [] at hap
      rw [hap]
      cases hf1 : dir_find s d name (((s.inodes d).size / 52).toNat - 78) 78 with
      | none => simp
      | some j =>
        rw [hf1] at hap
        simp [hfound j hap]

/-! ### Directories of at most two pages -/

theorem page_at_lt2 (s t : FS) (d i : Int) (h0 : 0 ≤ i) (h2 : i < 2)
    (hp0 : (t.inodes d).ptrs0 = (s.inodes d).ptrs0)
    (hp1 : (t.inodes d).ptrs1 = (s.inodes d).ptrs1) :
    page_at t d i = page_at s d i := by
  unfold page_at slot_page
  by_cases c0 : i = 0
  · simp [c0, hp0]
  · have c1 : i = 1 := by omega
    simp [c1, hp1]

theorem dir_pages_le2 {s : FS} {d : Int} (h : dir_wf s d) :
    0 ≤ bytes_to_pages (s.inodes d).size ∧ bytes_to_pages (s.inodes d).size ≤ 2 := by
  obtain ⟨hwf, _, hs⟩ := h
  have h0 : 0 ≤ (s.inodes d).size := hwf.1
  have hS : sizeof_dirent = 52 := rfl
  rw [hS] at hs
  have : bytes_to_pages (s.inodes d).size = ((s.inodes d).size + 4095) / 4096 := by
    unfold bytes_to_pages; rfl
  rw [this]
  omega

/-- A dirent of a directory lies in the page of its block. -/
theorem ent_in_page (s : FS) (d j k : Int) (hk0 : 0 ≤ k) (hk : k < 52) :
    in_page (page_at s d (j / 78)) (ent_addr s d j + k) := by
  unfold ent_addr dirent_addr in_page
  rw [ents_per_page_eq]
  have hS : sizeof_dirent = 52 := rfl
  have hP : page_size = 4096 := rfl
  rw [hS, hP]
  omega

/-- The page that holds dirent `j` is one of the pages of the directory. -/
theorem ent_page_lt {s : FS} {d : Int} (h : dir_wf s d) (j : Int) (h0 : 0 ≤ j)
    (hj : j < dir_count s d) : 0 ≤ j / 78 ∧ j / 78 < bytes_to_pages (s.inodes d).size := by
  obtain ⟨hwf, hm, hs⟩ := h
  have hsz : 0 ≤ (s.inodes d).size := hwf.1
  have hS : sizeof_dirent = 52 := rfl
  rw [hS] at hs hm
  have hc : dir_count s d = (s.inodes d).size / 52 := rfl
  rw [hc] at hj
  have : bytes_to_pages (s.inodes d).size = ((s.inodes d).size + 4095) / 4096 := by
    unfold bytes_to_pages; rfl
  rw [this]
  have hcase : j / 78 = 0 ∨ j / 78 = 1 := by omega
  rcases hcase with h | h <;> rw [h] <;> omega

/-- Distinct dirents of a well-formed directory do not overlap. -/
theorem ent_disjoint {s : FS} {d : Int} (h : dir_wf s d) (i j : Int)
    (hi0 : 0 ≤ i) (hi : i < dir_count s d) (hj0 : 0 ≤ j) (hj : j < dir_count s d)
    (hij : i ≠ j) :
    ent_addr s d i + 52 ≤ ent_addr s d j ∨ ent_addr s d j + 52 ≤ ent_addr s d i := by
  obtain ⟨pi0, pi1⟩ := ent_page_lt h i hi0 hi
  obtain ⟨pj0, pj1⟩ := ent_page_lt h j hj0 hj
  by_cases hp : i / 78 = j / 78
  · unfold ent_addr dirent_addr
    rw [ents_per_page_eq, hp]
    have hS : sizeof_dirent = 52 := rfl
    rw [hS]
    omega
  · have hne : page_at s d (i / 78) ≠ page_at s d (j / 78) := by
      rcases lt_or_gt_of_ne hp with hlt | hgt
      · exact (wf_inj h.1 (j / 78) (i / 78) pi0 hlt pj1).symm
      · exact wf_inj h.1 (i / 78) (j / 78) pj0 hgt pi1
    have a1 := ent_in_page s d i 0 (le_refl _) (by decide)
    have a2 := ent_in_page s d i 51 (by decide) (by decide)
    have b1 := ent_in_page s d j 0 (le_refl _) (by decide)
    have b2 := ent_in_page s d j 51 (by decide) (by decide)
    unfold in_page pages_get_page page_size at a1 a2 b1 b2
    omega

/-! ### Directories that an operation leaves alone -/

theorem ent_congr (s t : FS) (d j : Int) (name : List Nat)
    (hlen : (name.length : Int) < DIR_NAME)
    (haddr : ent_addr t d j = ent_addr s d j)
    (hmem : ∀ k : Int, 0 ≤ k → k < 52 → t.mem (ent_addr s d j + k) = s.mem (ent_addr s d j + k)) :
    ent_named t d j name = ent_named s d j name ∧ ent_inum t d j = ent_inum s d j := by
  have hD : DIR_NAME = 48 := rfl
  rw [hD] at hlen
  unfold ent_named ent_inum dirent_inum
  rw [haddr, hD]
  constructor
  · apply streq_mem_congr
    intro k hk0 hk1
    exact hmem k hk0 (by omega)
  · apply read_int_congr
    intro k hk0 hk1
    have := hmem (48 + k) (by omega) (by omega)
    rw [← add_assoc] at this
    exact this

theorem dir_same_ent {s t : FS} {d : Int} (hwf : dir_wf s d) (h : dir_same s t d) (j : Int)
    (hj0 : 0 ≤ j) (hj : j < dir_count s d) :
    ent_addr t d j = ent_addr s d j
    ∧ ∀ k : Int, 0 ≤ k → k < 52 → t.mem (ent_addr s d j + k) = s.mem (ent_addr s d j + k) := by
  obtain ⟨s1, s2, s3, s4, s5⟩ := h
  obtain ⟨p0, p1⟩ := ent_page_lt hwf j hj0 hj
  obtain ⟨q0, q1⟩ := dir_pages_le2 hwf
  constructor
  · unfold ent_addr
    rw [ents_per_page_eq, page_at_lt2 s t d (j / 78) p0 (by omega) s2 s3]
  · intro k hk0 hk1
    have := (s5 (j / 78).toNat (by omega)).2
    rw [Int.toNat_of_nonneg p0] at this
    exact this _ (ent_in_page s d j k hk0 hk1)

theorem dir_same_refl {s : FS} {d : Int} (h : dir_wf s d) : dir_same s s d := by
  refine ⟨rfl, rfl, rfl, rfl, ?_⟩
  intro i hi
  obtain ⟨q0, q1⟩ := dir_pages_le2 h
  exact ⟨(wf_pages h.1 i (by omega) (by omega)).1, fun _ _ => rfl⟩

theorem dir_same_trans {s t u : FS} {d : Int} (hwf : dir_wf s d)
    (h1 : dir_same s t d) (h2 : dir_same t u d) : dir_same s u d := by
  obtain ⟨a1, a2, a3, a4, a5⟩ := h1
  obtain ⟨b1, b2, b3, b4, b5⟩ := h2
  obtain ⟨q0, q1⟩ := dir_pages_le2 hwf
  refine ⟨by rw [b1, a1], by rw [b2, a2], by rw [b3, a3], by rw [b4, a4], ?_⟩
  intro i hi
  have hp : page_at t d i = page_at s d i := page_at_lt2 s t d i (by omega) (by omega) a2 a3
  have hb := b5 i (by rw [a1]; exact hi)
  rw [hp] at hb
  refine ⟨hb.1, ?_⟩
  intro a ha
  rw [hb.2 a ha, (a5 i hi).2 a ha]

/-- A directory left alone is still in order. -/
theorem dir_same_ok {s t : FS} {d : Int} (hok : dir_ok s d) (h : dir_same s t d) :
    dir_ok t d := by
  have hsame := h
  obtain ⟨hwf, hI, hents⟩ := hok
  obtain ⟨a1, a2, a3, a4, a5⟩ := h
  obtain ⟨q0, q1⟩ := dir_pages_le2 hwf
  have hwf' := hwf
  obtain ⟨⟨w1, w2, w3, w4, w5, w6, w7, w8, w9⟩, hm, hs⟩ := hwf
  have hpa : ∀ i : Nat, i < (bytes_to_pages (s.inodes d).size).toNat →
      page_at t d i = page_at s d i := by
    intro i hi
    exact page_at_lt2 s t d i (by omega) (by omega) a2 a3
  have hcnt : dir_count t d = dir_count s d := by unfold dir_count; rw [a1]
  refine ⟨⟨?_, by rw [a1]; exact hm, by rw [a1]; exact hs⟩, by rw [a4]; exact hI, ?_⟩
  · unfold inode_wf
    rw [a1, a2, a3, a4]
    refine ⟨w1, w2, w3, w4, w5, fun hne => absurd hI hne, fun hne => absurd hI hne, ?_, ?_⟩
    · intro i hi
      rw [hpa i hi, hI]
      exact ⟨(a5 i hi).1, page_ok_ne_zero (a5 i hi).1⟩
    · intro i hi j hj
      rw [hpa i hi, hpa j (by omega)]
      exact w9 i hi j hj
  · intro j hj
    rw [hcnt] at hj
    obtain ⟨e1, e2⟩ := dir_same_ent hwf' hsame j (by omega) (by omega)
    have := ent_congr s t d j [] (by decide) e1 e2
    rw [this.2]
    exact hents j hj

/-- A lookup in a directory left alone gives the same answer. -/
theorem dir_same_lookup {s t : FS} {d : Int} (hwf : dir_wf s d) (h : dir_same s t d)
    (name : List Nat) (hlen : (name.length : Int) < DIR_NAME) :
    directory_lookup t d name = directory_lookup s d name := by
  obtain ⟨a1, a2, a3, a4, a5⟩ := h
  apply directory_lookup_congr s t d name hlen hwf.1.1 hwf.2.1 hwf.2.2 a1 a2 a3
  intro i hi0 hi1 a ha
  have := (a5 i.toNat (by omega)).2
  rw [Int.toNat_of_nonneg hi0] at this
  exact this a ha

/-! ## directory_put -/

/-- Comparison of a name with a terminated string of the image. -/
theorem streq_mem_spec (m : Int → Nat) (e : Int) (name other : List Nat)
    (hm : ∀ k : Nat, k < name.length → m (e + k) = name.getD k 0)
    (hz : m (e + name.length) = 0)
    (hn : ∀ x ∈ name, x ≠ 0) (ho : ∀ x ∈ other, x ≠ 0) :
    streq_mem m e other = decide (other = name) := by
  induction other generalizing name e with
  | nil =>
    cases name with
    | nil => simpa [streq_mem] using hz
    | cons c cs =>
      have h0 := hm 0 (by simp)
      simp at h0
      have hc := hn c (List.mem_cons_self _ _)
      simp [streq_mem, h0, hc]
  | cons o os ih =>
    cases name with
    | nil =>
      simp at hz
      have hc := ho o (List.mem_cons_self _ _)
      simp only [streq_mem, hz]
      simp
      intro h
      exact absurd h.symm hc
    | cons c cs =>
      have h0 := hm 0 (by simp)
      simp at h0
      simp only [streq_mem, h0]
      rw [ih (e + 1) cs]
      · by_cases hco : c = o
        · subst hco; simp
        · have hoc : ¬ o = c := fun h => hco h.symm
          simp [hco, hoc]
      · intro k hk
        have := hm (k + 1) (by simp; omega)
        simp only [List.getD_cons_succ] at this
        rw [← this]
        congr 1
        push_cast
        omega
      · have := hz
        simp only [List.length_cons] at this
        rw [← this]
        congr 1
        push_cast
        omega
      · intro x hx; exact hn x (List.mem_cons_of_mem _ hx)
      · intro x hx; exact ho x (List.mem_cons_of_mem _ hx)

theorem strlcpy_body (mem : Int → Nat) (e : Int) (name : List Nat)
    (hlen : (name.length : Int) < DIR_NAME) (k : Nat) (hk : k < name.length) :
    strlcpy mem e name DIR_NAME (e + k) = name.getD k 0 := by
  have hD : DIR_NAME = 48 := rfl
  rw [hD] at hlen
  unfold strlcpy
  rw [hD]
  have hmin : min name.length ((48:Int) - 1).toNat = name.length := by
    have : ((48:Int) - 1).toNat = 47 := by decide
    rw [this]; omega
  rw [hmin]
  have : e ≤ e + (k : Int) ∧ e + (k : Int) < e + (name.length : Int) := by omega
  rw [if_pos this]
  congr 1
  omega

theorem strlcpy_end (mem : Int → Nat) (e : Int) (name : List Nat)
    (hlen : (name.length : Int) < DIR_NAME) :
    strlcpy mem e name DIR_NAME (e + name.length) = 0 := by
  have hD : DIR_NAME = 48 := rfl
  rw [hD] at hlen
  unfold strlcpy
  rw [hD]
  have hmin : min name.length ((48:Int) - 1).toNat = name.length := by
    have : ((48:Int) - 1).toNat = 47 := by decide
    rw [this]; omega
  rw [hmin]
  have : ¬ (e ≤ e + (name.length : Int) ∧ e + (name.length : Int) < e + (name.length : Int)) := by
    omega
  rw [if_neg this, if_pos rfl]

theorem strlcpy_other (mem : Int → Nat) (e : Int) (name : List Nat)
    (hlen : (name.length : Int) < DIR_NAME) (a : Int) (ha : a < e ∨ e + 48 ≤ a) :
    strlcpy mem e name DIR_NAME a = mem a := by
  have hD : DIR_NAME = 48 := rfl
  rw [hD] at hlen
  unfold strlcpy
  rw [hD]
  have hmin : min name.length ((48:Int) - 1).toNat = name.length := by
    have : ((48:Int) - 1).toNat = 47 := by decide
    rw [this]; omega
  rw [hmin]
  have h1 : ¬ (e ≤ a ∧ a < e + (name.length : Int)) := by omega
  have h2 : ¬ a = e + (name.length : Int) := by omega
  rw [if_neg h1, if_neg h2]

/-- The bytes of the image outside the dirent written by `directory_put`. -/
theorem put_mem_other (mem : Int → Nat) (e : Int) (name : List Nat) (inum : Int)
    (hlen : (name.length : Int) < DIR_NAME) (a : Int) (ha : a < e ∨ e + 52 ≤ a) :
    write_int (strlcpy mem e name DIR_NAME) (e + DIR_NAME) inum a = mem a := by
  have hD : DIR_NAME = 48 := rfl
  rw [write_int_other _ _ _ _ (by rw [hD]; omega)]
  exact strlcpy_other mem e name hlen a (by omega)

/-- The name of the dirent written by `directory_put`. -/
theorem put_mem_named (mem : Int → Nat) (e : Int) (name other : List Nat) (inum : Int)
    (hlen : (name.length : Int) < DIR_NAME)
    (hn : ∀ x ∈ name, x ≠ 0) (ho : ∀ x ∈ other, x ≠ 0) :
    streq_mem (write_int (strlcpy mem e name DIR_NAME) (e + DIR_NAME) inum) e other
      = decide (other = name) := by
  have hD : DIR_NAME = 48 := rfl
  have hl := hlen
  rw [hD] at hl
  apply streq_mem_spec _ _ _ _ _ _ hn ho
  · intro k hk
    rw [write_int_other _ _ _ _ (by rw [hD]; omega)]
    exact strlcpy_body mem e name hlen k hk
  · rw [write_int_other _ _ _ _ (by rw [hD]; omega)]
    exact strlcpy_end mem e name hlen

/-- The inum of the dirent written by `directory_put`. -/
theorem put_mem_inum (mem : Int → Nat) (e : Int) (name : List Nat) (inum : Int)
    (h0 : 0 ≤ inum) (h1 : inum < num_inodes) :
    dirent_inum (write_int (strlcpy mem e name DIR_NAME) (e + DIR_NAME) inum) e = inum := by
  unfold dirent_inum
  have hN : num_inodes = 262143 := by decide
  exact read_int_write_int_same _ _ _ (by omega) (by omega)

theorem dir_grow_need (size : Int) (h0 : 0 ≤ size) (h1 : size + 52 ≤ 156 * 52) :
    grow_need (bytes_to_pages size) (bytes_to_pages (size + 52)) ≤ 1 := by
  have e1 : bytes_to_pages size = (size + 4095) / 4096 := by unfold bytes_to_pages; rfl
  have e2 : bytes_to_pages (size + 52) = (size + 52 + 4095) / 4096 := by
    unfold bytes_to_pages; rfl
  unfold grow_need
  rw [e1, e2]
  have : ¬ ((size + 4095) / 4096 < 3 ∧ (size + 52 + 4095) / 4096 ≥ 3) := by omega
  rw [if_neg this]
  omega

/-- On a well-formed directory with room for one more dirent `directory_put`
grows the directory by one dirent and fills the new dirent. -/
theorem directory_put_eq (s : FS) (d : Int) (name : List Nat) (inum : Int) (k : Nat)
    (hd : dir_wf s d) (hroom : dir_count s d < 156)
    (hi1 : inum < num_inodes)
    (hfree : free_avail s (1 + k)) :
    ∃ t1, grow_inode s d sizeof_dirent = (0, t1) ∧ inode_wf t1 d
      ∧ (t1.inodes d).size = (s.inodes d).size + 52
      ∧ free_avail t1 k ∧ grow_frame s d t1
      ∧ (t1.inodes d).iptr = (s.inodes d).iptr
      ∧ directory_put s d name inum = some (0, put_entry t1 d (dir_count s d) name inum) := by
  obtain ⟨hwf, hm, hs⟩ := hd
  have hS : sizeof_dirent = 52 := rfl
  have h0 : 0 ≤ (s.inodes d).size := hwf.1
  have hcnt : dir_count s d = (s.inodes d).size / 52 := rfl
  rw [hS] at hm hs
  rw [hcnt] at hroom
  have hneed := dir_grow_need (s.inodes d).size h0 (by omega)
  obtain ⟨t1, g1, g2, g3, g4, g5, g6⟩ := grow_inode_ok s d 52 k hwf (by decide) (by omega)
    (free_avail_mono s _ _ (by omega) hfree)
  have hb3 : bytes_to_pages ((s.inodes d).size + 52) < 3 := by
    have : bytes_to_pages ((s.inodes d).size + 52) = ((s.inodes d).size + 52 + 4095) / 4096 := by
      unfold bytes_to_pages; rfl
    rw [this]; omega
  refine ⟨t1, by rw [hS]; exact g1, g2, g3, g4, g5, g6 hb3, ?_⟩
  unfold directory_put
  rw [hS, g1]
  simp only [ne_eq, not_true_eq_false, if_false]
  have hgi : get_inode inum = some inum := by
    unfold get_inode
    rw [if_neg (by omega)]
  rw [hgi]
  simp only
  have hne : to_int (to_size_t (t1.inodes d).size / 52) = (s.inodes d).size / 52 + 1 := by
    rw [g3, to_size_t_of_range (by omega) (by omega)]
    rw [to_int_of_range (by omega) (by omega)]
    omega
  rw [hne, ents_per_page_eq]
  have hsub : (s.inodes d).size / 52 + 1 - 1 = (s.inodes d).size / 52 := by omega
  rw [hsub, cdiv_of_nonneg (by omega) (by decide), cmod_of_nonneg (by omega) (by decide)]
  have hbp : bytes_to_pages (t1.inodes d).size = ((s.inodes d).size + 52 + 4095) / 4096 := by
    rw [g3]; unfold bytes_to_pages; rfl
  rw [inode_get_page_wf g2 _ (by omega) (by rw [hbp]; omega)]
  simp only
  rfl

/-! ## directory_put among the directories of a volume -/

/-- A page foreign to a directory stays foreign when the directory is left
alone and the page stays allocated. -/
theorem foreign_same {s t : FS} {e : Int} {x : Int} (hwf : dir_wf s e)
    (h : dir_same s t e) (hx : foreign s e x) (hok : page_ok t x) : foreign t e x := by
  obtain ⟨a1, a2, a3, a4, a5⟩ := h
  obtain ⟨q0, q1⟩ := dir_pages_le2 hwf
  refine ⟨hok, by rw [a4]; exact hx.2.1, ?_⟩
  intro i hi
  rw [a1] at hi
  rw [page_at_lt2 s t e i (by omega) (by omega) a2 a3]
  exact hx.2.2 i hi

theorem put_entry_fields (t1 : FS) (d n : Int) (name : List Nat) (inum : Int) (j : Int) :
    ((put_entry t1 d n name inum).inodes j).size = (t1.inodes j).size
    ∧ ((put_entry t1 d n name inum).inodes j).ptrs0 = (t1.inodes j).ptrs0
    ∧ ((put_entry t1 d n name inum).inodes j).ptrs1 = (t1.inodes j).ptrs1
    ∧ ((put_entry t1 d n name inum).inodes j).iptr = (t1.inodes j).iptr
    ∧ ((put_entry t1 d n name inum).inodes j).mode = (t1.inodes j).mode
    ∧ ((put_entry t1 d n name inum).inodes j).refs
        = if j = inum then to_int ((t1.inodes j).refs + 1) else (t1.inodes j).refs := by
  unfold put_entry FS.set_inode
  by_cases h : j = inum
  · subst h; simp
  · simp [h]

/-- The effect of `directory_put` on a directory of a set of directories in
order: it returns 0, the directories are still in order, the others are left
alone, and the directory has one more dirent, with the name and the inum. -/
theorem directory_put_dirs (s : FS) (D : List Int) (d2 : Int) (name : List Nat) (inum : Int)
    (k : Nat) (hD : dirs_ok s D) (hd2 : d2 ∈ D) (hroom : dir_count s d2 < 156)
    (hname : ∀ x ∈ name, x ≠ 0) (hlen : (name.length : Int) < DIR_NAME)
    (hi0 : 0 < inum) (hi1 : inum < num_inodes) (hfree : free_avail s (1 + k)) :
    ∃ t, directory_put s d2 name inum = some (0, t)
      ∧ dirs_ok t D ∧ free_avail t k
      ∧ (∀ d ∈ D, d ≠ d2 → dir_same s t d)
      ∧ dir_count t d2 = dir_count s d2 + 1
      ∧ (∀ j : Int, 0 ≤ j → j < dir_count s d2 → ent_addr t d2 j = ent_addr s d2 j
          ∧ ∀ c : Int, 0 ≤ c → c < 52 →
              t.mem (ent_addr s d2 j + c) = s.mem (ent_addr s d2 j + c))
      ∧ (∀ other : List Nat, (∀ x ∈ other, x ≠ 0) →
          ent_named t d2 (dir_count s d2) other = decide (other = name))
      ∧ ent_inum t d2 (dir_count s d2) = inum
      ∧ t.inode_bitmap = s.inode_bitmap
      ∧ (∀ j : Int, (t.inodes j).mode = (s.inodes j).mode
          ∧ (t.inodes j).refs
              = if j = inum then to_int ((s.inodes j).refs + 1) else (s.inodes j).refs) := by
  obtain ⟨hwf2, hI2, hents2⟩ := (hD d2 hd2).1
  obtain ⟨t1, g1, g2, g3, g4, g5, g6, hput⟩ :=
    directory_put_eq s d2 name inum k hwf2 hroom hi1 hfree
  have hS : sizeof_dirent = 52 := rfl
  have hsz0 : 0 ≤ (s.inodes d2).size := hwf2.1.1
  have hcnt : dir_count s d2 = (s.inodes d2).size / 52 := rfl
  have hm2 : (s.inodes d2).size % 52 = 0 := hwf2.2.1
  have hn0 : 0 ≤ dir_count s d2 := by rw [hcnt]; omega
  have hwf1 : dir_wf t1 d2 := by
    refine ⟨g2, ?_, ?_⟩
    · rw [g3, hS]; omega
    · rw [g3, hS]; rw [hcnt] at hroom; omega
  have hcnt1 : dir_count t1 d2 = dir_count s d2 + 1 := by
    unfold dir_count; rw [g3, hS]; omega
  obtain ⟨f1, f2, f3, f4, f5, f6, f7, f8, f9, f10, f11, f12⟩ := g5
  have g5 : grow_frame s d2 t1 := ⟨f1, f2, f3, f4, f5, f6, f7, f8, f9, f10, f11, f12⟩
  -- the page of the new dirent
  obtain ⟨pg0, pg1⟩ := ent_page_lt hwf1 (dir_count s d2) hn0 (by rw [hcnt1]; omega)
  have hpg := wf_pages g2 _ pg0 pg1
  obtain ⟨q0, q1⟩ := dir_pages_le2 hwf1
  -- the final state
  have hF := put_entry_fields t1 d2 (dir_count s d2) name inum
  have hbm : (put_entry t1 d2 (dir_count s d2) name inum).pages_bitmap = t1.pages_bitmap := rfl
  have hib : (put_entry t1 d2 (dir_count s d2) name inum).inode_bitmap = t1.inode_bitmap := rfl
  have hmemT : ∀ a : Int, (a < ent_addr t1 d2 (dir_count s d2)
        ∨ ent_addr t1 d2 (dir_count s d2) + 52 ≤ a) →
      (put_entry t1 d2 (dir_count s d2) name inum).mem a = t1.mem a := by
    intro a ha
    exact put_mem_other t1.mem _ name inum hlen a ha
  have hnamed : ∀ other : List Nat, (∀ x ∈ other, x ≠ 0) →
      streq_mem (put_entry t1 d2 (dir_count s d2) name inum).mem
        (ent_addr t1 d2 (dir_count s d2)) other = decide (other = name) := by
    intro other ho
    exact put_mem_named t1.mem _ name other inum hlen hname ho
  have hinum : dirent_inum (put_entry t1 d2 (dir_count s d2) name inum).mem
      (ent_addr t1 d2 (dir_count s d2)) = inum :=
    put_mem_inum t1.mem _ name inum (by omega) hi1
  generalize put_entry t1 d2 (dir_count s d2) name inum = t at *
  have hpaT : ∀ d i : Int, 0 ≤ i → i < 2 → page_at t d i = page_at t1 d i := by
    intro d i h0 h2
    exact page_at_lt2 t1 t d i h0 h2 (hF d).2.1 (hF d).2.2.1
  have hokT : ∀ x : Int, page_ok t1 x → page_ok t x := by
    intro x hx
    exact ⟨hx.1, hx.2.1, by rw [hbm]; exact hx.2.2⟩
  have hokS : ∀ x : Int, page_ok s x → page_ok t1 x := by
    intro x hx
    exact ⟨hx.1, hx.2.1, f8 _ hx.2.2⟩
  -- bytes outside the page of the new dirent
  have hM : ∀ x a : Int, in_page x a → x ≠ page_at t1 d2 (dir_count s d2 / 78) →
      t.mem a = t1.mem a := by
    intro x a hin hne
    apply hmemT
    by_contra hcon
    have hin2 := ent_in_page t1 d2 (dir_count s d2) (a - ent_addr t1 d2 (dir_count s d2))
      (by omega) (by omega)
    have e : ent_addr t1 d2 (dir_count s d2) + (a - ent_addr t1 d2 (dir_count s d2)) = a := by
      omega
    rw [e] at hin2
    exact hne (in_page_disjoint hin hin2)
  -- pages foreign to the directory
  have hFor : ∀ x : Int, foreign s d2 x →
      page_ok t x ∧ ∀ a : Int, in_page x a → t.mem a = s.mem a := by
    intro x hx
    have hx1 := grow_foreign g5 x hx
    refine ⟨hokT x hx1.1, ?_⟩
    intro a ha
    have hne : x ≠ page_at t1 d2 (dir_count s d2 / 78) := by
      have := hx1.2.2 (dir_count s d2 / 78).toNat (by omega)
      rwa [Int.toNat_of_nonneg pg0] at this
    rw [hM x a ha hne]
    exact f9 x a ha hx.1 hx.2.1
  have hsame : ∀ d ∈ D, d ≠ d2 → dir_same s t d := by
    intro d hd hne
    have e := f3 d hne
    refine ⟨by rw [(hF d).1, e], by rw [(hF d).2.1, e], by rw [(hF d).2.2.1, e],
      by rw [(hF d).2.2.2.1, e], ?_⟩
    intro i hi
    exact hFor _ ((hD d hd).2 d2 hd2 (Ne.symm hne) i hi)
  -- the old dirents
  have hold : ∀ j : Int, 0 ≤ j → j < dir_count s d2 → ent_addr t d2 j = ent_addr s d2 j
      ∧ ∀ c : Int, 0 ≤ c → c < 52 →
          t.mem (ent_addr s d2 j + c) = s.mem (ent_addr s d2 j + c) := by
    intro j hj0 hj
    obtain ⟨p0, p1⟩ := ent_page_lt hwf2 j hj0 hj
    obtain ⟨r0, r1⟩ := dir_pages_le2 hwf2
    have ea1 : ent_addr t1 d2 j = ent_addr s d2 j := by
      unfold ent_addr
      rw [ents_per_page_eq, f10 _ p0 p1]
    have ea : ent_addr t d2 j = ent_addr s d2 j := by
      rw [← ea1]
      unfold ent_addr
      rw [ents_per_page_eq, hpaT d2 _ p0 (by omega)]
    refine ⟨ea, ?_⟩
    intro c hc0 hc1
    have hdis := ent_disjoint hwf1 j (dir_count s d2) hj0 (by rw [hcnt1]; omega) hn0
      (by rw [hcnt1]; omega) (by omega)
    rw [ea1] at hdis
    rw [hmemT _ (by omega)]
    have hp := wf_pages hwf2.1 _ p0 p1
    exact f9 _ _ (ent_in_page s d2 j c hc0 hc1) hp.1 hp.2
  have heaN : ent_addr t d2 (dir_count s d2) = ent_addr t1 d2 (dir_count s d2) := by
    unfold ent_addr
    rw [ents_per_page_eq, hpaT d2 _ pg0 (by omega)]
  have hcntT : dir_count t d2 = dir_count s d2 + 1 := by
    rw [← hcnt1]; unfold dir_count; rw [(hF d2).1]
  have hokd2 : dir_ok t d2 := by
    refine ⟨⟨?_, ?_, ?_⟩, ?_, ?_⟩
    · apply inode_wf_congr t1 t d2 g2 (hF d2).1 (hF d2).2.1 (hF d2).2.2.1 (hF d2).2.2.2.1 hbm
      intro a ha
      exact hM _ a ha (Ne.symm hpg.2)
    · rw [(hF d2).1]; exact hwf1.2.1
    · rw [(hF d2).1]; exact hwf1.2.2
    · rw [(hF d2).2.2.2.1, g6]; exact hI2
    · intro j hj
      rw [hcntT] at hj
      by_cases hjn : (j : Int) < dir_count s d2
      · obtain ⟨e1, e2⟩ := hold j (by omega) hjn
        rw [(ent_congr s t d2 j [] (by decide) e1 e2).2]
        exact hents2 j (by omega)
      · have hjn2 : (j : Int) = dir_count s d2 := by omega
        rw [hjn2]
        unfold ent_inum
        rw [heaN, hinum]
        exact ⟨hi0, hi1⟩
  refine ⟨t, hput, ?_, free_avail_congr k hbm g4, hsame, hcntT, hold, ?_, ?_,
    by rw [hib, f1], ?_⟩
  · -- the directories are still in order
    intro d hd
    by_cases hdd : d = d2
    · subst hdd
      refine ⟨hokd2, ?_⟩
      intro e he hne i hi
      have hse := hsame e he hne
      have hi2 : (i : Int) < bytes_to_pages (t1.inodes d).size := by
        rw [(hF d).1] at hi; omega
      rw [hpaT d i (by omega) (by omega)]
      have hpo := (wf_pages g2 i (by omega) hi2).1
      by_cases hold_i : (i : Int) < bytes_to_pages (s.inodes d).size
      · rw [f10 i (by omega) hold_i] at hpo ⊢
        exact foreign_same (hD e he).1.1 hse ((hD d hd).2 e he hne i (by omega)) (hokT _ hpo)
      · have hnew := f11 i (by omega) hi2
        have hwe := (hD e he).1.1
        obtain ⟨r0, r1⟩ := dir_pages_le2 hwe
        refine ⟨hokT _ hpo, ?_, ?_⟩
        · rw [hse.2.2.2.1, (hD e he).1.2.1]
          exact page_ok_ne_zero hpo
        · intro i2 hi2'
          rw [hse.1] at hi2'
          rw [page_at_lt2 s t e i2 (by omega) (by omega) hse.2.1 hse.2.2.1]
          intro heq
          rw [heq] at hnew
          exact hnew (wf_pages hwe.1 i2 (by omega) (by omega)).1
    · have hsd := hsame d hd hdd
      refine ⟨dir_same_ok (hD d hd).1 hsd, ?_⟩
      intro e he hne i hi
      rw [hsd.1] at hi
      obtain ⟨r0, r1⟩ := dir_pages_le2 (hD d hd).1.1
      rw [page_at_lt2 s t d i (by omega) (by omega) hsd.2.1 hsd.2.2.1]
      have hfs := (hD d hd).2 e he hne i hi
      have hpt := (hsd.2.2.2.2 i hi).1
      by_cases hed : e = d2
      · subst hed
        have hf1 := grow_foreign g5 _ hfs
        refine ⟨hpt, by rw [(hF e).2.2.2.1]; exact hf1.2.1, ?_⟩
        intro i2 hi2
        rw [(hF e).1] at hi2
        rw [hpaT e i2 (by omega) (by omega)]
        exact hf1.2.2 i2 hi2
      · exact foreign_same (hD e he).1.1 (hsame e he hed) hfs hpt
  · intro other ho
    unfold ent_named
    rw [heaN]
    exact hnamed other ho
  · unfold ent_inum
    rw [heaN]
    exact hinum
  · intro j
    refine ⟨?_, ?_⟩
    · rw [(hF j).2.2.2.2.1]
      by_cases hj : j = d2
      · rw [hj]; exact f5
      · rw [f3 j hj]
    · rw [(hF j).2.2.2.2.2]
      by_cases hj : j = d2
      · rw [hj, f4]
      · rw [f3 j hj]

/-- The search for a name in a directory that got one more dirent. -/
theorem dir_find_put (s t : FS) (d2 : Int) (name c : List Nat)
    (hn0 : 0 ≤ dir_count s d2)
    (hclen : (c.length : Int) < DIR_NAME)
    (hold : ∀ j : Int, 0 ≤ j → j < dir_count s d2 → ent_addr t d2 j = ent_addr s d2 j
      ∧ ∀ k : Int, 0 ≤ k → k < 52 → t.mem (ent_addr s d2 j + k) = s.mem (ent_addr s d2 j + k))
    (hnew : ent_named t d2 (dir_count s d2) c = decide (c = name)) :
    dir_find t d2 c ((dir_count s d2).toNat + 1) 0
      = match dir_find s d2 c (dir_count s d2).toNat 0 with
        | some x => some x
        | none => if c = name then some (dir_count s d2) else none := by
  rw [dir_find_append t d2 c (dir_count s d2).toNat 1 0]
  have e1 : dir_find t d2 c (dir_count s d2).toNat 0 = dir_find s d2 c (dir_count s d2).toNat 0 := by
    apply dir_find_congr
    intro i hi0 hi1
    obtain ⟨a1, a2⟩ := hold i hi0 (by omega)
    exact (ent_congr s t d2 i c hclen a1 a2).1
  rw [e1]
  cases dir_find s d2 c (dir_count s d2).toNat 0 with
  | some x => rfl
  | none =>
    simp only
    have e2 : (0 : Int) + ((dir_count s d2).toNat : Int) = dir_count s d2 := by
      rw [Int.toNat_of_nonneg hn0]; omega
    rw [e2]
    simp only [dir_find, hnew]
    by_cases h : c = name
    · simp [h]
    · simp [h]

/-- A name found in a directory before one more dirent was put is found
after it, with the same inum. -/
theorem lookup_put_old (s t : FS) (d2 : Int) (name c : List Nat)
    (hs : dir_ok s d2) (ht : dir_ok t d2)
    (hcnt : dir_count t d2 = dir_count s d2 + 1)
    (hclen : (c.length : Int) < DIR_NAME)
    (hold : ∀ j : Int, 0 ≤ j → j < dir_count s d2 → ent_addr t d2 j = ent_addr s d2 j
      ∧ ∀ k : Int, 0 ≤ k → k < 52 → t.mem (ent_addr s d2 j + k) = s.mem (ent_addr s d2 j + k))
    (hnew : ent_named t d2 (dir_count s d2) c = decide (c = name))
    (hfound : 0 ≤ directory_lookup s d2 c) :
    directory_lookup t d2 c = directory_lookup s d2 c := by
  have hn0 : 0 ≤ dir_count s d2 := by
    have := hs.1.1.1
    unfold dir_count sizeof_dirent; omega
  rw [directory_lookup_find s d2 c hs] at hfound ⊢
  rw [directory_lookup_find t d2 c ht, hcnt]
  have e : (dir_count s d2 + 1).toNat = (dir_count s d2).toNat + 1 := by omega
  rw [e, dir_find_put s t d2 name c hn0 hclen hold hnew]
  cases hf : dir_find s d2 c (dir_count s d2).toNat 0 with
  | none =>
    rw [hf] at hfound
    simp only at hfound
    exact absurd hfound (by decide)
  | some x =>
    simp only
    obtain ⟨x0, x1, _, _⟩ := dir_find_some hf
    obtain ⟨a1, a2⟩ := hold x x0 (by omega)
    exact (ent_congr s t d2 x [] (by decide) a1 a2).2

/-- A name absent from a directory resolves to the inum it was put with. -/
theorem lookup_put_new (s t : FS) (d2 : Int) (name : List Nat) (inum : Int)
    (hs : dir_ok s d2) (ht : dir_ok t d2)
    (hcnt : dir_count t d2 = dir_count s d2 + 1)
    (hlen : (name.length : Int) < DIR_NAME)
    (hold : ∀ j : Int, 0 ≤ j → j < dir_count s d2 → ent_addr t d2 j = ent_addr s d2 j
      ∧ ∀ k : Int, 0 ≤ k → k < 52 → t.mem (ent_addr s d2 j + k) = s.mem (ent_addr s d2 j + k))
    (hnew : ent_named t d2 (dir_count s d2) name = decide (name = name))
    (hinum : ent_inum t d2 (dir_count s d2) = inum)
    (habsent : directory_lookup s d2 name = -ENOENT) :
    directory_lookup t d2 name = inum := by
  have hn0 : 0 ≤ dir_count s d2 := by
    have := hs.1.1.1
    unfold dir_count sizeof_dirent; omega
  rw [directory_lookup_find s d2 name hs] at habsent
  rw [directory_lookup_find t d2 name ht, hcnt]
  have e : (dir_count s d2 + 1).toNat = (dir_count s d2).toNat + 1 := by omega
  rw [e, dir_find_put s t d2 name name hn0 hlen hold hnew]
  cases hf : dir_find s d2 name (dir_count s d2).toNat 0 with
  | none =>
    simp only [if_true]
    exact hinum
  | some x =>
    rw [hf] at habsent
    simp only at habsent
    obtain ⟨x0, x1, _, _⟩ := dir_find_some hf
    have := (hs.2.2 x.toNat (by omega)).1
    rw [Int.toNat_of_nonneg x0, habsent] at this
    exact absurd this (by decide)

/-- A path that resolves keeps its inode in a state in which the names found
on the way are found again, with the same inum. -/
theorem tree_walk_keep (s t : FS) (comps : List (List Nat)) (i r : Int)
    (h : tree_walk s comps i = some r) (hr : 0 ≤ r)
    (hstep : ∀ d ∈ walk_dirs s comps i, ∀ c ∈ comps, 0 ≤ directory_lookup s d c →
      directory_lookup t d c = directory_lookup s d c) :
    tree_walk t comps i = some r := by
  induction comps generalizing i with
  | nil => exact h
  | cons c rest ih =>
    simp only [tree_walk] at h ⊢
    cases hg : get_inode i with
    | none => rw [hg] at h; cases h
    | some node =>
      have hni : node = i := by
        unfold get_inode at hg
        split_ifs at hg
        cases hg; rfl
      subst hni
      rw [hg] at h
      simp only at h ⊢
      by_cases hneg : directory_lookup s node c < 0
      · rw [if_pos hneg] at h
        cases h
        omega
      · rw [if_neg hneg] at h
        have hl : directory_lookup t node c = directory_lookup s node c :=
          hstep node (by simp [walk_dirs]) c (List.mem_cons_self _ _) (by omega)
        rw [hl, if_neg hneg]
        apply ih _ h
        intro d hd c2 hc2
        apply hstep d _ c2 (List.mem_cons_of_mem _ hc2)
        simp only [walk_dirs, if_neg hneg]
        exact List.mem_cons_of_mem _ hd

/-! ## What shrink_inode and free_inode leave alone -/

theorem shrink_inv_refl (s : FS) (v : Int) : shrink_inv s v s :=
  ⟨fun _ _ => rfl, rfl, rfl, rfl, Or.inr rfl, Or.inr rfl, Or.inr rfl, fun _ _ => rfl,
    fun _ _ => Or.inr rfl, fun _ h => h, fun _ _ _ => rfl⟩

/-- Clearing the bit of a page keeps the bits of the other pages at or above
`inode_end_page`. -/
theorem free_page_bit_other (bm : Nat → Nat) (p : Int) (x : Nat)
    (hx : inode_end_page ≤ (x : Int)) (hne : (x : Int) ≠ p) :
    bitmap_get (bitmap_put bm p.toNat 0) x = bitmap_get bm x := by
  apply bitmap_get_put_other
  have h17 : inode_end_page = 17 := rfl
  omega

theorem free_page_bit_mono (bm : Nat → Nat) (p x : Nat)
    (h : bitmap_get (bitmap_put bm p 0) x = 1) : bitmap_get bm x = 1 := by
  by_cases hp : p = x
  · subst hp
    rw [bitmap_get_put_same] at h
    simp at h
  · rwa [bitmap_get_put_other _ _ _ _ hp] at h

theorem shrink_inv_free_page {s0 u : FS} {v : Int} (h : shrink_inv s0 v u) (p : Int)
    (hp : ∀ x : Nat, inode_end_page ≤ (x : Int) → ¬ owns s0 v x → (x : Int) ≠ p) :
    shrink_inv s0 v (free_page u p) := by
  obtain ⟨a1, a2, a3, a4, a5, a6, a7, a8, a9, a10, a11⟩ := h
  refine ⟨a1, a2, a3, a4, a5, a6, a7, a8, a9, ?_, ?_⟩
  · intro x hx
    exact a10 x (free_page_bit_mono _ _ _ hx)
  · intro x hx hno
    show bitmap_get (bitmap_put u.pages_bitmap p.toNat 0) x = _
    rw [free_page_bit_other _ _ _ hx (hp x hx hno)]
    exact a11 x hx hno

theorem shrink_inv_set_ptrs0 {s0 u : FS} {v : Int} (h : shrink_inv s0 v u) :
    shrink_inv s0 v (u.set_inode v { u.inodes v with ptrs0 := 0 }) := by
  obtain ⟨a1, a2, a3, a4, a5, a6, a7, a8, a9, a10, a11⟩ := h
  have hv : (u.set_inode v { u.inodes v with ptrs0 := 0 }).inodes v
      = { u.inodes v with ptrs0 := 0 } := by simp [FS.set_inode]
  refine ⟨?_, a2, ?_, ?_, ?_, ?_, ?_, a8, a9, a10, a11⟩
  · intro j hj
    simp only [FS.set_inode, hj, if_false]
    exact a1 j hj
  · rw [hv]; exact a3
  · rw [hv]; exact a4
  · rw [hv]; exact Or.inl rfl
  · rw [hv]; exact a6
  · rw [hv]; exact a7

theorem shrink_inv_set_ptrs1 {s0 u : FS} {v : Int} (h : shrink_inv s0 v u) :
    shrink_inv s0 v (u.set_inode v { u.inodes v with ptrs1 := 0 }) := by
  obtain ⟨a1, a2, a3, a4, a5, a6, a7, a8, a9, a10, a11⟩ := h
  have hv : (u.set_inode v { u.inodes v with ptrs1 := 0 }).inodes v
      = { u.inodes v with ptrs1 := 0 } := by simp [FS.set_inode]
  refine ⟨?_, a2, ?_, ?_, ?_, ?_, ?_, a8, a9, a10, a11⟩
  · intro j hj
    simp only [FS.set_inode, hj, if_false]
    exact a1 j hj
  · rw [hv]; exact a3
  · rw [hv]; exact a4
  · rw [hv]; exact a5
  · rw [hv]; exact Or.inl rfl
  · rw [hv]; exact a7

theorem shrink_inv_set_iptr {s0 u : FS} {v : Int} (h : shrink_inv s0 v u) :
    shrink_inv s0 v (u.set_inode v { u.inodes v with iptr := 0 }) := by
  obtain ⟨a1, a2, a3, a4, a5, a6, a7, a8, a9, a10, a11⟩ := h
  have hv : (u.set_inode v { u.inodes v with iptr := 0 }).inodes v
      = { u.inodes v with iptr := 0 } := by simp [FS.set_inode]
  refine ⟨?_, a2, ?_, ?_, ?_, ?_, ?_, a8, a9, a10, a11⟩
  · intro j hj
    simp only [FS.set_inode, hj, if_false]
    exact a1 j hj
  · rw [hv]; exact a3
  · rw [hv]; exact a4
  · rw [hv]; exact a5
  · rw [hv]; exact a6
  · rw [hv]; exact Or.inl rfl

theorem shrink_inv_write_slot {s0 u : FS} {v : Int} (h : shrink_inv s0 v u) (ind : Int)
    (h0 : 0 ≤ ind) (h1 : ind < 1024) :
    shrink_inv s0 v
      { u with mem := write_int u.mem (pages_get_page (s0.inodes v).iptr + 4 * ind) 0 } := by
  obtain ⟨a1, a2, a3, a4, a5, a6, a7, a8, a9, a10, a11⟩ := h
  refine ⟨a1, a2, a3, a4, a5, a6, a7, ?_, ?_, a10, a11⟩
  · intro a ha
    show write_int u.mem _ 0 a = _
    rw [write_int_other]
    · exact a8 a ha
    · unfold in_page pages_get_page page_size at ha
      unfold pages_get_page page_size
      omega
  · intro k hk
    show read_int (write_int u.mem _ 0) _ = 0 ∨ read_int (write_int u.mem _ 0) _ = _
    by_cases hki : (k : Int) = ind
    · left
      rw [hki]
      exact read_int_write_int_same _ _ 0 (by decide) (by decide)
    · rw [read_int_write_int_other _ _ _ _ (by omega)]
      exact a9 k hk

theorem not_owned_ne_zero (x : Nat) (hx : inode_end_page ≤ (x : Int)) : (x : Int) ≠ 0 := by
  have h17 : inode_end_page = 17 := rfl
  omega

/-- The freeing loop of `shrink_inode` keeps `shrink_inv`: the part that
frees the direct pointers. -/
theorem shrink_free_inv_none (s0 : FS) (v : Int)
    (n : Nat) (u : FS) (ind : Int) (hu : shrink_inv s0 v u) :
    shrink_inv s0 v (shrink_free v none n u ind).2 := by
  induction n generalizing u ind with
  | zero => exact hu
  | succ m ih =>
    unfold shrink_free
    simp only
    by_cases h1 : (u.inodes v).ptrs1 ≠ 0
    · rw [if_pos h1]
      apply ih
      apply shrink_inv_set_ptrs1
      apply shrink_inv_free_page hu
      intro x hx hno he
      rcases hu.2.2.2.2.2.1 with h0 | h0
      · exact h1 h0
      · exact hno (Or.inr (Or.inr (Or.inl (by rw [he, h0]))))
    · rw [if_neg h1]
      by_cases h0 : (u.inodes v).ptrs0 ≠ 0
      · rw [if_pos h0]
        apply ih
        apply shrink_inv_set_ptrs0
        apply shrink_inv_free_page hu
        intro x hx hno he
        rcases hu.2.2.2.2.1 with h00 | h00
        · exact h0 h00
        · exact hno (Or.inr (Or.inl (by rw [he, h00])))
      · rw [if_neg h0]
        exact hu

/-- The freeing loop of `shrink_inode` keeps `shrink_inv`, with the indirect
page of the inode at hand. -/
theorem shrink_free_inv_some (s0 : FS) (v : Int) (hI0 : (s0.inodes v).iptr ≠ 0)
    (n : Nat) (u : FS) (ind : Int) (hlo : -1 ≤ ind) (hhi : ind ≤ 1024)
    (hu : shrink_inv s0 v u) :
    shrink_inv s0 v
      (shrink_free v (some (pages_get_page (s0.inodes v).iptr)) n u ind).2 := by
  induction n generalizing u ind with
  | zero => exact hu
  | succ m ih =>
    unfold shrink_free
    simp only
    by_cases hg : to_size_t ind < 1024
        ∧ read_int u.mem (pages_get_page (s0.inodes v).iptr + 4 * ind) ≠ 0
    · rw [if_pos hg]
      simp only
      have hr0 : 0 ≤ ind ∧ ind < 1024 := by
        have := hg.1
        unfold to_size_t at this
        omega
      -- the page in the slot is one of the pages of the inode
      have htemp : owns s0 v
          (read_int u.mem (pages_get_page (s0.inodes v).iptr + 4 * ind)) := by
        have hs := hu.2.2.2.2.2.2.2.2.1 ind.toNat (by omega)
        rw [Int.toNat_of_nonneg hr0.1] at hs
        rcases hs with hz | he
        · exact absurd hz hg.2
        · exact Or.inr (Or.inr (Or.inr ⟨hI0, ind.toNat, by omega, by
            rw [Int.toNat_of_nonneg hr0.1]; exact he⟩))
      have hu1 : shrink_inv s0 v
          (free_page (FS.mk u.pages_bitmap u.inode_bitmap u.inodes
              (write_int u.mem (pages_get_page (s0.inodes v).iptr + 4 * ind) 0) u.clock)
            (read_int u.mem (pages_get_page (s0.inodes v).iptr + 4 * ind))) := by
        apply shrink_inv_free_page (shrink_inv_write_slot hu ind hr0.1 hr0.2)
        intro x hx hno he
        rw [he] at hno
        exact hno htemp
      by_cases hz : ind = 0
      · rw [if_pos hz]
        apply ih _ _ (by omega) (by omega)
        apply shrink_inv_set_iptr
        apply shrink_inv_free_page hu1
        intro x hx hno he
        rcases hu1.2.2.2.2.2.2.1 with h0 | h0
        · rw [h0] at he; exact not_owned_ne_zero x hx he
        · exact hno (Or.inl (by rw [he, h0]))
      · rw [if_neg hz]
        exact ih _ _ (by omega) (by omega) hu1
    · rw [if_neg hg]
      simp only
      by_cases h1 : (u.inodes v).ptrs1 ≠ 0
      · rw [if_pos h1]
        apply ih _ _ hlo hhi
        apply shrink_inv_set_ptrs1
        apply shrink_inv_free_page hu
        intro x hx hno he
        rcases hu.2.2.2.2.2.1 with h0 | h0
        · exact h1 h0
        · exact hno (Or.inr (Or.inr (Or.inl (by rw [he, h0]))))
      · rw [if_neg h1]
        by_cases h0 : (u.inodes v).ptrs0 ≠ 0
        · rw [if_pos h0]
          apply ih _ _ hlo hhi
          apply shrink_inv_set_ptrs0
          apply shrink_inv_free_page hu
          intro x hx hno he
          rcases hu.2.2.2.2.1 with h00 | h00
          · exact h0 h00
          · exact hno (Or.inr (Or.inl (by rw [he, h00])))
        · rw [if_neg h0]
          exact hu

theorem shrink_last_used_zero (mem : Int → Nat) (ip i0 : Int) :
    shrink_last_used mem ip 0 i0 = i0 := rfl

theorem shrink_last_used_succ (mem : Int → Nat) (ip : Int) (n : Nat) (i0 : Int) :
    shrink_last_used mem ip (n + 1) i0
      = if read_int mem (ip + 4 * i0) = 0 then i0 - 1
        else shrink_last_used mem ip n (i0 + 1) := rfl

theorem shrink_last_used_range (mem : Int → Nat) (ip : Int) (fuel : Nat) (i0 : Int) :
    i0 - 1 ≤ shrink_last_used mem ip fuel i0 ∧ shrink_last_used mem ip fuel i0 ≤ i0 + fuel := by
  induction fuel generalizing i0 with
  | zero =>
    rw [shrink_last_used_zero]
    omega
  | succ n ih =>
    rw [shrink_last_used_succ]
    by_cases h : read_int mem (ip + 4 * i0) = 0
    · rw [if_pos h]; omega
    · rw [if_neg h]
      have := ih (i0 + 1)
      omega

theorem shrink_inv_set_size {s0 u : FS} {v : Int} (h : shrink_inv s0 v u) (z : Int) :
    shrink_inv s0 v (u.set_inode v { u.inodes v with size := z }) := by
  obtain ⟨a1, a2, a3, a4, a5, a6, a7, a8, a9, a10, a11⟩ := h
  have hv : (u.set_inode v { u.inodes v with size := z }).inodes v
      = { u.inodes v with size := z } := by simp [FS.set_inode]
  refine ⟨?_, a2, ?_, ?_, ?_, ?_, ?_, a8, a9, a10, a11⟩
  · intro j hj
    simp only [FS.set_inode, hj, if_false]
    exact a1 j hj
  · rw [hv]; exact a3
  · rw [hv]; exact a4
  · rw [hv]; exact a5
  · rw [hv]; exact a6
  · rw [hv]; exact a7

/-- Whatever it returns, `shrink_inode` on inode `v` touches only the record
of `v`, the bytes of the indirect page of `v` and the bits of the pages `v`
points to. -/
theorem shrink_inode_inv (s : FS) (v k : Int) : shrink_inv s v (shrink_inode s v k).2 := by
  unfold shrink_inode
  by_cases hk : k > (s.inodes v).size
  · rw [if_pos hk]
    exact shrink_inv_refl s v
  · rw [if_neg hk]
    simp only
    by_cases hI : (s.inodes v).iptr ≠ 0
    · simp only [hI, ne_eq, not_false_eq_true, if_true]
      have hr := shrink_last_used_range s.mem (pages_get_page (s.inodes v).iptr) 1024 0
      have hinv := shrink_free_inv_some s v hI
        (bytes_to_pages (s.inodes v).size
          - bytes_to_pages (to_int ((s.inodes v).size - k))).toNat s
        (shrink_last_used s.mem (pages_get_page (s.inodes v).iptr) 1024 0)
        (by have := hr.1; omega) (by have := hr.2; omega) (shrink_inv_refl s v)
      revert hinv
      cases shrink_free v (some (pages_get_page (s.inodes v).iptr))
          (bytes_to_pages (s.inodes v).size
            - bytes_to_pages (to_int ((s.inodes v).size - k))).toNat s
          (shrink_last_used s.mem (pages_get_page (s.inodes v).iptr) 1024 0) with
      | mk o s1 =>
        intro hinv
        cases o with
        | some rv => exact hinv
        | none => exact shrink_inv_set_size hinv _
    · have hI0 : (s.inodes v).iptr = 0 := by
        by_contra hc; exact hI hc
      simp only [hI0, ne_eq, not_true_eq_false, if_false]
      have hinv := shrink_free_inv_none s v
        (bytes_to_pages (s.inodes v).size
          - bytes_to_pages (to_int ((s.inodes v).size - k))).toNat s 0 (shrink_inv_refl s v)
      revert hinv
      cases shrink_free v none
          (bytes_to_pages (s.inodes v).size
            - bytes_to_pages (to_int ((s.inodes v).size - k))).toNat s 0 with
      | mk o s1 =>
        intro hinv
        cases o with
        | some rv => exact hinv
        | none => exact shrink_inv_set_size hinv _

/-- `free_inode` on an inode other than the root returns 0 and keeps
`free_frame`. -/
theorem free_inode_frame (s : FS) (v : Int) (hv0 : 0 < v) (hvN : v < num_inodes) :
    ∃ t, free_inode s v = (0, t) ∧ free_frame s v t := by
  have hs1v : (s.set_inode v { s.inodes v with refs := to_int ((s.inodes v).refs - 1) }).inodes v
      = { s.inodes v with refs := to_int ((s.inodes v).refs - 1) } := by
    simp [FS.set_inode]
  have hs1o : ∀ j, j ≠ v →
      (s.set_inode v { s.inodes v with refs := to_int ((s.inodes v).refs - 1) }).inodes j
        = s.inodes j := by
    intro j hj; simp [FS.set_inode, hj]
  unfold free_inode
  simp only
  rw [hs1v]
  simp only
  by_cases hpos : to_int ((s.inodes v).refs - 1) > 0
  · rw [if_pos hpos]
    refine ⟨_, rfl, hs1o, by rw [hs1v], by rw [hs1v], fun _ => rfl, fun _ _ => rfl,
      fun _ _ => rfl, fun _ h => h, fun _ _ _ => rfl⟩
  · rw [if_neg hpos, if_pos hv0]
    have hrange : ¬ (v < 0 ∨ v ≥ num_inodes) := by
      intro h
      rcases h with h | h
      · exact absurd hv0 (not_lt.2 (le_of_lt h))
      · exact absurd hvN (not_lt.2 h)
    rw [if_neg hrange]
    generalize hs1 : s.set_inode v { s.inodes v with refs := to_int ((s.inodes v).refs - 1) }
      = s1 at hs1v hs1o
    have hinv := shrink_inode_inv s1 v (s.inodes v).size
    generalize (shrink_inode s1 v (s.inodes v).size).2 = s2 at hinv
    obtain ⟨a1, a2, a3, a4, a5, a6, a7, a8, a9, a10, a11⟩ := hinv
    have hmem1 : s1.mem = s.mem := by rw [← hs1]; rfl
    have hbm1 : s1.pages_bitmap = s.pages_bitmap := by rw [← hs1]; rfl
    have hib1 : s1.inode_bitmap = s.inode_bitmap := by rw [← hs1]; rfl
    have hI1 : (s1.inodes v).iptr = (s.inodes v).iptr := by rw [hs1v]
    have hown : ∀ x, owns s1 v x ↔ owns s v x := by
      intro x
      unfold owns
      rw [hs1v, hmem1]
    refine ⟨_, rfl, ?_, ?_, ?_, fun h => absurd h hpos, ?_, ?_, ?_, ?_⟩
    · intro j hj
      show s2.inodes j = _
      rw [a1 j hj, hs1o j hj]
    · show (s2.inodes v).refs = _
      rw [a3, hs1v]
    · show (s2.inodes v).mode = _
      rw [a4, hs1v]
    · intro i hi
      show bitmap_get (bitmap_put s2.inode_bitmap v.toNat 0) i = _
      rw [bitmap_get_put_other _ _ _ _ (by omega), a2, hib1]
    · intro a ha
      show s2.mem a = _
      rw [a8 a (by rw [hI1]; exact ha), hmem1]
    · intro x hx
      have hx2 : bitmap_get s2.pages_bitmap x = 1 := hx
      rw [← hbm1]
      exact a10 x hx2
    · intro x hx hno
      show bitmap_get s2.pages_bitmap x = _
      rw [a11 x hx (fun h => hno ((hown x).1 h)), hbm1]

/-! ## Shrinking a directory by one dirent -/

theorem shrink_free_zero (v : Int) (iptrs : Option Int) (u : FS) (ind : Int) :
    shrink_free v iptrs 0 u ind = (none, u) := rfl

theorem shrink_free_one_none (v : Int) (u : FS) (ind : Int) :
    shrink_free v none 1 u ind
      = if (u.inodes v).ptrs1 ≠ 0 then
          (none, (free_page u (u.inodes v).ptrs1).set_inode v { u.inodes v with ptrs1 := 0 })
        else if (u.inodes v).ptrs0 ≠ 0 then
          (none, (free_page u (u.inodes v).ptrs0).set_inode v { u.inodes v with ptrs0 := 0 })
        else (some (- EIO), u) := by
  unfold shrink_free
  simp only
  by_cases h1 : (u.inodes v).ptrs1 ≠ 0
  · rw [if_pos h1, if_pos h1, shrink_free_zero]
  · rw [if_neg h1, if_neg h1]
    by_cases h0 : (u.inodes v).ptrs0 ≠ 0
    · rw [if_pos h0, if_pos h0, shrink_free_zero]
    · rw [if_neg h0, if_neg h0]

/-- `shrink_inode` by one dirent on a directory without indirect page: the
state it returns, with the code 0. -/
theorem shrink_dir_eq (u : FS) (d : Int) (hwf : dir_wf u d) (hI : (u.inodes d).iptr = 0)
    (hsz : 52 ≤ (u.inodes d).size) :
    shrink_inode u d 52
      = (0,
          (if bytes_to_pages ((u.inodes d).size - 52) = bytes_to_pages (u.inodes d).size then u
           else if bytes_to_pages (u.inodes d).size = 2 then
             (free_page u (u.inodes d).ptrs1).set_inode d { u.inodes d with ptrs1 := 0 }
           else (free_page u (u.inodes d).ptrs0).set_inode d { u.inodes d with ptrs0 := 0 }).set_inode d
            { (if bytes_to_pages ((u.inodes d).size - 52) = bytes_to_pages (u.inodes d).size then u
               else if bytes_to_pages (u.inodes d).size = 2 then
                 (free_page u (u.inodes d).ptrs1).set_inode d { u.inodes d with ptrs1 := 0 }
               else (free_page u (u.inodes d).ptrs0).set_inode d
                { u.inodes d with ptrs0 := 0 }).inodes d with size := (u.inodes d).size - 52 }) := by
  obtain ⟨⟨w1, w2, w3, w4, _⟩, hm, hs⟩ := hwf
  have hS : sizeof_dirent = 52 := rfl
  rw [hS] at hm hs
  have hto : to_int ((u.inodes d).size - 52) = (u.inodes d).size - 52 :=
    to_int_of_range (by omega) (by omega)
  have hbp : bytes_to_pages (u.inodes d).size = ((u.inodes d).size + 4095) / 4096 := by
    unfold bytes_to_pages; rfl
  have hbq : bytes_to_pages ((u.inodes d).size - 52) = ((u.inodes d).size - 52 + 4095) / 4096 := by
    unfold bytes_to_pages; rfl
  unfold shrink_inode
  rw [if_neg (by omega), hto]
  simp only [hI, ne_eq, not_true_eq_false, if_false]
  by_cases hsame : bytes_to_pages ((u.inodes d).size - 52) = bytes_to_pages (u.inodes d).size
  · rw [if_pos hsame]
    have h0 : (bytes_to_pages (u.inodes d).size
        - bytes_to_pages ((u.inodes d).size - 52)).toNat = 0 := by omega
    rw [h0, shrink_free_zero]
    simp only [hto, hI]
  · rw [if_neg hsame]
    have h1 : (bytes_to_pages (u.inodes d).size
        - bytes_to_pages ((u.inodes d).size - 52)).toNat = 1 := by
      rw [hbp, hbq] at hsame ⊢
      omega
    rw [h1, shrink_free_one_none]
    by_cases h2 : bytes_to_pages (u.inodes d).size = 2
    · rw [if_pos h2]
      have hp1 : (u.inodes d).ptrs1 ≠ 0 := fun h => by
        have := w4.1 h
        omega
      rw [if_pos hp1]
      simp only [FS.set_inode, if_true, hto, hI]
    · rw [if_neg h2]
      have hp1 : ¬ (u.inodes d).ptrs1 ≠ 0 := by
        intro h
        apply h
        apply w4.2
        rw [hbp] at h2 ⊢
        omega
      have hp0 : (u.inodes d).ptrs0 ≠ 0 := fun h => by
        have := w3.1 h
        rw [hbp, hbq] at *
        omega
      rw [if_neg hp1, if_pos hp0]
      simp only [FS.set_inode, if_true, hto, hI]

/-! ## directory_delete -/

/-- A page scan of `page_find_name_index` is a search among the dirents of
the page's block. -/
theorem page_find_name_index_block (s : FS) (d : Int) (name : List Nat) (k : Int) (fuel : Nat)
    (i0 : Int) (hi0 : 0 ≤ i0) (hb : i0 + fuel ≤ 78) :
    page_find_name_index s.mem (pages_get_page (page_at s d k)) name fuel i0
      = match dir_find s d name fuel (78 * k + i0) with
        | none => -1
        | some j => j - 78 * k := by
  induction fuel generalizing i0 with
  | zero => rfl
  | succ n ih =>
    simp only [page_find_name_index, dir_find]
    have ha := ent_addr_block s d k i0 hi0 (by push_cast at hb; omega)
    unfold ent_named
    rw [ha]
    by_cases hm : streq_mem s.mem (dirent_addr (pages_get_page (page_at s d k)) i0) name = true
    · simp only [hm, if_true]
      show i0 = 78 * k + i0 - 78 * k
      omega
    · simp only [hm, Bool.false_eq_true, if_false]
      rw [ih (i0 + 1) (by omega) (by push_cast at hb ⊢; omega)]
      have : 78 * k + (i0 + 1) = 78 * k + i0 + 1 := by omega
      rw [this]

theorem directory_delete_find_zero (s : FS) (d : Int) (name : List Nat) (ii : Int)
    (cp : Option Int) (find : Int) :
    directory_delete_find s d name 0 ii cp find = .ok (cp, find) := rfl

theorem directory_delete_find_succ (s : FS) (d : Int) (name : List Nat) (fuel : Nat) (ii : Int)
    (cp : Option Int) (find : Int) :
    directory_delete_find s d name (fuel + 1) ii cp find
      = match inode_get_page s d ii with
        | none => .error (- EIO)
        | some curr_page =>
          if page_find_name_index s.mem curr_page name (directory_page_length s d ii).toNat 0 ≥ 0
          then .ok (some curr_page,
            page_find_name_index s.mem curr_page name (directory_page_length s d ii).toNat 0)
          else directory_delete_find s d name fuel (ii + 1) (some curr_page)
            (page_find_name_index s.mem curr_page name (directory_page_length s d ii).toNat 0) :=
  rfl

/-- The search loop of `directory_delete` on a well-formed directory with at
least one dirent: it stops at the first dirent with the name. -/
theorem directory_delete_find_spec (s : FS) (d : Int) (name : List Nat) (hwf : dir_wf s d)
    (hn : 1 ≤ dir_count s d) :
    directory_delete_find s d name (directory_num_pages s d).toNat 0 none 0
      = match dir_find s d name (dir_count s d).toNat 0 with
        | some j => .ok (some (pages_get_page (page_at s d (j / 78))), j % 78)
        | none => .ok (some (pages_get_page
            (page_at s d (bytes_to_pages (s.inodes d).size - 1))), -1) := by
  obtain ⟨hw, hm, hs⟩ := hwf
  have h0 : 0 ≤ (s.inodes d).size := hw.1
  have hS : sizeof_dirent = 52 := rfl
  rw [hS] at hm hs
  obtain ⟨d1, d2, d3, _⟩ := dir_sizes s d h0 hm hs
  have hbp : bytes_to_pages (s.inodes d).size = ((s.inodes d).size + 4095) / 4096 := by
    unfold bytes_to_pages; rfl
  have hcnt : dir_count s d = (s.inodes d).size / 52 := rfl
  rw [hcnt] at hn ⊢
  rw [d3, hbp]
  have hcase : (1 ≤ (s.inodes d).size / 52 ∧ (s.inodes d).size / 52 ≤ 78)
      ∨ (79 ≤ (s.inodes d).size / 52 ∧ (s.inodes d).size / 52 ≤ 156) := by omega
  rcases hcase with ⟨hl, hu⟩ | ⟨hl, hu⟩
  · have hp : ((s.inodes d).size + 4095) / 4096 = 1 := by omega
    rw [hp]
    show directory_delete_find s d name 1 0 none 0 = _
    rw [directory_delete_find_succ, inode_get_page_wf hw 0 (le_refl _) (by rw [hbp, hp]; decide)]
    simp only
    rw [directory_page_length_eq s d 0 h0 hs]
    have hq : (s.inodes d).size / 4096 = 0 := by omega
    rw [hq]
    simp only [lt_irrefl, if_false, mul_zero, sub_zero]
    have hb := page_find_name_index_block s d name 0 ((s.inodes d).size / 52).toNat 0 (le_refl _)
      (by omega)
    simp only [mul_zero, add_zero, sub_zero] at hb
    rw [hb]
    cases hf : dir_find s d name ((s.inodes d).size / 52).toNat 0 with
    | none =>
      simp only
      rw [if_neg (by decide), directory_delete_find_zero]
      rfl
    | some j =>
      obtain ⟨j0, j1, _, _⟩ := dir_find_some hf
      simp only
      rw [if_pos (by omega)]
      have e1 : j / 78 = 0 := by omega
      have e2 : j % 78 = j := by omega
      rw [e1, e2]
  · have hp : ((s.inodes d).size + 4095) / 4096 = 2 := by omega
    rw [hp]
    show directory_delete_find s d name 2 0 none 0 = _
    rw [directory_delete_find_succ, inode_get_page_wf hw 0 (le_refl _) (by rw [hbp, hp]; decide)]
    simp only
    rw [directory_page_length_eq s d 0 h0 hs]
    have hq : (s.inodes d).size / 4096 = 1 := by omega
    rw [hq]
    have e1 : ((if (0:Int) < 1 then (78:Int) else (s.inodes d).size / 52 - 78 * 1)).toNat = 78 := by
      simp
    rw [e1]
    have hb0 := page_find_name_index_block s d name 0 78 0 (le_refl _) (by decide)
    simp only [mul_zero, add_zero, sub_zero] at hb0
    rw [hb0]
    have hsplit : ((s.inodes d).size / 52).toNat = 78 + (((s.inodes d).size / 52).toNat - 78) := by
      omega
    have hap := dir_find_append s d name 78 (((s.inodes d).size / 52).toNat - 78) 0
    rw [← hsplit] at hap
    simp only [zero_add, Nat.cast_ofNat] at hap
    cases hf0 : dir_find s d name 78 0 with
    | some j =>
      rw [hf0] at hap
      simp only at hap
      rw [hap]
      obtain ⟨j0, j1, _, _⟩ := dir_find_some hf0
      simp only
      rw [if_pos (by omega)]
      have e1 : j / 78 = 0 := by omega
      have e2 : j % 78 = j := by omega
      rw [e1, e2]
    | none =>
      rw [hf0] at hap
      simp only at hap
      rw [hap]
      simp only
      rw [if_neg (by decide), directory_delete_find_succ,
        inode_get_page_wf hw (0 + 1) (by decide) (by rw [hbp, hp]; decide)]
      simp only
      rw [directory_page_length_eq s d (0 + 1) h0 hs, hq]
      have e2 : ((if (0:Int) + 1 < 1 then (78:Int) else (s.inodes d).size / 52 - 78 * 1)).toNat
          = ((s.inodes d).size / 52).toNat - 78 := by
        simp only [zero_add, lt_irrefl, if_false]
        omega
      rw [e2]
      have hb1 := page_find_name_index_block s d name (0 + 1)
        (((s.inodes d).size / 52).toNat - 78) 0 (le_refl _) (by omega)
      simp only [zero_add, mul_one, add_zero] at hb1
      simp only [zero_add]
      rw [hb1]
      cases hf1 : dir_find s d name (((s.inodes d).size / 52).toNat - 78) 78 with
      | none =>
        simp only
        rw [if_neg (by decide), directory_delete_find_zero]
        rfl
      | some j =>
        obtain ⟨j0, j1, _, _⟩ := dir_find_some hf1
        simp only
        rw [if_pos (show j - 78 ≥ 0 by omega)]
        have e1 : j / 78 = 1 := by omega
        have e2 : j % 78 = j - 78 := by omega
        rw [e1, e2]

/-! ## directory_delete as an equation -/

theorem dir_num_ents (s : FS) (d : Int) (hwf : dir_wf s d) :
    to_int (to_size_t (s.inodes d).size / sizeof_dirent) = dir_count s d := by
  have h0 := hwf.1.1
  have h1 := hwf.2.2
  have hS : sizeof_dirent = 52 := rfl
  rw [hS] at h1
  unfold dir_count
  rw [to_size_t_of_range h0 (by omega), hS]
  exact to_int_of_range (by omega) (by omega)

/-- The two-discriminant `match` of `directory_delete` when both pages are
there. -/
theorem directory_delete_match_some {α : Type} (o1 o2 : Option Int) (a b : Int)
    (F : Int → Int → α) (G : Option Int → Option Int → α) (h1 : o1 = some a) (h2 : o2 = some b) :
    directory_delete.match_1 (fun _ _ => α) o1 o2 F G = F a b := by
  subst h1; subst h2; rfl

/-- `directory_delete` once the scan found the dirent `find` of page `cp`. -/
theorem directory_delete_unfold (s : FS) (d : Int) (name : List Nat) (cp lp find node : Int)
    (hn : to_int (to_size_t (s.inodes d).size / sizeof_dirent) ≠ 0)
    (h2 : directory_delete_find s d name (directory_num_pages s d).toNat 0 none 0
      = .ok (some cp, find))
    (hf : ¬ find < 0)
    (h3 : inode_get_page s d (directory_num_pages s d - 1) = some lp)
    (h4 : get_inode (dirent_inum s.mem (dirent_addr cp find)) = some node) :
    directory_delete s d name
      = if (free_inode s node).1 ≠ 0 then some ((free_inode s node).1, (free_inode s node).2)
        else some (shrink_inode
          (delete_entry (free_inode s node).2 (dirent_addr cp find)
            (dirent_addr lp (directory_page_length s d (directory_num_pages s d - 1) - 1)))
          d sizeof_dirent) := by
  delta directory_delete
  rw [if_neg hn, h2]
  show (if find < 0 then _ else directory_delete.match_1 _ _ _ _ _) = _
  rw [if_neg hf, directory_delete_match_some
    (inode_get_page s d (directory_num_pages s d - 1)) (some cp) lp cp _ _ h3 rfl]
  with_reducible (conv => lhs; whnf)
  rw [h4]
  rfl

/-- `directory_delete` of a name whose first dirent is dirent `j`: the
reference of the inode is dropped, the last dirent moves to dirent `j`, and
the directory shrinks by one dirent. -/
theorem directory_delete_eq (s : FS) (d : Int) (name : List Nat) (j : Int) (hwf : dir_wf s d)
    (h : dir_find s d name (dir_count s d).toNat 0 = some j)
    (hv : ent_inum s d j < num_inodes) :
    directory_delete s d name
      = if (free_inode s (ent_inum s d j)).1 ≠ 0 then
          some ((free_inode s (ent_inum s d j)).1, (free_inode s (ent_inum s d j)).2)
        else
          some (shrink_inode
            (delete_entry (free_inode s (ent_inum s d j)).2 (ent_addr s d j)
              (ent_addr s d (dir_count s d - 1))) d sizeof_dirent) := by
  obtain ⟨j0, j1, _, _⟩ := dir_find_some h
  have hw := hwf.1
  have hsz0 := hwf.1.1
  have hm := hwf.2.1
  have hs := hwf.2.2
  have hS : sizeof_dirent = 52 := rfl
  have hcnt : dir_count s d = (s.inodes d).size / 52 := rfl
  obtain ⟨d1, d2, d3, _⟩ := dir_sizes s d hsz0 hm hs
  rw [hS] at hm hs
  have hn : 1 ≤ dir_count s d := by omega
  have hbp : bytes_to_pages (s.inodes d).size = ((s.inodes d).size + 4095) / 4096 := by
    unfold bytes_to_pages; rfl
  have hP1 : 1 ≤ bytes_to_pages (s.inodes d).size := by rw [hbp]; omega
  have hP2 : bytes_to_pages (s.inodes d).size ≤ 2 := by rw [hbp]; omega
  -- the last dirent
  have hlast_page : (dir_count s d - 1) / 78 = bytes_to_pages (s.inodes d).size - 1 := by
    rw [hbp, hcnt]
    have hc : ((s.inodes d).size / 52 - 1) / 78 = 0 ∨ ((s.inodes d).size / 52 - 1) / 78 = 1 := by
      omega
    rcases hc with hc | hc <;> omega
  have hlast_ind : directory_page_length s d (bytes_to_pages (s.inodes d).size - 1) - 1
      = (dir_count s d - 1) % 78 := by
    rw [directory_page_length_eq s d _ hsz0 hs, hbp, hcnt]
    have hc : (s.inodes d).size / 4096 = 0 ∨ (s.inodes d).size / 4096 = 1 := by omega
    rcases hc with hc | hc
    · rw [hc]
      have : ¬ (((s.inodes d).size + 4095) / 4096 - 1 < 0) := by omega
      rw [if_neg this]
      omega
    · rw [hc]
      have : ¬ (((s.inodes d).size + 4095) / 4096 - 1 < 1) := by omega
      rw [if_neg this]
      omega
  have hlast : dirent_addr (pages_get_page (page_at s d (bytes_to_pages (s.inodes d).size - 1)))
      (directory_page_length s d (bytes_to_pages (s.inodes d).size - 1) - 1)
      = ent_addr s d (dir_count s d - 1) := by
    unfold ent_addr
    rw [ents_per_page_eq, hlast_page, hlast_ind]
  have hrem : dirent_addr (pages_get_page (page_at s d (j / 78))) (j % 78) = ent_addr s d j := by
    unfold ent_addr
    rw [ents_per_page_eq]
  have hgi : get_inode (dirent_inum s.mem (ent_addr s d j)) = some (ent_inum s d j) := by
    unfold get_inode
    exact if_neg (not_le.2 hv)
  have h2 := directory_delete_find_spec s d name hwf hn
  rw [h] at h2
  have h3 := inode_get_page_wf hw (bytes_to_pages (s.inodes d).size - 1) (by omega) (by omega)
  rw [← d3] at h3
  rw [← hrem] at hgi
  have key := directory_delete_unfold s d name _ _ (j % 78) _
    (by rw [dir_num_ents s d hwf]; omega) h2 (by omega) h3 hgi
  rw [key, d3, hlast, hrem]

/-! ## Shrinking a directory: what changes -/

theorem page_at_zero (s : FS) (d : Int) : page_at s d 0 = (s.inodes d).ptrs0 := by
  unfold page_at slot_page
  rw [if_pos rfl]

theorem page_at_one (s : FS) (d : Int) : page_at s d 1 = (s.inodes d).ptrs1 := by
  unfold page_at slot_page
  rw [if_neg (by decide), if_pos rfl]

/-- What `shrink_inode` by one dirent does to a directory without indirect
page: the size drops by one dirent, the page that is no longer needed is
freed and its pointer zeroed, and nothing else changes. -/
theorem shrink_dir_facts (u : FS) (d : Int) (hwf : dir_wf u d) (hI : (u.inodes d).iptr = 0)
    (hsz : 52 ≤ (u.inodes d).size) :
    ∃ t, shrink_inode u d 52 = (0, t)
      ∧ t.mem = u.mem ∧ t.inode_bitmap = u.inode_bitmap
      ∧ (∀ i, i ≠ d → t.inodes i = u.inodes i)
      ∧ (t.inodes d).size = (u.inodes d).size - 52
      ∧ (t.inodes d).refs = (u.inodes d).refs ∧ (t.inodes d).mode = (u.inodes d).mode
      ∧ (t.inodes d).iptr = 0
      ∧ (∀ i : Int, 0 ≤ i → i < bytes_to_pages ((u.inodes d).size - 52) →
          page_at t d i = page_at u d i)
      ∧ ((t.inodes d).ptrs0 = 0 ↔ bytes_to_pages ((u.inodes d).size - 52) < 1)
      ∧ ((t.inodes d).ptrs1 = 0 ↔ bytes_to_pages ((u.inodes d).size - 52) < 2)
      ∧ (∀ x : Nat, (∀ i : Nat, i < (bytes_to_pages (u.inodes d).size).toNat →
            (x : Int) ≠ page_at u d i) →
          bitmap_get t.pages_bitmap x = bitmap_get u.pages_bitmap x)
      ∧ (∀ i : Int, 0 ≤ i → i < bytes_to_pages ((u.inodes d).size - 52) →
          page_ok t (page_at u d i))
      ∧ (∀ x : Nat, bitmap_get t.pages_bitmap x = 1 → bitmap_get u.pages_bitmap x = 1) := by
  have heq := shrink_dir_eq u d hwf hI hsz
  obtain ⟨q0, q1⟩ := dir_pages_le2 hwf
  have hwf1 := hwf.1
  obtain ⟨⟨w1, w2, w3, w4, w5, w6, w7, w8, w9⟩, hm, hs⟩ := hwf
  have hS : sizeof_dirent = 52 := rfl
  rw [hS] at hm hs
  have hbp : bytes_to_pages (u.inodes d).size = ((u.inodes d).size + 4095) / 4096 := by
    unfold bytes_to_pages; rfl
  have hbq : bytes_to_pages ((u.inodes d).size - 52) = ((u.inodes d).size - 52 + 4095) / 4096 := by
    unfold bytes_to_pages; rfl
  have h17 : inode_end_page = 17 := rfl
  by_cases hsame : bytes_to_pages ((u.inodes d).size - 52) = bytes_to_pages (u.inodes d).size
  · rw [if_pos hsame] at heq
    have hd : (u.set_inode d { u.inodes d with size := (u.inodes d).size - 52 }).inodes d
        = { u.inodes d with size := (u.inodes d).size - 52 } := by simp [FS.set_inode]
    refine ⟨_, heq, rfl, rfl, ?_, ?_, ?_, ?_, ?_, ?_, ?_, ?_, ?_, ?_, ?_⟩
    · intro i hi; simp [FS.set_inode, hi]
    · rw [hd]
    · rw [hd]
    · rw [hd]
    · rw [hd]; exact hI
    · intro i hi0 hi1
      exact page_at_lt2 u _ d i hi0 (by omega) (by rw [hd]) (by rw [hd])
    · rw [hd, hsame]; exact w3
    · rw [hd, hsame]; exact w4
    · intro x _; rfl
    · intro i hi0 hi1
      exact (wf_pages hwf1 i hi0 (by omega)).1
    · intro x hx; exact hx
  · rw [if_neg hsame] at heq
    by_cases h2 : bytes_to_pages (u.inodes d).size = 2
    · rw [if_pos h2] at heq
      have hq1 : bytes_to_pages ((u.inodes d).size - 52) = 1 := by
        rw [hbp] at h2 hsame; rw [hbq] at hsame ⊢; omega
      have hd : (((free_page u (u.inodes d).ptrs1).set_inode d
            { u.inodes d with ptrs1 := 0 }).set_inode d
            { ((free_page u (u.inodes d).ptrs1).set_inode d
                { u.inodes d with ptrs1 := 0 }).inodes d with
              size := (u.inodes d).size - 52 }).inodes d
          = { u.inodes d with ptrs1 := 0, size := (u.inodes d).size - 52 } := by
        simp [FS.set_inode]
      have hp0 := wf_pages hwf1 0 (le_refl _) (by omega)
      have hp1 := wf_pages hwf1 1 (by decide) (by omega)
      have hne := wf_inj hwf1 1 0 (le_refl _) (by decide) (by omega)
      rw [page_at_zero] at hp0 hne
      rw [page_at_one] at hp1 hne
      have hr1 := hp1.1.1
      have hr0 := hp0.1.1
      refine ⟨_, heq, rfl, rfl, ?_, ?_, ?_, ?_, ?_, ?_, ?_, ?_, ?_, ?_, ?_⟩
      · intro i hi; simp only [FS.set_inode, hi, if_false]; rfl
      · rw [hd]
      · rw [hd]
      · rw [hd]
      · rw [hd]; exact hI
      · intro i hi0 hi1
        have hi : i = 0 := by omega
        subst hi
        rw [page_at_zero, page_at_zero, hd]
      · rw [hd, hq1]
        constructor
        · intro h0; exact absurd h0 (page_ok_ne_zero hp0.1)
        · intro hlt; omega
      · rw [hd, hq1]
        constructor
        · intro _; decide
        · intro _; rfl
      · intro x hx
        have hx1 := hx 1 (by omega)
        rw [Nat.cast_one, page_at_one] at hx1
        show bitmap_get (bitmap_put u.pages_bitmap (u.inodes d).ptrs1.toNat 0) x = _
        apply bitmap_get_put_other
        omega
      · intro i hi0 hi1
        have hi : i = 0 := by omega
        subst hi
        rw [page_at_zero]
        refine ⟨hp0.1.1, hp0.1.2.1, ?_⟩
        show bitmap_get (bitmap_put u.pages_bitmap (u.inodes d).ptrs1.toNat 0) _ = 1
        rw [bitmap_get_put_other _ _ _ _ (by omega)]
        exact hp0.1.2.2
      · intro x hx
        exact free_page_bit_mono _ _ _ hx
    · rw [if_neg h2] at heq
      have hq1 : bytes_to_pages ((u.inodes d).size - 52) = 0 := by
        rw [hbp] at h2 hsame; rw [hbq] at hsame ⊢; omega
      have hb1 : bytes_to_pages (u.inodes d).size = 1 := by
        rw [hbp] at h2 hsame ⊢; rw [hbq] at hsame; omega
      have hd : (((free_page u (u.inodes d).ptrs0).set_inode d
            { u.inodes d with ptrs0 := 0 }).set_inode d
            { ((free_page u (u.inodes d).ptrs0).set_inode d
                { u.inodes d with ptrs0 := 0 }).inodes d with
              size := (u.inodes d).size - 52 }).inodes d
          = { u.inodes d with ptrs0 := 0, size := (u.inodes d).size - 52 } := by
        simp [FS.set_inode]
      have hp0 := wf_pages hwf1 0 (le_refl _) (by omega)
      rw [page_at_zero] at hp0
      have hr0 := hp0.1.1
      have hz1 : (u.inodes d).ptrs1 = 0 := w4.2 (by omega)
      refine ⟨_, heq, rfl, rfl, ?_, ?_, ?_, ?_, ?_, ?_, ?_, ?_, ?_, ?_, ?_⟩
      · intro i hi; simp only [FS.set_inode, hi, if_false]; rfl
      · rw [hd]
      · rw [hd]
      · rw [hd]
      · rw [hd]; exact hI
      · intro i hi0 hi1
        omega
      · rw [hd, hq1]
        constructor
        · intro _; decide
        · intro _; rfl
      · rw [hd, hq1]
        constructor
        · intro _; decide
        · intro _; exact hz1
      · intro x hx
        have hx1 := hx 0 (by omega)
        rw [Nat.cast_zero, page_at_zero] at hx1
        show bitmap_get (bitmap_put u.pages_bitmap (u.inodes d).ptrs0.toNat 0) x = _
        apply bitmap_get_put_other
        omega
      · intro i hi0 hi1
        omega
      · intro x hx
        exact free_page_bit_mono _ _ _ hx

/-! ## directory_delete among the directories of a volume -/

/-- Directories that are all left alone are still in order. -/
theorem dirs_ok_of_same {s r : FS} {D : List Int} (hD : dirs_ok s D)
    (h : ∀ e ∈ D, dir_same s r e) : dirs_ok r D := by
  intro e he
  have hse := h e he
  refine ⟨dir_same_ok (hD e he).1 hse, ?_⟩
  intro e2 he2 hne i hi
  rw [hse.1] at hi
  obtain ⟨q0, q1⟩ := dir_pages_le2 (hD e he).1.1
  rw [page_at_lt2 s r e i (by omega) (by omega) hse.2.1 hse.2.2.1]
  exact foreign_same (hD e2 he2).1.1 (h e2 he2) ((hD e he).2 e2 he2 hne i hi)
    (hse.2.2.2.2 i hi).1

/-- Dropping a reference of an inode leaves the directories of `D` alone,
when references remain or when the inode is none of them and points to none
of their pages. -/
theorem free_inode_dirs (s : FS) (D : List Int) (v : Int) (hD : dirs_ok s D)
    (hv0 : 0 < v) (hvN : v < num_inodes)
    (hv : 0 < to_int ((s.inodes v).refs - 1)
      ∨ (v ∉ D ∧ ∀ e ∈ D, ∀ i : Nat, i < (bytes_to_pages (s.inodes e).size).toNat →
            ¬ owns s v (page_at s e i))) :
    ∃ r, free_inode s v = (0, r) ∧ free_frame s v r ∧ (∀ e ∈ D, dir_same s r e)
      ∧ dirs_ok r D := by
  obtain ⟨r, hr, hfr⟩ := free_inode_frame s v hv0 hvN
  have hfr' := hfr
  obtain ⟨f1, f2, f3, f4, f5, f6, f7, f8⟩ := hfr
  have hsame : ∀ e ∈ D, dir_same s r e := by
    intro e he
    have hwe := (hD e he).1.1
    obtain ⟨q0, q1⟩ := dir_pages_le2 hwe
    rcases hv with hpos | ⟨hnD, hown⟩
    · have hrs := f4 hpos
      have hfe : (r.inodes e).size = (s.inodes e).size ∧ (r.inodes e).ptrs0 = (s.inodes e).ptrs0
          ∧ (r.inodes e).ptrs1 = (s.inodes e).ptrs1 ∧ (r.inodes e).iptr = (s.inodes e).iptr := by
        rw [hrs]
        by_cases hev : e = v
        · subst hev; simp [FS.set_inode]
        · simp [FS.set_inode, hev]
      refine ⟨hfe.1, hfe.2.1, hfe.2.2.1, hfe.2.2.2, ?_⟩
      intro i hi
      have hp := (wf_pages hwe.1 i (Int.natCast_nonneg i) (Int.lt_toNat.1 hi)).1
      refine ⟨⟨hp.1, hp.2.1, ?_⟩, ?_⟩
      · rw [hrs]; exact hp.2.2
      · intro a _; rw [hrs]; rfl
    · have hev : e ≠ v := fun h => hnD (h ▸ he)
      have hre := f1 e hev
      refine ⟨by rw [hre], by rw [hre], by rw [hre], by rw [hre], ?_⟩
      intro i hi
      have hp := (wf_pages hwe.1 i (Int.natCast_nonneg i) (Int.lt_toNat.1 hi)).1
      have hno := hown e he i hi
      have h17 : inode_end_page = 17 := rfl
      have hp1 := hp.1
      refine ⟨⟨hp.1, hp.2.1, ?_⟩, ?_⟩
      · have hb := f8 (page_at s e i).toNat (by omega)
          (by rw [Int.toNat_of_nonneg (by omega)]; exact hno)
        rw [hb]; exact hp.2.2
      · intro a ha
        apply f6
        intro hin
        apply hno
        left
        exact in_page_disjoint ha hin
  exact ⟨r, hr, hfr', hsame, dirs_ok_of_same hD hsame⟩

theorem delete_entry_mem (u : FS) (A L a : Int) :
    (delete_entry u A L).mem a
      = if L ≤ a ∧ a < L + 52 then 0
        else if A ≤ a ∧ a < A + 52 then u.mem (L + (a - A)) else u.mem a := rfl

theorem streq_mem_congr2 (m1 m2 : Int → Nat) (a1 a2 : Int) (name : List Nat)
    (h : ∀ k : Int, 0 ≤ k → k ≤ name.length → m1 (a1 + k) = m2 (a2 + k)) :
    streq_mem m1 a1 name = streq_mem m2 a2 name := by
  induction name generalizing a1 a2 with
  | nil =>
    unfold streq_mem
    have := h 0 (le_refl _) (by simp)
    simp only [add_zero] at this
    rw [this]
  | cons c cs ih =>
    unfold streq_mem
    have h0 := h 0 (le_refl _) (by simp only [List.length_cons]; push_cast; omega)
    simp only [add_zero] at h0
    rw [h0, ih (a1 + 1) (a2 + 1)]
    intro k hk0 hk1
    have := h (1 + k) (by omega) (by simp only [List.length_cons]; push_cast; omega)
    rw [← add_assoc, ← add_assoc] at this
    exact this

theorem read_int_congr2 {m1 m2 : Int → Nat} {a1 a2 : Int}
    (h : ∀ k : Int, 0 ≤ k → k < 4 → m1 (a1 + k) = m2 (a2 + k)) :
    read_int m1 a1 = read_int m2 a2 := by
  unfold read_int
  have h0 := h 0 (by omega) (by omega)
  have h1 := h 1 (by omega) (by omega)
  have h2 := h 2 (by omega) (by omega)
  have h3 := h 3 (by omega) (by omega)
  simp only [add_zero] at h0
  rw [h0, h1, h2, h3]

/-- Two dirents with the same 52 bytes carry the same names and the same
inum. -/
theorem ent_congr2 (s t : FS) (d e i j : Int)
    (hmem : ∀ k : Int, 0 ≤ k → k < 52 → t.mem (ent_addr t e i + k) = s.mem (ent_addr s d j + k)) :
    (∀ name : List Nat, (name.length : Int) < DIR_NAME →
        ent_named t e i name = ent_named s d j name)
    ∧ ent_inum t e i = ent_inum s d j := by
  have hD : DIR_NAME = 48 := rfl
  constructor
  · intro name hlen
    rw [hD] at hlen
    unfold ent_named
    apply streq_mem_congr2
    intro k hk0 hk1
    exact hmem k hk0 (by omega)
  · unfold ent_inum dirent_inum
    rw [hD]
    apply read_int_congr2
    intro k hk0 hk1
    have := hmem (48 + k) (by omega) (by omega)
    rw [← add_assoc, ← add_assoc] at this
    exact this

/-- A directory keeps its invariants in a state in which its record has the
same size and pointers and its pages are still allocated. -/
theorem dir_wf_fields {s t : FS} {d : Int} (hwf : dir_wf s d) (hI : (s.inodes d).iptr = 0)
    (a1 : (t.inodes d).size = (s.inodes d).size) (a2 : (t.inodes d).ptrs0 = (s.inodes d).ptrs0)
    (a3 : (t.inodes d).ptrs1 = (s.inodes d).ptrs1) (a4 : (t.inodes d).iptr = (s.inodes d).iptr)
    (hok : ∀ i : Nat, i < (bytes_to_pages (s.inodes d).size).toNat → page_ok t (page_at s d i)) :
    dir_wf t d := by
  obtain ⟨q0, q1⟩ := dir_pages_le2 hwf
  obtain ⟨⟨w1, w2, w3, w4, w5, w6, w7, w8, w9⟩, hm, hs⟩ := hwf
  have hpa : ∀ i : Nat, i < (bytes_to_pages (s.inodes d).size).toNat →
      page_at t d i = page_at s d i := by
    intro i hi
    exact page_at_lt2 s t d i (by omega) (by omega) a2 a3
  refine ⟨?_, by rw [a1]; exact hm, by rw [a1]; exact hs⟩
  unfold inode_wf
  rw [a1, a2, a3, a4]
  refine ⟨w1, w2, w3, w4, w5, fun hne => absurd hI hne, fun hne => absurd hI hne, ?_, ?_⟩
  · intro i hi
    rw [hpa i hi, hI]
    exact ⟨hok i hi, page_ok_ne_zero (hok i hi)⟩
  · intro i hi j hj
    rw [hpa i hi, hpa j (by omega)]
    exact w9 i hi j hj

/-! ## Moving the last dirent and shrinking the directory -/

theorem in_page_of_range {p a base k : Int} (h : in_page p (base + k)) (e : base + k = a) :
    in_page p a := e ▸ h

/-- The part of `directory_delete` that follows `free_inode`, in a set of
directories in order: dirent `j` of `d` is replaced by the last dirent, the
directory has one dirent less, and the other directories are left alone. -/
theorem delete_entry_dirs (r : FS) (D : List Int) (d : Int) (j : Int)
    (hD : dirs_ok r D) (hd : d ∈ D) (hj0 : 0 ≤ j) (hj : j < dir_count r d) :
    ∃ t, shrink_inode (delete_entry r (ent_addr r d j) (ent_addr r d (dir_count r d - 1))) d 52
        = (0, t)
      ∧ dirs_ok t D
      ∧ (∀ e ∈ D, e ≠ d → dir_same r t e)
      ∧ dir_count t d = dir_count r d - 1
      ∧ (∀ i : Int, 0 ≤ i → i < dir_count r d - 1 →
          ∀ c : Int, 0 ≤ c → c < 52 →
            t.mem (ent_addr t d i + c)
              = r.mem (ent_addr r d (if i = j then dir_count r d - 1 else i) + c))
      ∧ t.inode_bitmap = r.inode_bitmap
      ∧ (∀ i, i ≠ d → t.inodes i = r.inodes i)
      ∧ (t.inodes d).refs = (r.inodes d).refs ∧ (t.inodes d).mode = (r.inodes d).mode
      ∧ (∀ a : Int, (∀ i : Nat, i < (bytes_to_pages (r.inodes d).size).toNat →
            ¬ in_page (page_at r d i) a) → t.mem a = r.mem a)
      ∧ (∀ x : Nat, (∀ i : Nat, i < (bytes_to_pages (r.inodes d).size).toNat →
            (x : Int) ≠ page_at r d i) →
          bitmap_get t.pages_bitmap x = bitmap_get r.pages_bitmap x)
      ∧ (∀ x : Nat, bitmap_get t.pages_bitmap x = 1 → bitmap_get r.pages_bitmap x = 1) := by
  obtain ⟨hwf, hI, hents⟩ := (hD d hd).1
  have hS : sizeof_dirent = 52 := rfl
  have hcnt : dir_count r d = (r.inodes d).size / 52 := rfl
  have hsz0 : 0 ≤ (r.inodes d).size := hwf.1.1
  have hm : (r.inodes d).size % 52 = 0 := hwf.2.1
  have hs : (r.inodes d).size ≤ 156 * 52 := hwf.2.2
  obtain ⟨q0, q1⟩ := dir_pages_le2 hwf
  have hbp : bytes_to_pages (r.inodes d).size = ((r.inodes d).size + 4095) / 4096 := by
    unfold bytes_to_pages; rfl
  have hbq : bytes_to_pages ((r.inodes d).size - 52) = ((r.inodes d).size - 52 + 4095) / 4096 := by
    unfold bytes_to_pages; rfl
  have hsz52 : 52 ≤ (r.inodes d).size := by rw [hcnt] at hj; omega
  have hq2 : bytes_to_pages ((r.inodes d).size - 52) ≤ bytes_to_pages (r.inodes d).size := by
    rw [hbp, hbq]; omega
  have hq0 : 0 ≤ bytes_to_pages ((r.inodes d).size - 52) := by
    rw [hbq]; omega
  have hn1 : 0 ≤ dir_count r d - 1 := by omega
  have hn2 : dir_count r d - 1 < dir_count r d := by omega
  obtain ⟨pl0, pl1⟩ := ent_page_lt hwf (dir_count r d - 1) hn1 hn2
  obtain ⟨pj0, pj1⟩ := ent_page_lt hwf j hj0 hj
  -- the state with the dirent moved
  have hum0 : ∀ a : Int, (delete_entry r (ent_addr r d j) (ent_addr r d (dir_count r d - 1))).mem a
      = if ent_addr r d (dir_count r d - 1) ≤ a ∧ a < ent_addr r d (dir_count r d - 1) + 52 then 0
        else if ent_addr r d j ≤ a ∧ a < ent_addr r d j + 52 then
          r.mem (ent_addr r d (dir_count r d - 1) + (a - ent_addr r d j))
        else r.mem a :=
    fun a => delete_entry_mem r _ _ a
  have hui : (delete_entry r (ent_addr r d j) (ent_addr r d (dir_count r d - 1))).inodes
      = r.inodes := rfl
  have hub : (delete_entry r (ent_addr r d j) (ent_addr r d (dir_count r d - 1))).pages_bitmap
      = r.pages_bitmap := rfl
  have huib : (delete_entry r (ent_addr r d j) (ent_addr r d (dir_count r d - 1))).inode_bitmap
      = r.inode_bitmap := rfl
  generalize delete_entry r (ent_addr r d j) (ent_addr r d (dir_count r d - 1)) = u
    at hum0 hui hub huib ⊢
  have hpau : ∀ i : Int, 0 ≤ i → i < 2 → page_at u d i = page_at r d i :=
    fun i h0 h2 => page_at_lt2 r u d i h0 h2 (by rw [hui]) (by rw [hui])
  have hwfu : dir_wf u d :=
    dir_wf_fields hwf hI (by rw [hui]) (by rw [hui]) (by rw [hui]) (by rw [hui])
      (fun i hi => by
        have hp := (wf_pages hwf.1 i (Int.natCast_nonneg i) (Int.lt_toNat.1 hi)).1
        exact ⟨hp.1, hp.2.1, by rw [hub]; exact hp.2.2⟩)
  have hIu : (u.inodes d).iptr = 0 := by rw [hui]; exact hI
  have hszu : 52 ≤ (u.inodes d).size := by rw [hui]; exact hsz52
  obtain ⟨t, g1, g2, g3, g4, g5, g6, g7, g8, g9, g10, g11, g12, g13, g14⟩ :=
    shrink_dir_facts u d hwfu hIu hszu
  rw [hui] at g5 g6 g7 g9 g10 g11 g12 g13
  -- bytes outside the pages of the directory
  have hout : ∀ a : Int, (∀ i : Nat, i < (bytes_to_pages (r.inodes d).size).toNat →
      ¬ in_page (page_at r d i) a) → u.mem a = r.mem a := by
    intro a ha
    rw [hum0 a]
    have hL : ¬ (ent_addr r d (dir_count r d - 1) ≤ a
        ∧ a < ent_addr r d (dir_count r d - 1) + 52) := by
      intro hc
      have hin := ent_in_page r d (dir_count r d - 1) (a - ent_addr r d (dir_count r d - 1))
        (by omega) (by omega)
      have hin2 := in_page_of_range hin (by omega : _ = a)
      have := ha ((dir_count r d - 1) / 78).toNat (by omega)
      rw [Int.toNat_of_nonneg pl0] at this
      exact this hin2
    have hA : ¬ (ent_addr r d j ≤ a ∧ a < ent_addr r d j + 52) := by
      intro hc
      have hin := ent_in_page r d j (a - ent_addr r d j) (by omega) (by omega)
      have hin2 := in_page_of_range hin (by omega : _ = a)
      have := ha (j / 78).toNat (by omega)
      rw [Int.toNat_of_nonneg pj0] at this
      exact this hin2
    rw [if_neg hL, if_neg hA]
  -- the directory after the call
  have hcntT : dir_count t d = dir_count r d - 1 := by
    unfold dir_count
    rw [g5, hS]
    omega
  have hwft : dir_wf t d := by
    refine ⟨?_, by rw [g5, hS]; omega, by rw [g5, hS]; omega⟩
    unfold inode_wf
    rw [g5]
    refine ⟨by omega, by omega, g10, g11, fun h3 => absurd h3 (by omega),
      fun hne => absurd g8 hne, fun hne => absurd g8 hne, ?_, ?_⟩
    · intro i hi
      rw [g9 i (Int.natCast_nonneg i) (Int.lt_toNat.1 hi), g8]
      have hp := g13 i (Int.natCast_nonneg i) (Int.lt_toNat.1 hi)
      exact ⟨hp, page_ok_ne_zero hp⟩
    · intro i hi k hk
      have hi2 := Int.lt_toNat.1 hi
      rw [g9 i (Int.natCast_nonneg i) hi2, g9 k (Int.natCast_nonneg k) (by omega),
        hpau i (Int.natCast_nonneg i) (by omega), hpau k (Int.natCast_nonneg k) (by omega)]
      exact hwf.1.2.2.2.2.2.2.2.2 i (by omega) k hk
  have hea : ∀ i : Int, 0 ≤ i → i < dir_count r d - 1 → ent_addr t d i = ent_addr r d i := by
    intro i hi0 hi1
    obtain ⟨p0, p1⟩ := ent_page_lt hwft i hi0 (by rw [hcntT]; exact hi1)
    rw [g5] at p1
    unfold ent_addr
    rw [ents_per_page_eq, g9 _ p0 p1, hpau _ p0 (by omega)]
  have hbytes : ∀ i : Int, 0 ≤ i → i < dir_count r d - 1 →
      ∀ c : Int, 0 ≤ c → c < 52 →
        t.mem (ent_addr t d i + c)
          = r.mem (ent_addr r d (if i = j then dir_count r d - 1 else i) + c) := by
    intro i hi0 hi1 c hc0 hc1
    rw [hea i hi0 hi1, g2, hum0]
    have hdl := ent_disjoint hwf i (dir_count r d - 1) hi0 (by omega) hn1 hn2 (by omega)
    rw [if_neg (by omega)]
    by_cases hij : i = j
    · rw [if_pos hij]
      subst hij
      rw [if_pos ⟨by omega, by omega⟩]
      congr 1
      omega
    · rw [if_neg hij]
      have hdj := ent_disjoint hwf i j hi0 (by omega) hj0 hj hij
      rw [if_neg (by omega)]
  have hokd : dir_ok t d := by
    refine ⟨hwft, g8, ?_⟩
    intro i hi
    rw [hcntT] at hi
    have hi1 : (i : Int) < dir_count r d - 1 := Int.lt_toNat.1 hi
    rw [(ent_congr2 r t d d i _ (hbytes i (Int.natCast_nonneg i) hi1)).2]
    have hk : 0 ≤ (if (i : Int) = j then dir_count r d - 1 else (i : Int))
        ∧ (if (i : Int) = j then dir_count r d - 1 else (i : Int)) < dir_count r d := by
      by_cases hij : (i : Int) = j
      · rw [if_pos hij]; exact ⟨hn1, hn2⟩
      · rw [if_neg hij]; exact ⟨Int.natCast_nonneg i, by omega⟩
    have := hents (if (i : Int) = j then dir_count r d - 1 else (i : Int)).toNat
      (by omega)
    rw [Int.toNat_of_nonneg hk.1] at this
    exact this
  have hokT : ∀ e ∈ D, e ≠ d → ∀ i : Nat, i < (bytes_to_pages (r.inodes e).size).toNat →
      page_ok t (page_at r e i) := by
    intro e he hne i hi
    have hfor := (hD e he).2 d hd (Ne.symm hne) i hi
    have h17 : inode_end_page = 17 := rfl
    have h1 := hfor.1.1
    refine ⟨hfor.1.1, hfor.1.2.1, ?_⟩
    rw [g12 (page_at r e i).toNat, hub]
    · exact hfor.1.2.2
    · intro k hk
      rw [Int.toNat_of_nonneg (by omega), hpau k (Int.natCast_nonneg k) (by omega)]
      exact hfor.2.2 k hk
  have hsame : ∀ e ∈ D, e ≠ d → dir_same r t e := by
    intro e he hne
    have hte : t.inodes e = r.inodes e := by rw [g4 e hne, hui]
    refine ⟨by rw [hte], by rw [hte], by rw [hte], by rw [hte], ?_⟩
    intro i hi
    refine ⟨hokT e he hne i hi, ?_⟩
    intro a ha
    rw [g2]
    apply hout
    intro k hk hin
    have hfor := (hD e he).2 d hd (Ne.symm hne) i hi
    exact hfor.2.2 k hk (in_page_disjoint ha hin)
  refine ⟨t, g1, ?_, hsame, hcntT, hbytes, by rw [g3, huib], ?_, by rw [g6], by rw [g7], ?_,
    ?_, ?_⟩
  · -- the directories are still in order
    intro e he
    by_cases hed : e = d
    · subst hed
      refine ⟨hokd, ?_⟩
      intro e2 he2 hne i hi
      rw [g5] at hi
      have hi2 : (i : Int) < bytes_to_pages ((r.inodes e).size - 52) := Int.lt_toNat.1 hi
      rw [g9 i (Int.natCast_nonneg i) hi2, hpau i (Int.natCast_nonneg i) (by omega)]
      have hfs := (hD e he).2 e2 he2 hne i (by omega)
      have hpo := g13 i (Int.natCast_nonneg i) hi2
      rw [hpau i (Int.natCast_nonneg i) (by omega)] at hpo
      exact foreign_same (hD e2 he2).1.1 (hsame e2 he2 hne) hfs hpo
    · have hse := hsame e he hed
      refine ⟨dir_same_ok (hD e he).1 hse, ?_⟩
      intro e2 he2 hne i hi
      rw [hse.1] at hi
      obtain ⟨r0, r1⟩ := dir_pages_le2 (hD e he).1.1
      rw [page_at_lt2 r t e i (Int.natCast_nonneg i) (by omega) hse.2.1 hse.2.2.1]
      have hfs := (hD e he).2 e2 he2 hne i hi
      have hpt := (hse.2.2.2.2 i hi).1
      by_cases he2d : e2 = d
      · subst he2d
        refine ⟨hpt, by rw [g8]; exact page_ok_ne_zero hpt, ?_⟩
        intro k hk
        rw [g5] at hk
        have hk2 : (k : Int) < bytes_to_pages ((r.inodes e2).size - 52) := Int.lt_toNat.1 hk
        rw [g9 k (Int.natCast_nonneg k) hk2, hpau k (Int.natCast_nonneg k) (by omega)]
        exact hfs.2.2 k (by omega)
      · exact foreign_same (hD e2 he2).1.1 (hsame e2 he2 he2d) hfs hpt
  · intro i hi
    rw [g4 i hi, hui]
  · intro a ha
    rw [g2]
    exact hout a ha
  · intro x hx
    rw [g12 x, hub]
    intro k hk
    rw [hpau k (Int.natCast_nonneg k) (by omega)]
    exact hx k hk
  · intro x hx
    rw [← hub]
    exact g14 x hx

/-- The effect of `directory_delete` on a directory of a set of directories
in order, for a name that dirent `j` is the first to carry and whose inode
`v` keeps a reference or else is none of the directories and points to none
of their pages: it returns 0, the directories are still in order, the others
are left alone, and the directory has one dirent less, the last dirent having
taken the place of dirent `j`. -/
theorem directory_delete_dirs (s : FS) (D : List Int) (d : Int) (name : List Nat) (j v : Int)
    (hD : dirs_ok s D) (hd : d ∈ D)
    (hfind : dir_find s d name (dir_count s d).toNat 0 = some j)
    (hvj : ent_inum s d j = v)
    (hv : 0 < to_int ((s.inodes v).refs - 1)
      ∨ (v ∉ D ∧ ∀ e ∈ D, ∀ i : Nat, i < (bytes_to_pages (s.inodes e).size).toNat →
            ¬ owns s v (page_at s e i))) :
    ∃ t, directory_delete s d name = some (0, t)
      ∧ dirs_ok t D
      ∧ (∀ e ∈ D, e ≠ d → dir_same s t e)
      ∧ dir_count t d = dir_count s d - 1
      ∧ (∀ i : Int, 0 ≤ i → i < dir_count s d - 1 →
          (∀ c : List Nat, (c.length : Int) < DIR_NAME →
            ent_named t d i c = ent_named s d (if i = j then dir_count s d - 1 else i) c)
          ∧ ent_inum t d i = ent_inum s d (if i = j then dir_count s d - 1 else i))
      ∧ (∀ x : Nat, bitmap_get t.pages_bitmap x = 1 → bitmap_get s.pages_bitmap x = 1)
      ∧ (∀ i : Int, (t.inodes i).mode = (s.inodes i).mode
          ∧ (t.inodes i).refs
              = if i = v then to_int ((s.inodes i).refs - 1) else (s.inodes i).refs)
      ∧ (0 < to_int ((s.inodes v).refs - 1) →
          t.inode_bitmap = s.inode_bitmap
          ∧ (∀ i : Int, i ≠ d → (t.inodes i).size = (s.inodes i).size
              ∧ (t.inodes i).ptrs0 = (s.inodes i).ptrs0 ∧ (t.inodes i).ptrs1 = (s.inodes i).ptrs1
              ∧ (t.inodes i).iptr = (s.inodes i).iptr)
          ∧ (∀ a : Int, (∀ i : Nat, i < (bytes_to_pages (s.inodes d).size).toNat →
                ¬ in_page (page_at s d i) a) → t.mem a = s.mem a)
          ∧ (∀ x : Nat, (∀ i : Nat, i < (bytes_to_pages (s.inodes d).size).toNat →
                (x : Int) ≠ page_at s d i) →
              bitmap_get t.pages_bitmap x = bitmap_get s.pages_bitmap x)) := by
  obtain ⟨hwf, hI, hents⟩ := (hD d hd).1
  obtain ⟨j0, j1, _, _⟩ := dir_find_some hfind
  have hjn : j < dir_count s d := by clear hvj hv; omega
  have hn1 : 0 ≤ dir_count s d - 1 := by clear hvj hv; omega
  have hn2 : dir_count s d - 1 < dir_count s d := by clear hvj hv; omega
  have hvr := hents j.toNat (by clear hvj hv; omega)
  rw [Int.toNat_of_nonneg j0, hvj] at hvr
  have hdel := directory_delete_eq s d name j hwf hfind (by rw [hvj]; exact hvr.2)
  rw [hvj] at hdel
  clear hvj
  obtain ⟨r, hr, hfr, hsameR, hDr⟩ := free_inode_dirs s D v hD hvr.1 hvr.2 hv
  rw [hr] at hdel
  have hsd := hsameR d hd
  have hcr : dir_count r d = dir_count s d := by unfold dir_count; rw [hsd.1]
  have hpa : ∀ i : Int, 0 ≤ i → i < 2 → page_at r d i = page_at s d i :=
    fun i h0 h2 => page_at_lt2 s r d i h0 h2 hsd.2.1 hsd.2.2.1
  have hejs : ∀ i : Int, 0 ≤ i → i < dir_count s d → ent_addr r d i = ent_addr s d i
      ∧ ∀ k : Int, 0 ≤ k → k < 52 → r.mem (ent_addr s d i + k) = s.mem (ent_addr s d i + k) :=
    fun i h0 h1 => dir_same_ent hwf hsd i h0 h1
  have hdel2 : directory_delete s d name
      = some (shrink_inode
          (delete_entry r (ent_addr r d j) (ent_addr r d (dir_count r d - 1))) d 52) := by
    rw [hdel, hcr, (hejs j j0 hjn).1, (hejs _ hn1 hn2).1]
    exact if_neg (fun h => h rfl)
  obtain ⟨t, k1, k2, k3, k4, k5, k6, k7, k8, k9, k10, k11, k12⟩ :=
    delete_entry_dirs r D d j hDr hd j0 (by rw [hcr]; exact hjn)
  rw [k1] at hdel2
  rw [hcr] at k4 k5
  obtain ⟨f1, f2, f3, f4, f5, f6, f7, f8⟩ := hfr
  obtain ⟨q0, q1⟩ := dir_pages_le2 hwf
  refine ⟨t, hdel2, k2, ?_, k4, ?_, fun x hx => f7 x (k12 x hx), ?_, ?_⟩
  · intro e he hne
    exact dir_same_trans (hD e he).1.1 (hsameR e he) (k3 e he hne)
  · intro i hi0 hi1
    apply ent_congr2 s t d d i
    intro c hc0 hc1
    rw [k5 i hi0 hi1 c hc0 hc1]
    by_cases hij : i = j
    · rw [if_pos hij, (hejs _ hn1 hn2).1]
      exact (hejs _ hn1 hn2).2 c hc0 hc1
    · rw [if_neg hij, (hejs i hi0 (by omega)).1]
      exact (hejs i hi0 (by omega)).2 c hc0 hc1
  · intro i
    by_cases hid : i = d
    · subst hid
      rw [k9, k8]
      by_cases hiv : i = v
      · subst hiv
        rw [if_pos rfl]
        exact ⟨f3, f2⟩
      · rw [if_neg hiv, f1 i hiv]
        exact ⟨rfl, rfl⟩
    · rw [k7 i hid]
      by_cases hiv : i = v
      · subst hiv
        rw [if_pos rfl]
        exact ⟨f3, f2⟩
      · rw [if_neg hiv, f1 i hiv]
        exact ⟨rfl, rfl⟩
  · intro hpos
    have hrs := f4 hpos
    refine ⟨by rw [k6, hrs]; rfl, ?_, ?_, ?_⟩
    · intro i hid
      rw [k7 i hid, hrs]
      by_cases hiv : i = v
      · subst hiv; simp [FS.set_inode]
      · simp [FS.set_inode, hiv]
    · intro a ha
      rw [k10 a]
      · rw [hrs]; rfl
      · intro i hi
        rw [hsd.1] at hi
        rw [hpa i (Int.natCast_nonneg i) (by omega)]
        exact ha i hi
    · intro x hx
      rw [k11 x]
      · rw [hrs]; rfl
      · intro i hi
        rw [hsd.1] at hi
        rw [hpa i (Int.natCast_nonneg i) (by omega)]
        exact hx i hi

/-! ## Lookups after directory_delete -/

/-- A terminated string of the image equals at most one name. -/
theorem streq_mem_unique (m : Int → Nat) (a : Int) (n1 n2 : List Nat)
    (h1 : streq_mem m a n1 = true) (h2 : streq_mem m a n2 = true)
    (z1 : ∀ x ∈ n1, x ≠ 0) (z2 : ∀ x ∈ n2, x ≠ 0) : n1 = n2 := by
  induction n1 generalizing a n2 with
  | nil =>
    cases n2 with
    | nil => rfl
    | cons c cs =>
      unfold streq_mem at h1 h2
      simp only [Bool.and_eq_true, beq_iff_eq] at h1 h2
      exact absurd (h2.1.symm.trans h1) (z2 c (List.mem_cons_self _ _))
  | cons b bs ih =>
    cases n2 with
    | nil =>
      unfold streq_mem at h1 h2
      simp only [Bool.and_eq_true, beq_iff_eq] at h1 h2
      exact absurd (h1.1.symm.trans h2) (z1 b (List.mem_cons_self _ _))
    | cons c cs =>
      unfold streq_mem at h1 h2
      simp only [Bool.and_eq_true, beq_iff_eq] at h1 h2
      have hbc : b = c := h1.1.symm.trans h2.1
      have := ih (a + 1) cs h1.2 h2.2 (fun x hx => z1 x (List.mem_cons_of_mem _ hx))
        (fun x hx => z2 x (List.mem_cons_of_mem _ hx))
      rw [hbc, this]

theorem dir_find_eq_some {s : FS} {d : Int} {name : List Nat} {fuel : Nat} {j0 j : Int}
    (h1 : j0 ≤ j) (h2 : j < j0 + fuel) (h3 : ent_named s d j name = true)
    (h4 : ∀ i : Int, j0 ≤ i → i < j → ent_named s d i name = false) :
    dir_find s d name fuel j0 = some j := by
  induction fuel generalizing j0 with
  | zero => simp at h2; omega
  | succ n ih =>
    unfold dir_find
    by_cases hj : j0 = j
    · subst hj
      rw [if_pos h3]
    · have hf := h4 j0 (le_refl _) (by omega)
      rw [hf]
      simp only [Bool.false_eq_true, if_false]
      apply ih (by omega) (by push_cast at h2; omega)
      intro i hi0 hi1
      exact h4 i (by omega) hi1

theorem dir_find_eq_none {s : FS} {d : Int} {name : List Nat} {fuel : Nat} {j0 : Int}
    (h : ∀ i : Int, j0 ≤ i → i < j0 + fuel → ent_named s d i name = false) :
    dir_find s d name fuel j0 = none := by
  induction fuel generalizing j0 with
  | zero => rfl
  | succ n ih =>
    unfold dir_find
    rw [h j0 (le_refl _) (by push_cast; omega)]
    simp only [Bool.false_eq_true, if_false]
    apply ih
    intro i hi0 hi1
    exact h i (by omega) (by push_cast; omega)

/-- A name that the deleted dirent does not carry and that at most one
dirent carries resolves after `directory_delete` as before. -/
theorem lookup_delete_other (s t : FS) (d : Int) (name c : List Nat) (j : Int)
    (hs : dir_ok s d) (ht : dir_ok t d)
    (hcnt : dir_count t d = dir_count s d - 1)
    (hfind : dir_find s d name (dir_count s d).toNat 0 = some j)
    (hent : ∀ i : Int, 0 ≤ i → i < dir_count s d - 1 →
      (∀ c : List Nat, (c.length : Int) < DIR_NAME →
        ent_named t d i c = ent_named s d (if i = j then dir_count s d - 1 else i) c)
      ∧ ent_inum t d i = ent_inum s d (if i = j then dir_count s d - 1 else i))
    (hclen : (c.length : Int) < DIR_NAME)
    (hcj : ent_named s d j c = false)
    (honce : name_once s d c) :
    directory_lookup t d c = directory_lookup s d c := by
  obtain ⟨j0, j1, _, _⟩ := dir_find_some hfind
  have hjn : j < dir_count s d := by omega
  rw [directory_lookup_find s d c hs, directory_lookup_find t d c ht, hcnt]
  cases hf : dir_find s d c (dir_count s d).toNat 0 with
  | none =>
    have hall := dir_find_none hf
    have hnone : dir_find t d c (dir_count s d - 1).toNat 0 = none := by
      apply dir_find_eq_none
      intro i hi0 hi1
      have hi2 : i < dir_count s d - 1 := by omega
      rw [(hent i hi0 hi2).1 c hclen]
      by_cases hij : i = j
      · rw [if_pos hij]
        exact hall _ (by omega) (by omega)
      · rw [if_neg hij]
        exact hall _ (by omega) (by omega)
    rw [hnone]
  | some i0 =>
    obtain ⟨a0, a1, a2, a3⟩ := dir_find_some hf
    have hi0j : i0 ≠ j := by
      intro h
      rw [h, hcj] at a2
      exact absurd a2 (by decide)
    by_cases hl : i0 = dir_count s d - 1
    · have hjl : j < dir_count s d - 1 := by omega
      have hsome : dir_find t d c (dir_count s d - 1).toNat 0 = some j := by
        apply dir_find_eq_some j0 (by omega)
        · rw [(hent j j0 hjl).1 c hclen, if_pos rfl, ← hl]
          exact a2
        · intro i hi0 hi1
          rw [(hent i hi0 (by omega)).1 c hclen, if_neg (by omega)]
          exact a3 i hi0 (by omega)
      rw [hsome]
      simp only
      rw [(hent j j0 hjl).2, if_pos rfl, hl]
    · have hil : i0 < dir_count s d - 1 := by omega
      have hsome : dir_find t d c (dir_count s d - 1).toNat 0 = some i0 := by
        apply dir_find_eq_some a0 (by omega)
        · rw [(hent i0 a0 hil).1 c hclen, if_neg hi0j]
          exact a2
        · intro i hi0 hi1
          rw [(hent i hi0 (by omega)).1 c hclen]
          by_cases hij : i = j
          · rw [if_pos hij]
            cases hb : ent_named s d (dir_count s d - 1) c with
            | false => rfl
            | true =>
              exfalso
              have hn1 : 0 ≤ dir_count s d - 1 := by omega
              have e1 : ((i0.toNat : Nat) : Int) = i0 := Int.toNat_of_nonneg a0
              have e2 : (((dir_count s d - 1).toNat : Nat) : Int) = dir_count s d - 1 :=
                Int.toNat_of_nonneg hn1
              have := honce i0.toNat (by omega) (dir_count s d - 1).toNat (by omega)
                (by rw [e1]; exact a2) (by rw [e2]; exact hb)
              omega
          · rw [if_neg hij]
            exact a3 i hi0 hi1
      rw [hsome]
      simp only
      rw [(hent i0 a0 hil).2, if_neg hi0j]

/-- A path that resolves keeps its inode in a state in which every lookup of
the walk gives what it gave. -/
theorem tree_walk_keep_steps (s t : FS) (comps : List (List Nat)) (i r : Int)
    (h : tree_walk s comps i = some r) (hr : 0 ≤ r)
    (hstep : ∀ p ∈ walk_steps s comps i, 0 ≤ directory_lookup s p.1 p.2 →
      directory_lookup t p.1 p.2 = directory_lookup s p.1 p.2) :
    tree_walk t comps i = some r := by
  induction comps generalizing i with
  | nil => exact h
  | cons c rest ih =>
    simp only [tree_walk] at h ⊢
    cases hg : get_inode i with
    | none => rw [hg] at h; cases h
    | some node =>
      have hni : node = i := by
        unfold get_inode at hg
        split_ifs at hg
        cases hg; rfl
      subst hni
      rw [hg] at h
      simp only at h ⊢
      by_cases hneg : directory_lookup s node c < 0
      · rw [if_pos hneg] at h
        cases h
        omega
      · rw [if_neg hneg] at h
        have hl : directory_lookup t node c = directory_lookup s node c :=
          hstep (node, c) (by simp [walk_steps]) (not_lt.1 hneg)
        rw [hl, if_neg hneg]
        apply ih _ h
        intro p hp
        apply hstep p
        simp only [walk_steps, if_neg hneg]
        exact List.mem_cons_of_mem _ hp

/-! ## Paths, reads and the directory operations -/

theorem tree_walk_single (s : FS) (c : List Nat) (d : Int) (hdN : d < num_inodes) :
    tree_walk s [c] d = some (directory_lookup s d c) := by
  have hg : get_inode d = some d := by
    unfold get_inode; rw [if_neg (not_le.2 hdN)]
  simp only [tree_walk]
  rw [hg]
  simp only
  by_cases h : directory_lookup s d c < 0
  · rw [if_pos h]
  · rw [if_neg h]

/-- The path with one more component resolves to what `directory_lookup`
finds for the component in the inode of the parent. -/
theorem tree_lookup_snoc (s : FS) (parent : List (List Nat)) (c : List Nat) (d : Int)
    (hv : ∀ x ∈ parent, valid_name x) (hc : valid_name c)
    (hP : tree_lookup s (path_of parent) = some d) (hd0 : 0 ≤ d) (hdN : d < num_inodes) :
    tree_lookup s (path_of (parent ++ [c])) = some (directory_lookup s d c) := by
  have hvv : ∀ x ∈ parent ++ [c], valid_name x := by
    intro x hx
    rcases List.mem_append.1 hx with h | h
    · exact hv x h
    · rw [List.mem_singleton.1 h]; exact hc
  rw [tree_lookup_path_of s parent hv] at hP
  rw [tree_lookup_path_of s _ hvv, tree_walk_append s parent [c] root_inode (by decide), hP]
  simp only
  rw [if_neg (not_lt.2 hd0)]
  exact tree_walk_single s c d hdN

/-- A name that resolves in a directory is carried by a dirent, and
`directory_lookup` returns the inum of the first one. -/
theorem dir_find_of_lookup (s : FS) (d : Int) (c : List Nat) (m : Int) (h : dir_ok s d)
    (hl : directory_lookup s d c = m) (hm : 0 ≤ m) :
    ∃ j, dir_find s d c (dir_count s d).toNat 0 = some j ∧ ent_inum s d j = m := by
  rw [directory_lookup_find s d c h] at hl
  cases hf : dir_find s d c (dir_count s d).toNat 0 with
  | none =>
    rw [hf] at hl
    simp only at hl
    rw [← hl] at hm
    exact absurd hm (by decide)
  | some j =>
    rw [hf] at hl
    exact ⟨j, rfl, hl⟩

theorem walk_steps_mem (s : FS) (comps : List (List Nat)) (i : Int) (p : Int × List Nat)
    (h : p ∈ walk_steps s comps i) : p.1 ∈ walk_dirs s comps i ∧ p.2 ∈ comps := by
  induction comps generalizing i with
  | nil => simp [walk_steps] at h
  | cons c rest ih =>
    simp only [walk_steps, List.mem_cons] at h
    rcases h with h | h
    · subst h
      exact ⟨by simp [walk_dirs], List.mem_cons_self _ _⟩
    · by_cases hneg : directory_lookup s i c < 0
      · rw [if_pos hneg] at h
        simp at h
      · rw [if_neg hneg] at h
        have := ih _ h
        refine ⟨?_, List.mem_cons_of_mem _ this.2⟩
        simp only [walk_dirs, if_neg hneg]
        exact List.mem_cons_of_mem _ this.1

/-- The invariants of an inode carry over to a state with the same size and
pointers, in which its pages are still allocated and the bytes of the
indirect page are the same. -/
theorem inode_wf_congr_ok (s t : FS) (node : Int) (h : inode_wf s node)
    (hs : (t.inodes node).size = (s.inodes node).size)
    (h0 : (t.inodes node).ptrs0 = (s.inodes node).ptrs0)
    (h1 : (t.inodes node).ptrs1 = (s.inodes node).ptrs1)
    (h2 : (t.inodes node).iptr = (s.inodes node).iptr)
    (hokI : (s.inodes node).iptr ≠ 0 → page_ok t (s.inodes node).iptr)
    (hok : ∀ i : Nat, i < (bytes_to_pages (s.inodes node).size).toNat →
      page_ok t (page_at s node i))
    (hmem : ∀ a : Int, in_page (s.inodes node).iptr a → t.mem a = s.mem a) :
    inode_wf t node := by
  have hpa : ∀ i : Nat, i < (bytes_to_pages (s.inodes node).size).toNat →
      page_at t node i = page_at s node i := by
    intro i hi
    have := bytes_to_pages_le_max h.2.1
    exact page_at_congr s t node i h0 h1 h2 hmem (by omega) (by omega)
  obtain ⟨w1, w2, w3, w4, w5, w6, w7, w8, w9⟩ := h
  unfold inode_wf
  rw [hs, h0, h1, h2]
  refine ⟨w1, w2, w3, w4, w5, hokI, ?_, ?_, ?_⟩
  · intro hI k hk1 hk2
    rw [← w7 hI k hk1 hk2]
    apply read_int_congr
    intro j hj0 hj1
    apply hmem
    exact in_page_slot _ k j (by omega) (by omega) hj0 hj1
  · intro i hi
    rw [hpa i hi]
    exact ⟨hok i hi, (w8 i hi).2⟩
  · intro i hi j hj
    rw [hpa i hi, hpa j (by omega)]
    exact w9 i hi j hj

theorem storage_unlink_eq (s : FS) (path : List Nat) (m d1 : Int)
    (h1 : path_get_inode s path = some (0, m))
    (h2 : path_get_inode s (get_parent_dir path) = some (0, d1)) :
    storage_unlink s path
      = directory_delete s d1 (path.drop (path_file_index path).toNat) := by
  unfold storage_unlink
  rw [h1]
  simp only [ne_eq, not_true_eq_false, if_false]
  rw [h2]
  simp only [not_true_eq_false, if_false]

/-! ## One delete or put, seen from the paths of a volume -/

theorem vol_full_slot (k : Int) (h0 : 0 ≤ k) (h1 : k < 1024) :
    read_int vol_full.mem (pages_get_page 34 + 4 * k) = 37 + k := by
  have hm : ∀ a : Int, vol_full.mem a =
      (if a = 33 * 4096 then 102
      else if a = 33 * 4096 + 48 then 1
      else if 34 * 4096 ≤ a ∧ a < 35 * 4096 then
        (if (a - 34 * 4096) % 4 = 0 then ((37 + (a - 34 * 4096) / 4) % 256).toNat
         else if (a - 34 * 4096) % 4 = 1 then ((37 + (a - 34 * 4096) / 4) / 256).toNat
         else 0)
      else 0) := fun _ => rfl
  have hp : pages_get_page 34 = 34 * 4096 := rfl
  unfold read_int
  rw [hm, hm, hm, hm, hp]
  rw [if_neg (by omega), if_neg (by omega), if_pos (by omega), if_pos (by omega)]
  rw [if_neg (by omega), if_neg (by omega), if_pos (by omega), if_neg (by omega),
    if_pos (by omega)]
  rw [if_neg (by omega), if_neg (by omega), if_pos (by omega), if_neg (by omega),
    if_neg (by omega)]
  rw [if_neg (by omega), if_neg (by omega), if_pos (by omega), if_neg (by omega),
    if_neg (by omega)]
  have e1 : (34 * 4096 + 4 * k - 34 * 4096) / 4 = k := by omega
  have e2 : (34 * 4096 + 4 * k + 1 - 34 * 4096) / 4 = k := by omega
  rw [e1, e2]
  have e3 : ((((37 + k) % 256).toNat % 256 : Nat) : Int)
      + 256 * ((((37 + k) / 256).toNat % 256 : Nat) : Int)
      + 65536 * ((0 % 256 : Nat) : Int) + 16777216 * ((0 % 256 : Nat) : Int) = 37 + k := by
    omega
  rw [e3]
  exact to_int_of_range (by omega) (by omega)

theorem vol_full_page_at (i : Int) (h0 : 0 ≤ i) (h1 : i < 1026) :
    page_at vol_full 1 i = 35 + i := by
  unfold page_at slot_page
  by_cases c0 : i = 0
  · rw [if_pos c0, c0]; rfl
  · rw [if_neg c0]
    by_cases c1 : i = 1
    · rw [if_pos c1, c1]; rfl
    · rw [if_neg c1]
      have hI : (vol_full.inodes 1).iptr = 34 := rfl
      rw [hI, vol_full_slot (i - 2) (by omega) (by omega)]
      omega

theorem vol_full_bit (p : Nat) (h0 : 17 ≤ p) (h1 : p ≤ 1060) :
    bitmap_get vol_full.pages_bitmap p = 1 := by
  rw [bitmap_get_eq_one]
  unfold bit_of
  have hb : ∀ k : Nat, vol_full.pages_bitmap k =
      (if k = 2 then 0x7F else if 3 ≤ k ∧ k ≤ 131 then 0xFF else if k = 132 then 0xF8 else 0) :=
    fun _ => rfl
  rw [hb]
  have hr : p % 8 < 8 := Nat.mod_lt _ (by decide)
  by_cases c2 : p / 8 = 2
  · rw [if_pos c2]
    have : 1 ≤ p % 8 := by omega
    generalize p % 8 = r at hr this
    interval_cases r <;> decide
  · rw [if_neg c2]
    by_cases c3 : 3 ≤ p / 8 ∧ p / 8 ≤ 131
    · rw [if_pos c3]
      generalize p % 8 = r at hr
      interval_cases r <;> decide
    · rw [if_neg c3]
      have c4 : p / 8 = 132 := by omega
      rw [if_pos c4]
      have : p % 8 ≤ 4 := by omega
      generalize p % 8 = r at hr this
      interval_cases r <;> decide

/-- The file of `vol_full` satisfies the invariants of section 3.4. -/
theorem vol_full_wf : inode_wf vol_full 1 := by
  have hsz : (vol_full.inodes 1).size = 1026 * 4096 := rfl
  have hbp : bytes_to_pages (vol_full.inodes 1).size = 1026 := by decide
  have hI : (vol_full.inodes 1).iptr = 34 := rfl
  unfold inode_wf
  rw [hbp, hI]
  refine ⟨by decide, by decide, by decide, by decide, by decide, ?_, ?_, ?_, ?_⟩
  · intro _
    exact ⟨by decide, by decide, vol_full_bit 34 (by decide) (by decide)⟩
  · intro _ k hk1 hk2
    omega
  · intro i hi
    have hi' : (i : Int) < 1026 := by omega
    rw [vol_full_page_at i (by omega) hi']
    refine ⟨⟨?_, ?_, ?_⟩, by omega⟩
    · have : inode_end_page = 17 := rfl
      omega
    · have : num_pages = 262144 := by decide
      omega
    · have e : (35 + (i : Int)).toNat = 35 + i := by omega
      rw [e]
      exact vol_full_bit _ (by omega) (by omega)
  · intro i hi j hj
    rw [vol_full_page_at i (by omega) (by omega), vol_full_page_at j (by omega) (by omega)]
    omega

/-! ## A volume without free pages -/

theorem state_after_of_code (r : Option (Int × FS)) (c : Int) (h : code_of r = some c) :
    r = some (c, state_after r) := by
  cases r with
  | none => cases h
  | some p =>
    obtain ⟨a, b⟩ := p
    simp only [code_of, Option.map_some', Option.some.injEq] at h
    rw [← h]
    rfl

theorem alloc_page_full (s : FS) (h : ∀ k : Nat, s.pages_bitmap k = 0xFF) :
    alloc_page s = (-ENOSPC, s) := by
  have hscan : alloc_page_scan s.pages_bitmap num_pages.toNat 0 = none := by
    apply alloc_page_scan_none
    intro i _ _ _
    rw [bitmap_get_eq]
    have hb : bit_of s.pages_bitmap i = true := by
      unfold bit_of
      rw [h]
      have : 7 - i % 8 < 8 := by omega
      generalize 7 - i % 8 = k at this
      interval_cases k <;> decide
    rw [hb]; decide
  unfold alloc_page
  rw [hscan]

/-- Without a free page `grow_inode` of an empty inode by up to two pages
returns `-ENOSPC` and changes nothing. -/
theorem grow_inode_full (s : FS) (node delta : Int)
    (hsz : (s.inodes node).size = 0)
    (hd0 : 0 < delta) (hd1 : delta ≤ 2 * 4096)
    (ha : alloc_page s = (-ENOSPC, s)) :
    grow_inode s node delta = (-ENOSPC, s) := by
  have hto : to_int (0 + delta) = delta := by
    rw [zero_add]; exact to_int_of_range (by omega) (by omega)
  have hb0 : bytes_to_pages 0 = 0 := by decide
  have hbq : 1 ≤ bytes_to_pages delta ∧ bytes_to_pages delta ≤ 2 := by
    unfold bytes_to_pages page_size; omega
  unfold grow_inode
  rw [hsz, hto, hb0]
  have hfit : ¬ to_size_t (bytes_to_pages delta) > (8 + 4096) / 4 := by
    rw [to_size_t_of_range (by omega) (by omega)]
    have : ((8 : Int) + 4096) / 4 = 1026 := by decide
    rw [this]; omega
  have hA : ¬ ((0 : Int) < 3 ∧ bytes_to_pages delta ≥ 3) := by omega
  rw [if_neg hfit, if_neg hA]
  simp only
  unfold grow_inode_attach grow_inode_finish
  obtain ⟨n, hn⟩ : ∃ n : Nat, (bytes_to_pages delta - 0).toNat = n + 1 :=
    ⟨(bytes_to_pages delta).toNat - 1, by omega⟩
  rw [hn]
  unfold grow_alloc
  rw [ha]
  have hneg : (-ENOSPC : Int) < 0 := by decide
  simp only [hneg, if_true, free_all_pages]

/-- A `storage_write` at offset 0 of an empty file whose `grow_inode` fails
returns the code of `grow_inode`. -/
theorem storage_write_grow_fails (s s2 : FS) (path buf : List Nat) (node size rv : Int)
    (hpg : path_get_inode s path = some (0, node))
    (hreg : S_ISDIR (s.inodes node).mode = false)
    (hsz : (s.inodes node).size = 0)
    (hs0 : 0 < size) (hs1 : size < 2147483648)
    (hg : grow_inode s node size = (rv, s2)) (hrv : rv ≠ 0) :
    storage_write s path buf size 0 = some (rv, s2) := by
  unfold storage_write
  rw [hpg]
  simp only [ne_eq, not_true_eq_false, if_false, hreg, Bool.false_eq_true, hsz, gt_iff_lt,
    lt_irrefl, zero_add, sub_zero]
  have e1 : to_size_t size = size := to_size_t_of_range (by omega) (by omega)
  have e0 : to_size_t 0 = 0 := by decide
  have e2 : to_int size = size := to_int_of_range (by omega) (by omega)
  rw [e1, e0, if_pos hs0, e2, hg]
  simp only [hrv, not_false_eq_true, if_true]

theorem storage_symlink_eq (s s1 s2 : FS) (to_path from_path : List Nat) (w : Int)
    (h1 : storage_mknod s from_path S_IFLNK_0777 = some (0, s1))
    (h2 : storage_write s1 from_path (to_path ++ [0]) ((to_path.length : Int) + 1) 0
      = some (w, s2)) :
    storage_symlink s to_path from_path
      = if to_size_t w ≥ (to_path.length : Int) then some (0, s2) else some (- EIO, s2) := by
  unfold storage_symlink
  rw [h1]
  simp only [ne_eq, not_true_eq_false, if_false]
  rw [h2]

theorem vol_a_full_s_bitmap (k : Nat) : vol_a_full_s.pages_bitmap k = 0xFF := by
  rfl

theorem vol_a_full_mknod :
    storage_mknod vol_a_full path_s S_IFLNK_0777 = some (0, vol_a_full_s) :=
  state_after_of_code _ 0 (by decide)

theorem vol_a_full_write :
    storage_write vol_a_full_s path_s ([116] ++ [0]) 2 0 = some (-ENOSPC, vol_a_full_s) :=
  storage_write_grow_fails vol_a_full_s vol_a_full_s path_s _ 2 2 (-ENOSPC)
    (by decide) (by decide) (by decide) (by decide) (by decide)
    (grow_inode_full vol_a_full_s 2 2 (by decide) (by decide) (by decide)
      (alloc_page_full vol_a_full_s vol_a_full_s_bitmap))
    (by decide)

/-! ## Inode allocation -/

theorem table_capacity_eq : table_capacity = 1638 := by decide

theorem in_table_lt {i : Int} (h : in_table i) : i < num_inodes :=
  lt_trans h.2 (by decide)

theorem table_lt {i : Int} (h : i < table_capacity) : i < num_inodes :=
  lt_trans h (by decide)

/-- The record of an inode of the table lies in the pages of the table. -/
theorem in_table_record {i : Int} (h : in_table i) :
    pages_get_page inode_start_page ≤ inode_addr i
    ∧ inode_addr i + sizeof_inode ≤ pages_get_page inode_end_page := by
  obtain ⟨h0, h1⟩ := h
  rw [table_capacity_eq] at h1
  unfold inode_addr pages_get_page inode_start_page inode_end_page page_size sizeof_inode
  omega

/-! ## The claims -/

/-- C2 (the code at the failing input): on the volume whose only free page is
page 17, growing the empty inode 5 by three pages returns `-ENOSPC`, yet the
inode's `iptr`, 0 before the call, is 17 afterwards, and bit 17 of the page
bitmap, clear before the call, is set afterwards: the indirect page obtained
before the data pages is not given back. -/
theorem C2_grow_keeps_indirect_page_on_failure :
    (grow_inode vol_one_free 5 12288).1 = -ENOSPC
    ∧ (vol_one_free.inodes 5).iptr = 0
    ∧ ((grow_inode vol_one_free 5 12288).2.inodes 5).iptr = 17
    ∧ bitmap_get vol_one_free.pages_bitmap 17 = 0
    ∧ bitmap_get (grow_inode vol_one_free 5 12288).2.pages_bitmap 17 = 1 := by
  have hg := grow_inode_nospace_after_indirect vol_one_free _ _ 5 12288 17 _ 2
    (by decide) (by decide) (by decide) (by decide) vol_one_free_alloc (by decide)
    (vol_one_free_full _ rfl) (by decide)
  rw [hg]
  refine ⟨rfl, rfl, ?_, by decide, ?_⟩
  · simp [FS.set_inode]
  · show bitmap_get (bitmap_put vol_one_free.pages_bitmap 17 1) 17 = 1
    rw [bitmap_get_put_same]; decide

/-- C7 (the code at the failing input): on `vol_f_dirent` the path `/f` names
inode 1, a regular file whose 52 bytes look like a dirent `x -> 1`;
`tree_lookup` of `/f/x` walks through the file and returns inode 1, not
`-ENOENT`: the lookup never tests the type of the inode it searches. -/
theorem C7_lookup_through_file_finds_record :
    tree_lookup vol_f_dirent path_f = some 1
    ∧ S_ISDIR (vol_f_dirent.inodes 1).mode = false
    ∧ tree_lookup vol_f_dirent path_f_x = some 1
    ∧ tree_lookup vol_f_dirent path_f_x ≠ some (-ENOENT) := by
  decide

theorem storage_link_eq (s : FS) (from_path to_path : List Nat) (m d2 : Int)
    (h1 : path_get_inode s from_path = some (0, m))
    (h2 : path_get_inode s (get_parent_dir to_path) = some (0, d2)) :
    storage_link s from_path to_path
      = directory_put s d2 (to_path.drop (path_file_index to_path).toNat) m := by
  unfold storage_link
  rw [h1]
  simp only [ne_eq, not_true_eq_false, if_false]
  rw [h2]
  simp only [not_true_eq_false, if_false]

theorem storage_stat_eq (s : FS) (path : List Nat) (m : Int)
    (h : path_get_inode s path = some (0, m)) :
    storage_stat s path = some (0, ⟨m, (s.inodes m).mode, (s.inodes m).refs, (s.inodes m).size,
      (s.inodes m).atime, (s.inodes m).mtime⟩) := by
  unfold storage_stat
  rw [h]
  simp only [ne_eq, not_true_eq_false, if_false]

/-- C9 (amended): let `a` resolve to an inode `m` other than the root that
has one link, let the parent of `b` resolve to the directory `d2`, which has
room for one more dirent (fewer than 156) and no dirent called as the
basename of `b`, a name of at most `DIR_NAME - 1` bytes; let the directories
on both paths be in order and share no page, let `m` and these directories be
inodes of the table, and let one page be free.  Then
`storage_link(a, b)` returns 0, and afterwards `storage_stat` succeeds on
both paths, with the same `st_ino` and `st_nlink == 2`. -/
theorem C9_link_identity (s : FS) (compsA parentB : List (List Nat)) (cb : List Nat)
    (m d2 : Int)
    (hvalidA : ∀ c ∈ compsA, valid_name c ∧ (c.length : Int) < DIR_NAME)
    (hvalidB : ∀ c ∈ parentB, valid_name c ∧ (c.length : Int) < DIR_NAME)
    (hcb : valid_name cb ∧ (cb.length : Int) < DIR_NAME)
    (hresA : tree_lookup s (path_of compsA) = some m) (hm0 : 0 < m) (hmT : m < table_capacity)
    (hrefs : (s.inodes m).refs = 1)
    (hresB : tree_lookup s (path_of parentB) = some d2)
    (hdirs : dirs_ok s
      (d2 :: (walk_dirs s compsA root_inode ++ walk_dirs s parentB root_inode)))
    (htab : ∀ e ∈ d2 :: (walk_dirs s compsA root_inode ++ walk_dirs s parentB root_inode),
      in_table e)
    (hroom : dir_count s d2 < 156)
    (habsent : directory_lookup s d2 cb = -ENOENT)
    (hfree : free_avail s 1) :
    ∃ t, storage_link s (path_of compsA) (path_of (parentB ++ [cb])) = some (0, t)
      ∧ ∃ sa sb, storage_stat t (path_of compsA) = some (0, sa)
          ∧ storage_stat t (path_of (parentB ++ [cb])) = some (0, sb)
          ∧ sa.st_ino = sb.st_ino ∧ sa.st_nlink = 2 ∧ sb.st_nlink = 2 := by
  have hm0' : 0 ≤ m := le_of_lt hm0
  have hmN : m < num_inodes := table_lt hmT
  have hd0 : 0 ≤ d2 := (htab d2 (List.mem_cons_self _ _)).1
  have hdN : d2 < num_inodes := in_table_lt (htab d2 (List.mem_cons_self _ _))
  have hcb47 : ∀ x ∈ cb, x ≠ 47 := fun x hx => (hcb.1.2 x hx).1
  have hcb0 : ∀ x ∈ cb, x ≠ 0 := fun x hx => (hcb.1.2 x hx).2.1
  have hvA : ∀ c ∈ compsA, valid_name c := fun c hc => (hvalidA c hc).1
  have hvB : ∀ c ∈ parentB, valid_name c := fun c hc => (hvalidB c hc).1
  have hvBB : ∀ c ∈ parentB ++ [cb], valid_name c := by
    intro c hc
    rcases List.mem_append.1 hc with h | h
    · exact hvB c h
    · rw [List.mem_singleton.1 h]; exact hcb.1
  have hd2mem : d2 ∈ d2 :: (walk_dirs s compsA root_inode ++ walk_dirs s parentB root_inode) :=
    List.mem_cons_self _ _
  have hAmem : ∀ d ∈ walk_dirs s compsA root_inode,
      d ∈ d2 :: (walk_dirs s compsA root_inode ++ walk_dirs s parentB root_inode) :=
    fun d hd => List.mem_cons_of_mem _ (List.mem_append_left _ hd)
  have hBmem : ∀ d ∈ walk_dirs s parentB root_inode,
      d ∈ d2 :: (walk_dirs s compsA root_inode ++ walk_dirs s parentB root_inode) :=
    fun d hd => List.mem_cons_of_mem _ (List.mem_append_right _ hd)
  obtain ⟨t, p1, p2, _, p4, p5, p6, p7, p8, _, p10⟩ :=
    directory_put_dirs s _ d2 cb m 0 hdirs hd2mem hroom hcb0 hcb.2 hm0 hmN hfree
  refine ⟨t, ?_, ?_⟩
  · have h2 : path_get_inode s (get_parent_dir (path_of (parentB ++ [cb]))) = some (0, d2) := by
      rw [get_parent_dir_path_of parentB cb hcb47]
      exact path_get_inode_of_lookup s _ d2 hresB hd0 hdN
    rw [storage_link_eq s _ _ m d2 (path_get_inode_of_lookup s _ m hresA hm0' hmN) h2,
      basename_path_of parentB cb hcb47]
    exact p1
  · -- names found before the call are found after it
    have hkeep : ∀ d ∈ d2 :: (walk_dirs s compsA root_inode ++ walk_dirs s parentB root_inode),
        ∀ c : List Nat, valid_name c ∧ (c.length : Int) < DIR_NAME →
        0 ≤ directory_lookup s d c → directory_lookup t d c = directory_lookup s d c := by
      intro d hd c hc hfound
      by_cases hdd : d = d2
      · subst hdd
        exact lookup_put_old s t d cb c (hdirs d hd).1 (p2 d hd).1 p5 hc.2 p6
          (p7 c (fun x hx => (hc.1.2 x hx).2.1)) hfound
      · exact dir_same_lookup (hdirs d hd).1.1 (p4 d hd hdd) c hc.2
    rw [tree_lookup_path_of s compsA hvA] at hresA
    rw [tree_lookup_path_of s parentB hvB] at hresB
    have hA : tree_lookup t (path_of compsA) = some m := by
      rw [tree_lookup_path_of t compsA hvA]
      exact tree_walk_keep s t compsA root_inode m hresA hm0'
        (fun d hd c hc hf => hkeep d (hAmem d hd) c (hvalidA c hc) hf)
    have hP : tree_walk t parentB root_inode = some d2 :=
      tree_walk_keep s t parentB root_inode d2 hresB hd0
        (fun d hd c hc hf => hkeep d (hBmem d hd) c (hvalidB c hc) hf)
    have hnewl : directory_lookup t d2 cb = m :=
      lookup_put_new s t d2 cb m (hdirs d2 hd2mem).1 (p2 d2 hd2mem).1 p5 hcb.2 p6
        (p7 cb hcb0) p8 habsent
    have hB : tree_lookup t (path_of (parentB ++ [cb])) = some m := by
      rw [tree_lookup_path_of t _ hvBB, tree_walk_append t parentB [cb] root_inode (by decide), hP]
      simp only
      rw [if_neg (not_lt.2 hd0)]
      simp only [tree_walk]
      have hg : get_inode d2 = some d2 := by
        unfold get_inode; rw [if_neg (not_le.2 hdN)]
      rw [hg]
      simp only
      rw [hnewl, if_neg (not_lt.2 hm0')]
    have hr : (t.inodes m).refs = 2 := by
      rw [(p10 m).2, if_pos rfl, hrefs]
      decide
    exact ⟨_, _,
      storage_stat_eq t _ m (path_get_inode_of_lookup t _ m hA hm0' hmN),
      storage_stat_eq t _ m (path_get_inode_of_lookup t _ m hB hm0' hmN), rfl, hr, hr⟩

/-- C9 (amended) at the volume that holds `/a`, for `link("/a", "/b")`. -/
theorem C9_link_identity_witness :
    ∃ t, storage_link vol_a (path_of [[97]]) (path_of ([] ++ [[98]])) = some (0, t)
      ∧ ∃ sa sb, storage_stat t (path_of [[97]]) = some (0, sa)
          ∧ storage_stat t (path_of ([] ++ [[98]])) = some (0, sb)
          ∧ sa.st_ino = sb.st_ino ∧ sa.st_nlink = 2 ∧ sb.st_nlink = 2 :=
  C9_link_identity vol_a [[97]] [] [98] 1 0 (by decide) (by decide) (by decide) (by decide)
    (by decide) (by decide) (by decide) (by decide) (by decide) (by decide) (by decide)
    (by decide) ⟨[34], by decide, by decide, by decide⟩

/-! ## Bitmaps -/

theorem shift_and_one (b n : Nat) : ((b >>> n) &&& 1) = if b.testBit n then 1 else 0 := by
  rw [Nat.and_one_is_mod, Nat.shiftRight_eq_div_pow, Nat.testBit_to_div_mod]
  have h := Nat.mod_two_eq_zero_or_one (b / 2 ^ n)
  rcases h with h | h <;> simp [h]

/-- C16: the bitmap is a bit array, most significant bit of each byte first:
`bitmap_get(b, i)` is `(b[i >> 3] >> (7 - (i & 7))) & 1`; after
`bitmap_put(b, i, v)` bit `i` reads as `v != 0` and every other bit as
before, the other bytes being the same and the byte `i >> 3` having its
other seven bits unchanged. -/
theorem C16_bitmap_msb_first (bm : Nat → Nat) (i j : Nat) (v : Int) :
    bitmap_get bm i = (((bm (i >>> 3) >>> (7 - (i &&& 7))) &&& 1 : Nat) : Int)
    ∧ bitmap_get (bitmap_put bm i v) j
        = (if j = i then (if v ≠ 0 then 1 else 0) else bitmap_get bm j)
    ∧ (∀ k : Nat, k ≠ i >>> 3 → bitmap_put bm i v k = bm k)
    ∧ (∀ m : Nat, m < 8 → m ≠ 7 - (i &&& 7) →
        (bitmap_put bm i v (i >>> 3)).testBit m = (bm (i >>> 3)).testBit m) := by
  refine ⟨?_, ?_, ?_, ?_⟩
  · rw [bitmap_get_eq, shift_and_one, shift3, and7]
    unfold bit_of
    cases (bm (i / 8)).testBit (7 - i % 8) <;> rfl
  · by_cases h : j = i
    · rw [if_pos h, h]
      exact bitmap_get_put_same bm i v
    · rw [if_neg h]
      exact bitmap_get_put_other bm i j v (fun e => h e.symm)
  · intro k hk
    unfold bitmap_put
    rw [if_neg hk]
  · intro m hm hne
    rw [shift3, and7] at *
    have hj := bit_of_put_other bm i (8 * (i / 8) + (7 - m)) v (by omega)
    unfold bit_of at hj
    have e1 : (8 * (i / 8) + (7 - m)) / 8 = i / 8 := by omega
    have e2 : 7 - (8 * (i / 8) + (7 - m)) % 8 = m := by omega
    rw [e1, e2] at hj
    exact hj

/-! ## storage_read -/

/-- A request that reaches past the end of the file is served as the request
for the bytes up to the end. -/
theorem storage_read_clip (s : FS) (path : List Nat) (node : Int) (size off : Int)
    (hpg : path_get_inode s path = some (0, node))
    (hreg : S_ISDIR (s.inodes node).mode = false)
    (hsz : (s.inodes node).size ≤ 1026 * 4096)
    (hoff : 0 ≤ off) (hlt : off < (s.inodes node).size)
    (hs0 : 0 ≤ size) (hs1 : size < 18446744073709551616) :
    storage_read s path size off
      = storage_read s path (min size ((s.inodes node).size - off)) off := by
  have hsn : ∀ nd : inode, (s.set_inode node nd).inodes node = nd := by
    intro nd; simp [FS.set_inode]
  have e1 : to_size_t size = size := to_size_t_of_range hs0 hs1
  have e2 : to_size_t ((s.inodes node).size - off) = (s.inodes node).size - off :=
    to_size_t_of_range (by omega) (by omega)
  have e3 : to_size_t (min size ((s.inodes node).size - off))
      = min size ((s.inodes node).size - off) :=
    to_size_t_of_range (by omega) (by omega)
  have hbl : (if to_size_t size > to_size_t ((s.inodes node).size - off)
        then to_int ((s.inodes node).size - off) else to_int size)
      = (if to_size_t (min size ((s.inodes node).size - off))
          > to_size_t ((s.inodes node).size - off)
        then to_int ((s.inodes node).size - off)
        else to_int (min size ((s.inodes node).size - off))) := by
    rw [e1, e2, e3]
    by_cases hc : size > (s.inodes node).size - off
    · rw [if_pos hc, if_neg (by omega)]
      congr 1
      omega
    · rw [if_neg hc, if_neg (by omega)]
      congr 1
      omega
  unfold storage_read
  rw [hpg]
  simp only [ne_eq, not_true_eq_false, if_false, hreg, Bool.false_eq_true]
  have hge : ¬ off ≥ (s.inodes node).size := by omega
  rw [if_neg hge, if_neg hge, hsn]
  simp only
  rw [hbl]

/-- C13: the result of `storage_read`.  For a path that names a directory it
returns `-EISDIR`.  For a path that names a regular file, an inode of the
table satisfying the invariants of section 3.4, a request of `size` bytes (a
`size_t`) at the
offset `off >= 0` returns 0 when `off` is not below the size of the file and
otherwise returns `min(size, filesize - off)` and these many bytes of the
file from `off` on, in order. -/
theorem C13_read_result (s : FS) (path : List Nat) (node : Int) (size off : Int)
    (hpg : path_get_inode s path = some (0, node))
    (hwf : S_ISDIR (s.inodes node).mode = false → in_table node ∧ inode_wf s node)
    (hoff : 0 ≤ off) (hs0 : 0 ≤ size) (hs1 : size < 18446744073709551616) :
    (S_ISDIR (s.inodes node).mode = true →
        storage_read s path size off = some (-EISDIR, [], s))
    ∧ (S_ISDIR (s.inodes node).mode = false → off ≥ (s.inodes node).size →
        storage_read s path size off = some (0, [], s))
    ∧ (S_ISDIR (s.inodes node).mode = false → off < (s.inodes node).size →
        ∃ t, storage_read s path size off
          = some (min size ((s.inodes node).size - off),
              (List.range (min size ((s.inodes node).size - off)).toNat).map
                (fun j : Nat => file_byte s node (off + (j : Int))), t)) := by
  refine ⟨?_, ?_, ?_⟩
  · intro hdir
    unfold storage_read
    rw [hpg]
    simp only [ne_eq, not_true_eq_false, if_false, hdir, if_true]
  · intro hreg hge
    unfold storage_read
    rw [hpg]
    simp only [ne_eq, not_true_eq_false, if_false, hreg, Bool.false_eq_true]
    rw [if_pos hge]
  · intro hreg hlt
    have hw := (hwf hreg).2
    rw [storage_read_clip s path node size off hpg hreg hw.2.1 hoff hlt hs0 hs1]
    exact storage_read_ok s path node _ off hpg hreg hw hoff (by omega) (by omega)

/-- C13 at the file `/f` of `vol_f_hello` (5 bytes): a request of 10 bytes at
offset 2. -/
theorem C13_read_result_witness :
    (S_ISDIR (vol_f_hello.inodes 1).mode = true →
        storage_read vol_f_hello path_f 10 2 = some (-EISDIR, [], vol_f_hello))
    ∧ (S_ISDIR (vol_f_hello.inodes 1).mode = false → 2 ≥ (vol_f_hello.inodes 1).size →
        storage_read vol_f_hello path_f 10 2 = some (0, [], vol_f_hello))
    ∧ (S_ISDIR (vol_f_hello.inodes 1).mode = false → 2 < (vol_f_hello.inodes 1).size →
        ∃ t, storage_read vol_f_hello path_f 10 2
          = some (min 10 ((vol_f_hello.inodes 1).size - 2),
              (List.range (min 10 ((vol_f_hello.inodes 1).size - 2)).toNat).map
                (fun j : Nat => file_byte vol_f_hello 1 (2 + (j : Int))), t)) :=
  C13_read_result vol_f_hello path_f 1 10 2 (by decide) (fun _ => by decide) (by decide)
    (by decide) (by decide)

/-! ## The capacity bound of grow_inode -/

/-- C4 (the code at the scenario of the claim): on a fresh volume, after
`mknod /f`, writing `hello`, truncating to 2 and truncating to 5, every call
succeeds, and reading 5 bytes returns `hello` again: the bytes at offsets
2, 3 and 4 are `l`, `l`, `o` and not zero. -/
theorem C4_truncate_regrow_shows_old_bytes :
    code_of (storage_mknod fresh path_f mode_file) = some 0
    ∧ code_of (storage_write vol_f path_f hello 5 0) = some 5
    ∧ code_of (storage_truncate vol_f_hello path_f 2) = some 0
    ∧ code_of (storage_truncate vol_f_cut path_f 5) = some 0
    ∧ code_of (storage_read vol_f_regrown path_f 5 0) = some 5
    ∧ bytes_of (storage_read vol_f_regrown path_f 5 0) = [104, 101, 108, 108, 111] := by
  decide

/-- C5 (the code at the failing input): on the volume that holds `/a`, a
second `mknod /a` returns `-EEXIST`, yet inode 2, free before the call, is
marked allocated in the inode bitmap afterwards and its record carries the
requested mode. -/
theorem C5_failed_mknod_keeps_inode :
    code_of (storage_mknod fresh path_a mode_file) = some 0
    ∧ code_of (storage_mknod vol_a path_a mode_file) = some (-EEXIST)
    ∧ bitmap_get vol_a.inode_bitmap 2 = 0
    ∧ bitmap_get (state_after (storage_mknod vol_a path_a mode_file)).inode_bitmap 2 = 1
    ∧ (vol_a.inodes 2).mode = 0
    ∧ ((state_after (storage_mknod vol_a path_a mode_file)).inodes 2).mode = mode_file := by
  decide

/-- C10 (the code at the failing input): on the volume that holds `/a` and
`/b`, `storage_link("/a", "/b")` returns 0 and not `-EEXIST`, the root
directory grows from two to three dirents, and `/a` has two links. -/
theorem C10_link_to_existing_name_succeeds :
    code_of (storage_stat vol_ab path_b) = some 0
    ∧ code_of (storage_link vol_ab path_a path_b) = some 0
    ∧ (vol_ab.inodes 0).size = 2 * sizeof_dirent
    ∧ ((state_after (storage_link vol_ab path_a path_b)).inodes 0).size = 3 * sizeof_dirent
    ∧ (stat_of (storage_stat (state_after (storage_link vol_ab path_a path_b)) path_a)).st_nlink
        = 2 := by
  decide

/-- C3 (the code at the failing input): `/f` exists on `vol_full` with the
maximal size of 1026 pages; `storage_truncate("/f", 0)` returns `-EIO` and
not 0, the size is left at `1026 * 4096`, and both direct pointers are
already cleared while the indirect page and its slots stay attached. -/
theorem C3_truncate_full_file_fails :
    code_of (storage_stat vol_full path_f) = some 0
    ∧ (stat_of (storage_stat vol_full path_f)).st_size = 1026 * 4096
    ∧ code_of (storage_truncate vol_full path_f 0) = some (- EIO)
    ∧ (stat_of (storage_stat (state_after (storage_truncate vol_full path_f 0)) path_f)).st_size
        = 1026 * 4096
    ∧ ((state_after (storage_truncate vol_full path_f 0)).inodes 1).ptrs0 = 0
    ∧ ((state_after (storage_truncate vol_full path_f 0)).inodes 1).ptrs1 = 0
    ∧ ((state_after (storage_truncate vol_full path_f 0)).inodes 1).iptr = 34 := by
  decide

/-- C6 (the code at the failing input): `/f` on `vol_full` is a regular file
with one link and 1026 pages; `storage_unlink("/f")` returns 0 and clears
the bit of inode 1, but the bits of the indirect page 34 and of the data
pages held in its slots (37 and 1060 are the first and the last) are still
set in the page bitmap; only the two direct pages 35 and 36 were freed. -/
theorem C6_unlink_full_file_leaks_pages :
    (stat_of (storage_stat vol_full path_f)).st_nlink = 1
    ∧ code_of (storage_unlink vol_full path_f) = some 0
    ∧ bitmap_get (state_after (storage_unlink vol_full path_f)).inode_bitmap 1 = 0
    ∧ bitmap_get (state_after (storage_unlink vol_full path_f)).pages_bitmap 35 = 0
    ∧ bitmap_get (state_after (storage_unlink vol_full path_f)).pages_bitmap 36 = 0
    ∧ bitmap_get (state_after (storage_unlink vol_full path_f)).pages_bitmap 34 = 1
    ∧ bitmap_get (state_after (storage_unlink vol_full path_f)).pages_bitmap 37 = 1
    ∧ bitmap_get (state_after (storage_unlink vol_full path_f)).pages_bitmap 1060 = 1 := by
  decide

/-- C9 (counterexample): `/a` exists on `vol_a` with one link and the
parent `/` of the path `/bbb...b` (48 letters) exists; `storage_link`
returns 0, yet `storage_stat` of that path fails with `-ENOENT`, the dirent
holding only the first 47 bytes of the name, while `/a` reports two links. -/
theorem C9_link_long_name_not_found :
    code_of (storage_stat vol_a path_a) = some 0
    ∧ (stat_of (storage_stat vol_a path_a)).st_nlink = 1
    ∧ code_of (path_get_inode vol_a (get_parent_dir path_long)) = some 0
    ∧ code_of (storage_link vol_a path_a path_long) = some 0
    ∧ code_of (storage_stat (state_after (storage_link vol_a path_a path_long)) path_long)
        = some (-ENOENT)
    ∧ (stat_of (storage_stat (state_after (storage_link vol_a path_a path_long)) path_a)).st_nlink
        = 2 := by
  decide

/-- C14 (the code at the failing input): `/f` on `vol_f_hello` has 5 bytes;
`storage_truncate("/f", 2^32)`, a size above `1026 * 4096`, returns 0 and
not `-EFBIG`, and the size of the file is 0 afterwards, with its page still
attached: the difference `2^32 - 5` reaches `grow_inode` as the `int` `-5`.
A size just above the capacity is refused with `-EFBIG`. -/
theorem C14_truncate_wraps_modulo_2_32 :
    (stat_of (storage_stat vol_f_hello path_f)).st_size = 5
    ∧ (1026 : Int) * 4096 < 2 ^ 32
    ∧ to_int (2 ^ 32 - 5) = -5
    ∧ code_of (storage_truncate vol_f_hello path_f (2 ^ 32)) = some 0
    ∧ (stat_of (storage_stat (state_after (storage_truncate vol_f_hello path_f (2 ^ 32)))
        path_f)).st_size = 0
    ∧ ((state_after (storage_truncate vol_f_hello path_f (2 ^ 32))).inodes 1).ptrs0 = 34
    ∧ code_of (storage_truncate vol_f_hello path_f (1026 * 4096 + 1)) = some (-EFBIG) := by
  decide

/-- C17 (the code at the failing input): after `directory_init` on the blank
image, with `alloc_page` as the spec describes it, none of the pages 0..16 is
marked in the page bitmap and the sixteen pages 17..32 are; inode 0 is
allocated with mode `S_IFDIR | 0755`, size 0 and one reference. -/
theorem C17_init_marks_pages_17_to_32 :
    (∀ i : Nat, i < 17 → bitmap_get fresh.pages_bitmap i = 0)
    ∧ (∀ i : Nat, 17 ≤ i → i < 33 → bitmap_get fresh.pages_bitmap i = 1)
    ∧ bitmap_get fresh.inode_bitmap 0 = 1
    ∧ (fresh.inodes 0).mode = 0o040755 ∧ (fresh.inodes 0).size = 0
    ∧ (fresh.inodes 0).refs = 1 := by
  decide

/-- C18 (the code at the failing input): on `vol_a` the regular file `/a` is
inode 1, with one reference and one dirent in the root; `storage_truncate`
of the root directory `/` to 0 returns 0 and empties the root, so inode 1 is
still allocated with one reference while no dirent refers to it. -/
theorem C18_truncate_directory_breaks_refcount :
    (vol_a.inodes 1).refs = 1 ∧ dirents_to vol_a 0 1 = 1
    ∧ S_ISDIR (vol_a.inodes 0).mode = true
    ∧ code_of (storage_truncate vol_a [47] 0) = some 0
    ∧ dir_count (state_after (storage_truncate vol_a [47] 0)) 0 = 0
    ∧ dirents_to (state_after (storage_truncate vol_a [47] 0)) 0 1 = 0
    ∧ bitmap_get (state_after (storage_truncate vol_a [47] 0)).inode_bitmap 1 = 1
    ∧ ((state_after (storage_truncate vol_a [47] 0)).inodes 1).refs = 1
    ∧ S_ISDIR ((state_after (storage_truncate vol_a [47] 0)).inodes 1).mode = false
    ∧ code_of (storage_write vol_a [47] [0] 1 0) = some (-EISDIR) := by
  decide

/-- C20 (the code at the failing input): inode 1 of `vol_full` satisfies the
invariants with 1026 pages, its indirect page full.  `shrink_inode` by one
page returns 0 but frees `ptrs[1]` (page 36) and not the page of the highest
slot (page 1060, slot 1023), which stays attached and marked, so the result
no longer satisfies the invariants; `shrink_inode` by the whole size returns
`-EIO`. -/
theorem C20_shrink_full_indirect_page :
    inode_wf vol_full 1
    ∧ (vol_full.inodes 1).size = 1026 * 4096
    ∧ (vol_full.inodes 1).ptrs1 = 36
    ∧ (shrink_inode vol_full 1 4096).1 = 0
    ∧ ((shrink_inode vol_full 1 4096).2.inodes 1).size = 1025 * 4096
    ∧ ((shrink_inode vol_full 1 4096).2.inodes 1).ptrs1 = 0
    ∧ bitmap_get (shrink_inode vol_full 1 4096).2.pages_bitmap 36 = 0
    ∧ read_int (shrink_inode vol_full 1 4096).2.mem (pages_get_page 34 + 4 * 1023) = 1060
    ∧ bitmap_get (shrink_inode vol_full 1 4096).2.pages_bitmap 1060 = 1
    ∧ ¬ inode_wf (shrink_inode vol_full 1 4096).2 1
    ∧ (shrink_inode vol_full 1 (1026 * 4096)).1 = - EIO :=
  ⟨vol_full_wf, by decide⟩

/-- C19 (the code at the failing input): on the full disk `vol_a_full` the
`storage_mknod` of `/s` succeeds (the root directory has room in its page),
the `storage_write` of the target `t` and its terminator returns `-ENOSPC`,
and `storage_symlink` returns 0: converted to `size_t`, the negative code is
not below `strlen(to)`. -/
theorem C19_symlink_hides_failed_write :
    code_of (storage_mknod vol_a_full path_s S_IFLNK_0777) = some 0
    ∧ code_of (storage_write vol_a_full_s path_s ([116] ++ [0]) 2 0) = some (-ENOSPC)
    ∧ to_size_t (-ENOSPC) ≥ 1
    ∧ code_of (storage_symlink vol_a_full [116] path_s) = some 0 := by
  refine ⟨by decide, ?_, by decide, ?_⟩
  · rw [vol_a_full_write]; rfl
  · rw [storage_symlink_eq _ _ _ _ _ _ vol_a_full_mknod vol_a_full_write]
    decide

/-- C12 (the code at the failing input): the root directory of `vol_dir156`
is in order and holds 156 dirents, none called `zz`; inode 157 and page 35
are free.  `storage_mknod("/zz")` does not return: `directory_put` asks
`inode_get_page` for page 2 of the directory, gets the null pointer and
writes the dirent through it. -/
theorem C12_mknod_in_full_directory_faults :
    dir_ok vol_dir156 0
    ∧ code_of (path_get_inode vol_dir156 (get_parent_dir path_zz)) = some 0
    ∧ dir_count vol_dir156 0 = 156
    ∧ directory_lookup vol_dir156 0 [122, 122] = -ENOENT
    ∧ bitmap_get vol_dir156.inode_bitmap 157 = 0
    ∧ bitmap_get vol_dir156.pages_bitmap 35 = 0
    ∧ inode_get_page
        (grow_inode (alloc_inode vol_dir156).2 0 sizeof_dirent).2 0 (cdiv 156 ents_per_page) = none
    ∧ code_of (storage_mknod vol_dir156 path_zz mode_file) = none := by
  decide

/-! ## Reads in two states -/

/-- The result of `storage_read` on a path that resolves to `node`. -/
theorem storage_read_result (s : FS) (path : List Nat) (node : Int) (size off : Int)
    (hpg : path_get_inode s path = some (0, node))
    (hwf : S_ISDIR (s.inodes node).mode = false → inode_wf s node)
    (hoff : 0 ≤ off) (hs0 : 0 ≤ size) (hs1 : size < 18446744073709551616) :
    (S_ISDIR (s.inodes node).mode = true →
        storage_read s path size off = some (-EISDIR, [], s))
    ∧ (S_ISDIR (s.inodes node).mode = false → off ≥ (s.inodes node).size →
        storage_read s path size off = some (0, [], s))
    ∧ (S_ISDIR (s.inodes node).mode = false → off < (s.inodes node).size →
        ∃ t, storage_read s path size off
          = some (min size ((s.inodes node).size - off),
              (List.range (min size ((s.inodes node).size - off)).toNat).map
                (fun j : Nat => file_byte s node (off + (j : Int))), t)) := by
  refine ⟨?_, ?_, ?_⟩
  · intro hdir
    unfold storage_read
    rw [hpg]
    simp only [ne_eq, not_true_eq_false, if_false, hdir, if_true]
  · intro hreg hge
    unfold storage_read
    rw [hpg]
    simp only [ne_eq, not_true_eq_false, if_false, hreg, Bool.false_eq_true]
    rw [if_pos hge]
  · intro hreg hlt
    have hw := hwf hreg
    rw [storage_read_clip s path node size off hpg hreg hw.2.1 hoff hlt hs0 hs1]
    exact storage_read_ok s path node _ off hpg hreg hw hoff (by omega) (by omega)

/-- `storage_read` gives the same return value and the same bytes in two
states in which the path resolves to the same inode, with the same mode, size
and content. -/
theorem storage_read_same (s t : FS) (path : List Nat) (m : Int) (size off : Int)
    (hps : path_get_inode s path = some (0, m)) (hpt : path_get_inode t path = some (0, m))
    (hwfs : S_ISDIR (s.inodes m).mode = false → inode_wf s m)
    (hwft : S_ISDIR (s.inodes m).mode = false → inode_wf t m)
    (hmode : (t.inodes m).mode = (s.inodes m).mode)
    (hsize : (t.inodes m).size = (s.inodes m).size)
    (hbyte : ∀ i : Int, 0 ≤ i → i < (s.inodes m).size → file_byte t m i = file_byte s m i)
    (hoff : 0 ≤ off) (hs0 : 0 ≤ size) (hs1 : size < 18446744073709551616) :
    code_of (storage_read t path size off) = code_of (storage_read s path size off)
    ∧ bytes_of (storage_read t path size off) = bytes_of (storage_read s path size off) := by
  obtain ⟨a1, a2, a3⟩ := storage_read_result s path m size off hps hwfs hoff hs0 hs1
  obtain ⟨b1, b2, b3⟩ := storage_read_result t path m size off hpt
    (by rw [hmode]; exact hwft) hoff hs0 hs1
  rw [hmode] at b1 b2 b3
  rw [hsize] at b2 b3
  cases hdir : S_ISDIR (s.inodes m).mode with
  | true =>
    rw [a1 hdir, b1 hdir]
    exact ⟨rfl, rfl⟩
  | false =>
    by_cases hge : off ≥ (s.inodes m).size
    · rw [a2 hdir hge, b2 hdir hge]
      exact ⟨rfl, rfl⟩
    · obtain ⟨u1, e1⟩ := a3 hdir (by omega)
      obtain ⟨u2, e2⟩ := b3 hdir (by omega)
      rw [e1, e2]
      refine ⟨rfl, ?_⟩
      show List.map _ _ = List.map _ _
      apply List.map_congr_left
      intro k hk
      have hk2 := List.mem_range.1 hk
      exact hbyte _ (by omega) (by omega)

/-! ## Removing one of several links -/

/-- Removing one link where no name is carried twice: let the path `a` (parent
components `parentA`, basename `ca`) and
the path `b` (components `compsB`) resolve to the same inode `m`, which has
at least two references and is not the directory `d1` that holds `a`; let the
directories on both paths be in order and share no page, and let `m` and these
directories be inodes of the table; let the walk of `b`
never look `ca` up in `d1`, and let every name it looks up in `d1` be carried
by one dirent only; let `m` satisfy the invariants of section 3.4, with its
bit set in the inode bitmap and with pages that are not pages of `d1`.  Then
`storage_unlink(a)` returns 0, `refs` of `m` drops by exactly one, the bit of
`m` is still set, size, pointers and every byte of the file are as before,
`storage_stat(b).st_nlink` is the old count minus one, and `storage_read(b)`
returns the same value and the same bytes as before. -/
theorem unlink_keeps_object (s : FS) (parentA compsB : List (List Nat)) (ca : List Nat)
    (m d1 : Int)
    (hvalidA : ∀ c ∈ parentA, valid_name c ∧ (c.length : Int) < DIR_NAME)
    (hca : valid_name ca ∧ (ca.length : Int) < DIR_NAME)
    (hvalidB : ∀ c ∈ compsB, valid_name c ∧ (c.length : Int) < DIR_NAME)
    (hresP : tree_lookup s (path_of parentA) = some d1)
    (hresA : tree_lookup s (path_of (parentA ++ [ca])) = some m)
    (hresB : tree_lookup s (path_of compsB) = some m) (hmT : in_table m)
    (hrefs : 2 ≤ (s.inodes m).refs) (hrefs2 : (s.inodes m).refs < 2147483648)
    (hmd : m ≠ d1)
    (hdirs : dirs_ok s
      (d1 :: (walk_dirs s parentA root_inode ++ walk_dirs s compsB root_inode)))
    (htab : ∀ e ∈ d1 :: (walk_dirs s parentA root_inode ++ walk_dirs s compsB root_inode),
      in_table e)
    (hsteps : ∀ p ∈ walk_steps s compsB root_inode, p.1 = d1 →
      p.2 ≠ ca ∧ name_once s d1 p.2)
    (hbit : bitmap_get s.inode_bitmap m.toNat = 1)
    (hwfm : inode_wf s m)
    (hpages : ∀ i : Nat, i < (bytes_to_pages (s.inodes d1).size).toNat →
      (s.inodes m).iptr ≠ page_at s d1 i
      ∧ ∀ k : Nat, k < (bytes_to_pages (s.inodes m).size).toNat →
          page_at s m k ≠ page_at s d1 i) :
    ∃ t, storage_unlink s (path_of (parentA ++ [ca])) = some (0, t)
      ∧ (t.inodes m).refs = (s.inodes m).refs - 1
      ∧ bitmap_get t.inode_bitmap m.toNat = 1
      ∧ (t.inodes m).size = (s.inodes m).size
      ∧ (t.inodes m).ptrs0 = (s.inodes m).ptrs0 ∧ (t.inodes m).ptrs1 = (s.inodes m).ptrs1
      ∧ (t.inodes m).iptr = (s.inodes m).iptr
      ∧ (∀ i : Int, 0 ≤ i → i < (s.inodes m).size → file_byte t m i = file_byte s m i)
      ∧ (∃ sb, storage_stat t (path_of compsB) = some (0, sb)
          ∧ sb.st_nlink = (s.inodes m).refs - 1)
      ∧ (∀ size off : Int, 0 ≤ off → 0 ≤ size → size < 18446744073709551616 →
          code_of (storage_read t (path_of compsB) size off)
            = code_of (storage_read s (path_of compsB) size off)
          ∧ bytes_of (storage_read t (path_of compsB) size off)
            = bytes_of (storage_read s (path_of compsB) size off)) := by
  have hvA : ∀ c ∈ parentA, valid_name c := fun c hc => (hvalidA c hc).1
  have hvB : ∀ c ∈ compsB, valid_name c := fun c hc => (hvalidB c hc).1
  have hca47 : ∀ x ∈ ca, x ≠ 47 := fun x hx => (hca.1.2 x hx).1
  have hca0 : ∀ x ∈ ca, x ≠ 0 := fun x hx => (hca.1.2 x hx).2.1
  have hd1mem : d1 ∈ d1 :: (walk_dirs s parentA root_inode ++ walk_dirs s compsB root_inode) :=
    List.mem_cons_self _ _
  have hBmem : ∀ d ∈ walk_dirs s compsB root_inode,
      d ∈ d1 :: (walk_dirs s parentA root_inode ++ walk_dirs s compsB root_inode) :=
    fun d hd => List.mem_cons_of_mem _ (List.mem_append_right _ hd)
  have hokd1 := (hdirs d1 hd1mem).1
  have hm0 : 0 ≤ m := hmT.1
  have hd0 : 0 ≤ d1 := (htab d1 hd1mem).1
  have hdN : d1 < num_inodes := in_table_lt (htab d1 hd1mem)
  -- the dirent of `a`
  have hlook : directory_lookup s d1 ca = m := by
    rw [tree_lookup_snoc s parentA ca d1 hvA hca.1 hresP hd0 hdN] at hresA
    exact Option.some.inj hresA
  obtain ⟨j, hfind, hvj⟩ := dir_find_of_lookup s d1 ca m hokd1 hlook hm0
  obtain ⟨j0, j1, jnamed, _⟩ := dir_find_some hfind
  have hmr := hokd1.2.2 j.toNat (by clear hvj hlook; omega)
  rw [Int.toNat_of_nonneg j0, hvj] at hmr
  have hto : to_int ((s.inodes m).refs - 1) = (s.inodes m).refs - 1 :=
    to_int_of_range (by clear hvj hlook; omega) (by clear hvj hlook; omega)
  have hpos : 0 < to_int ((s.inodes m).refs - 1) := by
    rw [hto]; clear hvj hlook; omega
  obtain ⟨t, p1, p2, p3, p4, p5, _, p7, p8⟩ :=
    directory_delete_dirs s _ d1 ca j m hdirs hd1mem hfind hvj (Or.inl hpos)
  obtain ⟨b1, b2, b3, b4⟩ := p8 hpos
  obtain ⟨f1, f2, f3, f4⟩ := b2 m hmd
  have hrefsT : (t.inodes m).refs = (s.inodes m).refs - 1 := by
    rw [(p7 m).2, if_pos rfl, hto]
  -- the bytes of the pages of `m`
  have hout : ∀ x a : Int, in_page x a →
      (∀ i : Nat, i < (bytes_to_pages (s.inodes d1).size).toNat → x ≠ page_at s d1 i) →
      t.mem a = s.mem a := by
    intro x a hin hne
    apply b3
    intro i hi hin2
    exact hne i hi (in_page_disjoint hin hin2)
  have hmemI : ∀ a : Int, in_page (s.inodes m).iptr a → t.mem a = s.mem a :=
    fun a ha => hout _ a ha (fun i hi => (hpages i hi).1)
  have hp1026 := bytes_to_pages_le_max hwfm.2.1
  have hpaM : ∀ k : Int, 0 ≤ k → k < bytes_to_pages (s.inodes m).size →
      page_at t m k = page_at s m k :=
    fun k h0 h1 => page_at_congr s t m k f2 f3 f4 hmemI h0 (by omega)
  have hbyte : ∀ i : Int, 0 ≤ i → i < (s.inodes m).size → file_byte t m i = file_byte s m i := by
    intro i hi0 hi1
    have hk : i / 4096 < bytes_to_pages (s.inodes m).size := by
      unfold bytes_to_pages page_size; omega
    have hk0 : 0 ≤ i / 4096 := by omega
    unfold file_byte
    rw [hpaM _ hk0 hk]
    apply hout (page_at s m (i / 4096))
    · unfold in_page pages_get_page page_size; omega
    · intro i2 hi2
      have := (hpages i2 hi2).2 (i / 4096).toNat (by omega)
      rwa [Int.toNat_of_nonneg hk0] at this
  -- the pages of `m` are still allocated
  have hbitP : ∀ x : Int, page_ok s x →
      (∀ i : Nat, i < (bytes_to_pages (s.inodes d1).size).toNat → x ≠ page_at s d1 i) →
      page_ok t x := by
    intro x hx hne
    have h17 : inode_end_page = 17 := rfl
    have hx1 := hx.1
    refine ⟨hx.1, hx.2.1, ?_⟩
    rw [b4 x.toNat]
    · exact hx.2.2
    · intro i hi
      rw [Int.toNat_of_nonneg (by omega)]
      exact hne i hi
  have hwft : inode_wf t m := by
    apply inode_wf_congr_ok s t m hwfm f1 f2 f3 f4
    · intro hI
      exact hbitP _ (hwfm.2.2.2.2.2.1 hI) (fun i hi => (hpages i hi).1)
    · intro k hk
      exact hbitP _ (hwfm.2.2.2.2.2.2.2.1 k hk).1 (fun i hi => (hpages i hi).2 k hk)
    · exact hmemI
  -- the path `b` after the call
  have hmN : m < num_inodes := hmr.2
  rw [tree_lookup_path_of s compsB hvB] at hresB
  have hBt : tree_lookup t (path_of compsB) = some m := by
    rw [tree_lookup_path_of t compsB hvB]
    apply tree_walk_keep_steps s t compsB root_inode m hresB hm0
    intro p hp _
    obtain ⟨hpd, hpc⟩ := walk_steps_mem s compsB root_inode p hp
    have hpD := hBmem p.1 hpd
    by_cases hpd1 : p.1 = d1
    · obtain ⟨hne, honce⟩ := hsteps p hp hpd1
      rw [hpd1]
      have hcj : ent_named s d1 j p.2 = false := by
        cases hb : ent_named s d1 j p.2 with
        | false => rfl
        | true =>
          exfalso
          exact hne (streq_mem_unique _ _ _ _ hb jnamed
            (fun x hx => ((hvalidB p.2 hpc).1.2 x hx).2.1) hca0)
      exact lookup_delete_other s t d1 ca p.2 j hokd1 (p2 d1 hd1mem).1 p4 hfind p5
        (hvalidB p.2 hpc).2 hcj honce
    · exact dir_same_lookup (hdirs p.1 hpD).1.1 (p3 p.1 hpD hpd1) p.2 (hvalidB p.2 hpc).2
  have hpgs : path_get_inode s (path_of compsB) = some (0, m) :=
    path_get_inode_of_lookup s _ m (by rw [tree_lookup_path_of s compsB hvB]; exact hresB)
      hm0 hmN
  have hpgt : path_get_inode t (path_of compsB) = some (0, m) :=
    path_get_inode_of_lookup t _ m hBt hm0 hmN
  refine ⟨t, ?_, hrefsT, by rw [b1]; exact hbit, f1, f2, f3, f4, hbyte, ?_, ?_⟩
  · have h2 : path_get_inode s (get_parent_dir (path_of (parentA ++ [ca]))) = some (0, d1) := by
      rw [get_parent_dir_path_of parentA ca hca47]
      exact path_get_inode_of_lookup s _ d1 hresP hd0 hdN
    rw [storage_unlink_eq s _ m d1 (path_get_inode_of_lookup s _ m hresA hm0 hmN) h2,
      basename_path_of parentA ca hca47]
    exact p1
  · exact ⟨_, storage_stat_eq t _ m hpgt, hrefsT⟩
  · intro size off hoff hs0 hs1
    exact storage_read_same s t _ m size off hpgs hpgt (fun _ => hwfm) (fun _ => hwft)
      (p7 m).1 f1 hbyte hoff hs0 hs1

/-- The same at the volume on which the file with the content `hello` has the
names `/f` and `/b`, for `unlink("/f")`. -/
theorem unlink_keeps_object_example :
    ∃ t, storage_unlink vol_f_link (path_of ([] ++ [[102]])) = some (0, t)
      ∧ (t.inodes 1).refs = (vol_f_link.inodes 1).refs - 1
      ∧ bitmap_get t.inode_bitmap (1 : Int).toNat = 1
      ∧ (t.inodes 1).size = (vol_f_link.inodes 1).size
      ∧ (t.inodes 1).ptrs0 = (vol_f_link.inodes 1).ptrs0
      ∧ (t.inodes 1).ptrs1 = (vol_f_link.inodes 1).ptrs1
      ∧ (t.inodes 1).iptr = (vol_f_link.inodes 1).iptr
      ∧ (∀ i : Int, 0 ≤ i → i < (vol_f_link.inodes 1).size →
          file_byte t 1 i = file_byte vol_f_link 1 i)
      ∧ (∃ sb, storage_stat t (path_of [[98]]) = some (0, sb)
          ∧ sb.st_nlink = (vol_f_link.inodes 1).refs - 1)
      ∧ (∀ size off : Int, 0 ≤ off → 0 ≤ size → size < 18446744073709551616 →
          code_of (storage_read t (path_of [[98]]) size off)
            = code_of (storage_read vol_f_link (path_of [[98]]) size off)
          ∧ bytes_of (storage_read t (path_of [[98]]) size off)
            = bytes_of (storage_read vol_f_link (path_of [[98]]) size off)) :=
  unlink_keeps_object vol_f_link [] [[98]] [102] 1 0 (by decide) (by decide) (by decide)
    (by decide) (by decide) (by decide) (by decide) (by decide) (by decide) (by decide)
    (by decide) (by decide) (by decide) (by decide) (by decide) (by decide)

/-! ## Rename -/

/-- C11 (the code at the failing input): on `vol_dup`, the volume after
`mknod("/a")`, `link("/a", "/b")`, `mknod("/q")` and `link("/q", "/b")`, each of
which returns 0, the inode 1 has two references and is
reached by the dirents `/a` and `/b`, while a second dirent `b` of the root
names inode 2 (two references); `storage_unlink("/a")` returns 0 and drops one
reference of inode 1, but the last dirent takes the place of the removed one,
so that `/b` now resolves to inode 2 and `storage_stat("/b").st_nlink` is 2,
not the old count minus one. -/
theorem C11_unlink_duplicate_name_redirects :
    code_of (storage_mknod fresh path_a mode_file) = some 0
    ∧ code_of (storage_link vol_a path_a path_b) = some 0
    ∧ code_of (storage_mknod (state_after (storage_link vol_a path_a path_b)) path_q mode_file)
        = some 0
    ∧ code_of (storage_link
        (state_after (storage_mknod (state_after (storage_link vol_a path_a path_b)) path_q
          mode_file)) path_q path_b) = some 0
    ∧ (stat_of (storage_stat vol_dup path_a)).st_ino = 1
    ∧ (stat_of (storage_stat vol_dup path_b)).st_ino = 1
    ∧ (stat_of (storage_stat vol_dup path_b)).st_nlink = 2
    ∧ code_of (storage_unlink vol_dup path_a) = some 0
    ∧ ((state_after (storage_unlink vol_dup path_a)).inodes 1).refs = 1
    ∧ code_of (storage_stat (state_after (storage_unlink vol_dup path_a)) path_b) = some 0
    ∧ (stat_of (storage_stat (state_after (storage_unlink vol_dup path_a)) path_b)).st_ino = 2
    ∧ (stat_of (storage_stat (state_after (storage_unlink vol_dup path_a)) path_b)).st_nlink
        = 2 := by
  decide

/-! ## Lookups in a directory with arbitrary inums -/

/-- In a well-formed directory in which the first dirent with the name, if
there is one, has an inum greater than zero, `directory_lookup` returns the
inum of that dirent, and `-ENOENT` when no dirent has the name. -/
theorem directory_lookup_first (s : FS) (d : Int) (name : List Nat) (h : dir_wf s d)
    (hfound : ∀ j : Int, dir_find s d name (dir_count s d).toNat 0 = some j →
      0 < ent_inum s d j) :
    directory_lookup s d name
      = match dir_find s d name (dir_count s d).toNat 0 with
        | none => -ENOENT
        | some j => ent_inum s d j := by
  obtain ⟨hwf, hm, hs⟩ := h
  have h0 : 0 ≤ (s.inodes d).size := hwf.1
  have hS : sizeof_dirent = 52 := rfl
  rw [hS] at hm hs
  obtain ⟨d1, d2, d3, _⟩ := dir_sizes s d h0 hm hs
  have hbp : bytes_to_pages (s.inodes d).size = ((s.inodes d).size + 4095) / 4096 := by
    unfold bytes_to_pages; rfl
  have hcnt : dir_count s d = (s.inodes d).size / 52 := rfl
  unfold directory_lookup
  rw [d3, hbp]
  have hcase : (s.inodes d).size = 0 ∨ (1 ≤ (s.inodes d).size / 52 ∧ (s.inodes d).size / 52 ≤ 78)
      ∨ (79 ≤ (s.inodes d).size / 52 ∧ (s.inodes d).size / 52 ≤ 156) := by omega
  rcases hcase with hz | ⟨hl, hu⟩ | ⟨hl, hu⟩
  · rw [hcnt, hz]
    rfl
  · have hp : ((s.inodes d).size + 4095) / 4096 = 1 := by omega
    rw [hp]
    show directory_lookup_loop s d name 1 0 = _
    simp only [directory_lookup_loop]
    rw [inode_get_page_wf hwf 0 (le_refl _) (by rw [hbp, hp]; decide)]
    simp only []
    rw [directory_page_length_eq s d 0 h0 hs]
    have hq : (s.inodes d).size / 4096 = 0 := by omega
    rw [hq]
    simp only [lt_irrefl, if_false, mul_zero, sub_zero]
    have hb := page_find_name_block s d name 0 ((s.inodes d).size / 52).toNat 0 (le_refl _)
      (by omega)
    simp only [mul_zero, add_zero] at hb
    rw [hb]
    rw [hcnt] at hfound ⊢
    cases hf : dir_find s d name ((s.inodes d).size / 52).toNat 0 with
    | none => simp
    | some j => simp [hfound j hf]
  · have hp : ((s.inodes d).size + 4095) / 4096 = 2 := by omega
    rw [hp]
    show directory_lookup_loop s d name 2 0 = _
    simp only [directory_lookup_loop]
    rw [inode_get_page_wf hwf 0 (le_refl _) (by rw [hbp, hp]; decide)]
    rw [inode_get_page_wf hwf (0 + 1) (by decide) (by rw [hbp, hp]; decide)]
    simp only []
    rw [directory_page_length_eq s d 0 h0 hs, directory_page_length_eq s d (0 + 1) h0 hs]
    have hq : (s.inodes d).size / 4096 = 1 := by omega
    rw [hq]
    have e1 : ((if (0:Int) < 1 then (78:Int) else (s.inodes d).size / 52 - 78 * 1)).toNat = 78 := by
      simp
    have e2 : ((if (0:Int) + 1 < 1 then (78:Int) else (s.inodes d).size / 52 - 78 * 1)).toNat
        = ((s.inodes d).size / 52).toNat - 78 := by
      simp only [zero_add, lt_irrefl, if_false]
      omega
    rw [e1, e2]
    have hb0 := page_find_name_block s d name 0 78 0 (le_refl _) (by decide)
    have hb1 := page_find_name_block s d name (0 + 1) (((s.inodes d).size / 52).toNat - 78) 0
      (le_refl _) (by omega)
    simp only [mul_zero, add_zero, zero_add, mul_one] at hb0 hb1
    simp only [zero_add]
    rw [hb0, hb1]
    have hsplit : ((s.inodes d).size / 52).toNat = 78 + (((s.inodes d).size / 52).toNat - 78) := by
      omega
    rw [hcnt] at hfound ⊢
    have hap := dir_find_append s d name 78 (((s.inodes d).size / 52).toNat - 78) 0
    rw [← hsplit] at hap
    simp only [zero_add, Nat.cast_ofNat] at hap
    cases hf0 : dir_find s d name 78 0 with
    | some j =>
      rw [hf0] at hap
      simp only [] at hap
      rw [hap]
      simp [hfound j hap]
    | none =>
      rw [hf0] at hap
      simp only [] at hap
      rw [hap]
      cases hf1 : dir_find s d name (((s.inodes d).size / 52).toNat - 78) 78 with
      | none => simp
      | some j =>
        rw [hf1] at hap
        simp [hfound j hap]

/-! ## The inode allocator and the inode table -/

/-- C26 (the code at failing inputs): `get_inode` accepts every index below
`num_inodes = num_pages - 1 = 262143`, although the sixteen pages of the
inode table hold `16 * 4096 / 40 = 1638` records.  For the index 1638 it
returns a record that starts inside page 16 and ends inside page 17, the
first data page; for the last index it accepts the record lies far in the
data area; and for the index -1 it returns a record in page 0, before the
table.  None of these is the null pointer. -/
theorem C26_get_inode_past_table :
    (inode_end_page - inode_start_page) * page_size / sizeof_inode = 1638
    ∧ get_inode 1638 = some 1638
    ∧ inode_addr 1638 < pages_get_page inode_end_page
    ∧ pages_get_page inode_end_page < inode_addr 1638 + sizeof_inode
    ∧ get_inode (num_inodes - 1) = some (num_inodes - 1)
    ∧ pages_get_page inode_end_page < inode_addr (num_inodes - 1)
    ∧ get_inode (-1) = some (-1)
    ∧ inode_addr (-1) < pages_get_page inode_start_page := by
  decide

/-! ## The code at failing inputs: lookup, delete, put, rename -/

/-- C22 (counterexample): on the fresh volume `link("/", "/r")` returns 0 and
leaves the root directory, a well-formed inode with its one page attached,
with one dirent: its name is `r`, its inum is 0.  `directory_lookup` of `r` in
that directory answers `-ENOENT` although an entry has the name: the scan
takes a match only when its inum is greater than zero. -/
theorem C22_lookup_skips_root_link :
    code_of (storage_link fresh [47] path_r) = some 0
    ∧ dir_wf vol_root_link 0
    ∧ (inode_get_page vol_root_link 0 0).isSome = true
    ∧ dir_count vol_root_link 0 = 1
    ∧ ent_named vol_root_link 0 0 [114] = true
    ∧ ent_inum vol_root_link 0 0 = 0
    ∧ directory_lookup vol_root_link 0 [114] = -ENOENT := by
  decide

/-- A directory that holds the last link to itself: after `mkdir("/d")`,
`link("/d", "/d/s")` and `rmdir("/d")` the directory inode 1 is allocated and in order, has one
reference and holds one dirent, called `s`, whose inum is 1: the directory
holds the last link to itself.  `directory_delete` of `s` in that directory
does not return 0 but `-EINVAL`: `free_inode` releases the directory with its
page and sets its size to 0 before the dirent is removed, and the final
`shrink_inode` by one dirent finds the size too small.  No path leads to this
directory any more, so no operation of `storage.c` makes this call. -/
theorem delete_last_self_link_fails :
    code_of (storage_mknod fresh path_d 0o040755) = some 0
    ∧ code_of (storage_link vol_d path_d path_d_s) = some 0
    ∧ code_of (storage_unlink vol_d_s path_d) = some 0
    ∧ dir_ok vol_d_orphan 1
    ∧ bitmap_get vol_d_orphan.inode_bitmap 1 = 1
    ∧ (vol_d_orphan.inodes 1).refs = 1
    ∧ dir_count vol_d_orphan 1 = 1
    ∧ ent_named vol_d_orphan 1 0 [115] = true
    ∧ ent_inum vol_d_orphan 1 0 = 1
    ∧ code_of (directory_delete vol_d_orphan 1 [115]) = some (-EINVAL) := by
  decide

/-- C24 (the code at the failing input): the root directory of `vol_dir156`
is in order and holds 156 dirents; inode 1 is an allocated inode.  The grow
by one dirent succeeds (the 157 dirents the size then stands for fit two
pages), but `directory_put` does not return: it asks `inode_get_page` for
page `156 / 78 = 2` of the directory, gets the null pointer and writes the
dirent through it. -/
theorem C24_put_in_full_directory_faults :
    dir_ok vol_dir156 0
    ∧ dir_count vol_dir156 0 = 156
    ∧ get_inode 1 = some 1
    ∧ bitmap_get vol_dir156.inode_bitmap 1 = 1
    ∧ (grow_inode vol_dir156 0 sizeof_dirent).1 = 0
    ∧ inode_get_page (grow_inode vol_dir156 0 sizeof_dirent).2 0 (cdiv 156 ents_per_page) = none
    ∧ code_of (directory_put vol_dir156 0 [122, 122] 1) = none := by
  decide

/-- C27 (the code at the failing input): `/f` is a regular file of
`vol_f_hello` with inode 1, one link and 5 bytes.  `storage_rename("/f",
"/f")` returns 0, and afterwards `/f` is gone: `storage_stat` and
`storage_read` answer `-ENOENT`, the root directory is empty, and the bit of
inode 1 and the bit of its data page are clear. -/
theorem C27_rename_onto_itself_removes_file :
    storage_stat vol_f_hello path_f
      = some (0, ⟨1, mode_file, 1, 5, (vol_f_hello.inodes 1).atime, (vol_f_hello.inodes 1).mtime⟩)
    ∧ bitmap_get vol_f_hello.inode_bitmap 1 = 1
    ∧ code_of (storage_read vol_f_hello path_f 5 0) = some 5
    ∧ code_of (storage_rename vol_f_hello path_f path_f) = some 0
    ∧ code_of (storage_stat (state_after (storage_rename vol_f_hello path_f path_f)) path_f)
        = some (-ENOENT)
    ∧ code_of (storage_read (state_after (storage_rename vol_f_hello path_f path_f)) path_f 5 0)
        = some (-ENOENT)
    ∧ dir_count (state_after (storage_rename vol_f_hello path_f path_f)) 0 = 0
    ∧ bitmap_get (state_after (storage_rename vol_f_hello path_f path_f)).inode_bitmap 1 = 0
    ∧ bitmap_get vol_f_hello.pages_bitmap ((vol_f_hello.inodes 1).ptrs0).toNat = 1
    ∧ bitmap_get (state_after (storage_rename vol_f_hello path_f path_f)).pages_bitmap
        ((vol_f_hello.inodes 1).ptrs0).toNat = 0 := by
  decide

/-- C28 (the code at the failing input): in a directory whose size stands
for 157 dirents of 52 bytes, the slot of entry 156 is in page `156 / 78 = 2`,
while `directory_num_pages` is 2: `inode_get_page` returns the null pointer
for that page, and `directory_page_length` gives page 1 the length 79, one
more than `ents_per_page`. -/
theorem C28_slot_past_directory_pages (s : FS) (d : Int)
    (hsize : (s.inodes d).size = 157 * sizeof_dirent) :
    ents_per_page = 78
    ∧ to_int (to_size_t (s.inodes d).size / sizeof_dirent) = 157
    ∧ cdiv (157 - 1) ents_per_page = 2
    ∧ directory_num_pages s d = 2
    ∧ inode_get_page s d (cdiv (157 - 1) ents_per_page) = none
    ∧ directory_page_length s d 0 = 78
    ∧ directory_page_length s d 1 = 79 := by
  refine ⟨by decide, ?_, by decide, ?_, ?_, ?_, ?_⟩
  · rw [hsize]; decide
  · unfold directory_num_pages
    rw [hsize]; decide
  · unfold inode_get_page
    rw [hsize, if_pos (by decide)]
  · unfold directory_page_length
    rw [hsize]; decide
  · unfold directory_page_length
    rw [hsize]; decide

/-- C28 at the root directory of `vol_dir156` once `directory_put` has grown
it by one dirent. -/
theorem C28_slot_past_directory_pages_witness :
    ((grow_inode vol_dir156 0 sizeof_dirent).2.inodes 0).size = 157 * sizeof_dirent
    ∧ (ents_per_page = 78
      ∧ to_int (to_size_t ((grow_inode vol_dir156 0 sizeof_dirent).2.inodes 0).size
          / sizeof_dirent) = 157
      ∧ cdiv (157 - 1) ents_per_page = 2
      ∧ directory_num_pages (grow_inode vol_dir156 0 sizeof_dirent).2 0 = 2
      ∧ inode_get_page (grow_inode vol_dir156 0 sizeof_dirent).2 0
          (cdiv (157 - 1) ents_per_page) = none
      ∧ directory_page_length (grow_inode vol_dir156 0 sizeof_dirent).2 0 0 = 78
      ∧ directory_page_length (grow_inode vol_dir156 0 sizeof_dirent).2 0 1 = 79) :=
  ⟨by decide, C28_slot_past_directory_pages (grow_inode vol_dir156 0 sizeof_dirent).2 0 (by decide)⟩

/-! ## The directory operations -/

/-- C22 (amended): in a well-formed directory (a whole number of dirents, at
most 156, its pages attached) in which every dirent called `name` holds an
inum greater than zero, `directory_lookup` returns the inum of the first
dirent called `name`, in the order of the dirent index (page `j / 78`, slot
`j % 78`), and it returns `-ENOENT` if and only if no dirent of the directory
is called `name`. -/
theorem C22_lookup_first_match (s : FS) (d : Int) (name : List Nat)
    (hwf : dir_wf s d)
    (hpos : ∀ j : Nat, j < (dir_count s d).toNat → ent_named s d j name = true →
      0 < ent_inum s d j) :
    (∀ j : Int, 0 ≤ j → j < dir_count s d → ent_named s d j name = true →
        (∀ i : Int, 0 ≤ i → i < j → ent_named s d i name = false) →
        directory_lookup s d name = ent_inum s d j)
    ∧ (directory_lookup s d name = -ENOENT
        ↔ ∀ j : Int, 0 ≤ j → j < dir_count s d → ent_named s d j name = false) := by
  have hfound : ∀ j : Int, dir_find s d name (dir_count s d).toNat 0 = some j →
      0 < ent_inum s d j := by
    intro j hj
    obtain ⟨a1, a2, a3, _⟩ := dir_find_some hj
    have := hpos j.toNat (by omega) (by rw [Int.toNat_of_nonneg a1]; exact a3)
    rw [Int.toNat_of_nonneg a1] at this
    exact this
  have hl := directory_lookup_first s d name hwf hfound
  constructor
  · intro j hj0 hj1 hj2 hj3
    have hf : dir_find s d name (dir_count s d).toNat 0 = some j :=
      dir_find_eq_some hj0 (by omega) hj2 hj3
    rw [hl, hf]
  · constructor
    · intro hnf
      cases hf : dir_find s d name (dir_count s d).toNat 0 with
      | none =>
        intro j hj0 hj1
        exact dir_find_none hf j hj0 (by omega)
      | some j =>
        exfalso
        have hp := hfound j hf
        rw [hf] at hl
        have e : directory_lookup s d name = ent_inum s d j := hl
        rw [← e, hnf] at hp
        exact absurd hp (by decide)
    · intro hall
      have hf : dir_find s d name (dir_count s d).toNat 0 = none :=
        dir_find_eq_none (fun i hi0 hi1 => hall i hi0 (by omega))
      rw [hl, hf]

/-- C22 at the root directory of `vol_ab` and the name `b`, which the second
dirent carries. -/
theorem C22_lookup_first_match_witness :
    dir_wf vol_ab 0
    ∧ (∀ j : Nat, j < (dir_count vol_ab 0).toNat → ent_named vol_ab 0 j [98] = true →
        0 < ent_inum vol_ab 0 j)
    ∧ ((∀ j : Int, 0 ≤ j → j < dir_count vol_ab 0 → ent_named vol_ab 0 j [98] = true →
          (∀ i : Int, 0 ≤ i → i < j → ent_named vol_ab 0 i [98] = false) →
          directory_lookup vol_ab 0 [98] = ent_inum vol_ab 0 j)
      ∧ (directory_lookup vol_ab 0 [98] = -ENOENT
          ↔ ∀ j : Int, 0 ≤ j → j < dir_count vol_ab 0 → ent_named vol_ab 0 j [98] = false)) :=
  ⟨by decide, by decide, C22_lookup_first_match vol_ab 0 [98] (by decide) (by decide)⟩

end Nufs
